import Mathlib

/-!
# SinglyLinkedList.h: a memory-level model and its verification

The container of `SinglyLinkedList.h` is a chain of heap nodes reached from a
sentinel `head_` that is a member of the container object.  Iterators are raw
`Node*` values.  To speak about positions, sharing and deep copies the model
keeps one memory in which both kinds of object live at addresses:

* a `Node` allocated with `new` (`Cell.node`),
* a `SinglyLinkedList` object, that is its members `head_` and `size_`
  (`Cell.list`).  `head_` is the first member, so a `Node*` holding the address
  of the container designates its sentinel.

`new` is a bump allocator (the fresh address is the current length of the
memory), `delete` turns a cell into `Cell.free`.  `assert` is active (debug
build): a failed assertion is `Err.assertFailed`.  Reading or writing through a
null or dangling pointer is `Err.undefinedBehavior`.  The copy constructor of
the element type is a parameter `copy : α → Option α`; `none` is a thrown
exception (`Err.exception`).  `size_t` is modelled by `Nat`: the count never
exceeds the number of live nodes, each of which occupies its own address.
Loops that follow links carry a fuel bound taken from the size of the memory;
running out of it is `Err.outOfFuel`, and the theorems below show that it is
never the result on a well-formed memory.
-/

set_option autoImplicit false

namespace SLL

/-- A `Node*`: `none` is `nullptr`, `some a` is the address `a`. -/
abbrev Ptr := Option Nat

/-- The struct `Node`: `Type value{}; Node* next_node = nullptr;`. -/
structure Node (α : Type) where
  value : α
  next_node : Ptr
deriving DecidableEq

/-- One memory cell: nothing, a heap `Node`, or a `SinglyLinkedList` object
(`Node head_; size_t size_`). -/
inductive Cell (α : Type) where
  | free
  | node (n : Node α)
  | list (head_ : Node α) (size_ : Nat)
deriving DecidableEq

/-- The memory: the cell at every address handed out so far. -/
abbrev Mem (α : Type) := List (Cell α)

/-- The ways an operation can end other than by returning. -/
inductive Err where
  | assertFailed
  | undefinedBehavior
  | exception
  | outOfFuel
deriving DecidableEq

/-- Outcome of an operation that may write memory: the memory afterwards and
either the returned value or the reason it did not return. -/
inductive Res (α β : Type) where
  | ok (w : Mem α) (r : β)
  | err (e : Err) (w : Mem α)
deriving DecidableEq

variable {α : Type}

/-! ## Memory primitives -/

/-- The `Node` object at address `a`: a heap node, or the `head_` of a container. -/
def getNode (w : Mem α) (a : Nat) : Option (Node α) :=
  match w[a]? with
  | some (.node n) => some n
  | some (.list h _) => some h
  | _ => none

/-- The write `a->next_node = nx`. -/
def setNext (w : Mem α) (a : Nat) (nx : Ptr) : Mem α :=
  match w[a]? with
  | some (.node n) => w.set a (.node ⟨n.value, nx⟩)
  | some (.list h s) => w.set a (.list ⟨h.value, nx⟩ s)
  | _ => w

/-- The statement `++size_` of the container at `this`. -/
def incSize (w : Mem α) (this : Nat) : Mem α :=
  match w[this]? with
  | some (.list h s) => w.set this (.list h (s + 1))
  | _ => w

/-- The statement `--size_` of the container at `this`; it is only reached
after `assert(!IsEmpty())`, so the subtraction never wraps. -/
def decSize (w : Mem α) (this : Nat) : Mem α :=
  match w[this]? with
  | some (.list h s) => w.set this (.list h (s - 1))
  | _ => w

/-- The statement `size_ = s`. -/
def setSize (w : Mem α) (this : Nat) (s : Nat) : Mem α :=
  match w[this]? with
  | some (.list h _) => w.set this (.list h s)
  | _ => w

/-- The expression `new Node(val, next)`: storage is obtained first, then the
value is copied into it; when the copy throws the storage is given back. -/
def newNode (copy : α → Option α) (w : Mem α) (val : α) (next : Ptr) : Res α Nat :=
  match copy val with
  | some v => .ok (w ++ [.node ⟨v, next⟩]) w.length
  | none => .err .exception (w ++ [.free])

/-- The statement `delete p` for a non-null `p`; only a node obtained from `new`
may be deleted. -/
def deleteNode (w : Mem α) (a : Nat) : Option (Mem α) :=
  match w[a]? with
  | some (.node _) => some (w.set a .free)
  | _ => none

/-! ## BasicIterator -/

/-- The pre-increment `operator++` of `BasicIterator`. -/
def BasicIterator.incr (w : Mem α) (node_ : Ptr) : Except Err Ptr :=
  match node_ with
  | none => .error .assertFailed
  | some a =>
    match getNode w a with
    | some n => .ok n.next_node
    | none => .error .undefinedBehavior

/-- The dereference `operator*` of `BasicIterator`. -/
def BasicIterator.deref (w : Mem α) (node_ : Ptr) : Except Err α :=
  match node_ with
  | none => .error .assertFailed
  | some a =>
    match getNode w a with
    | some n => .ok n.value
    | none => .error .undefinedBehavior

/-- Applies `operator++` to a position `k` times. -/
def advance (w : Mem α) (it : Ptr) : Nat → Except Err Ptr
  | 0 => .ok it
  | k + 1 =>
    match BasicIterator.incr w it with
    | .ok nx => advance w nx k
    | .error e => .error e

/-! ## Positions and queries of SinglyLinkedList -/

/-- The member `cbegin()` (and `begin()`): `Iterator{head_.next_node}`. -/
def cbegin (w : Mem α) (this : Nat) : Except Err Ptr :=
  match w[this]? with
  | some (.list h _) => .ok h.next_node
  | _ => .error .undefinedBehavior

/-- The member `cend()` (and `end()`): `Iterator{nullptr}`. -/
def cend : Ptr := none

/-- The member `before_begin()`: `Iterator{&head_}`. -/
def before_begin (this : Nat) : Ptr := some this

/-- The member `GetSize()`. -/
def GetSize (w : Mem α) (this : Nat) : Except Err Nat :=
  match w[this]? with
  | some (.list _ s) => .ok s
  | _ => .error .undefinedBehavior

/-- The member `IsEmpty()`: `GetSize() == 0`. -/
def IsEmpty (w : Mem α) (this : Nat) : Except Err Bool :=
  match GetSize w this with
  | .ok s => .ok (s == 0)
  | .error e => .error e

/-- The loop `for (it = first; it != last; ++it) out.push_back(*it)`,
at most `fuel` rounds. -/
def iterate : Nat → Mem α → Ptr → Ptr → Except Err (List α)
  | fuel, w, it, last =>
    if it != last then
      match fuel with
      | 0 => .error .outOfFuel
      | fuel + 1 =>
        match BasicIterator.deref w it with
        | .error e => .error e
        | .ok v =>
          match BasicIterator.incr w it with
          | .error e => .error e
          | .ok nx =>
            match iterate fuel w nx last with
            | .ok vs => .ok (v :: vs)
            | .error e => .error e
    else .ok []

/-- The elements seen by iterating the container from `begin()` to `end()`. -/
def toList (w : Mem α) (this : Nat) : Except Err (List α) :=
  match cbegin w this with
  | .ok b => iterate w.length w b cend
  | .error e => .error e

/-- Number of nodes met following `next_node` from `p` up to `nullptr`,
at most `fuel` of them. -/
def countNodes : Nat → Mem α → Ptr → Except Err Nat
  | _, _, none => .ok 0
  | 0, _, some _ => .error .outOfFuel
  | fuel + 1, w, some a =>
    match getNode w a with
    | none => .error .undefinedBehavior
    | some n =>
      match countNodes fuel w n.next_node with
      | .ok k => .ok (k + 1)
      | .error e => .error e

/-- Number of nodes reachable from the `next_node` of the sentinel. -/
def reachableCount (w : Mem α) (this : Nat) : Except Err Nat :=
  match getNode w this with
  | some h => countNodes w.length w h.next_node
  | none => .error .undefinedBehavior

/-! ## Mutating members -/

/-- The member `PushFront(value)`. -/
def PushFront (copy : α → Option α) (w : Mem α) (this : Nat) (value : α) : Res α Unit :=
  match w[this]? with
  | some (.list h _) =>
    match newNode copy w value h.next_node with
    | .err e w1 => .err e w1
    | .ok w1 a => .ok (incSize (setNext w1 this (some a)) this) ()
  | _ => .err .undefinedBehavior w

/-- The member `InsertAfter(pos, value)`. -/
def InsertAfter (copy : α → Option α) (w : Mem α) (this : Nat) (pos : Ptr) (value : α) :
    Res α Ptr :=
  match w[this]? with
  | some (.list _ _) =>
    match pos with
    | none => .err .assertFailed w
    | some prev_node =>
      match getNode w prev_node with
      | none => .err .undefinedBehavior w
      | some p =>
        match newNode copy w value p.next_node with
        | .err e w1 => .err e w1
        | .ok w1 a =>
          let w2 := incSize (setNext w1 prev_node (some a)) this
          match getNode w2 prev_node with
          | some p2 => .ok w2 p2.next_node
          | none => .err .undefinedBehavior w2
  | _ => .err .undefinedBehavior w

/-- The member `PopFront()`. -/
def PopFront (w : Mem α) (this : Nat) : Res α Unit :=
  match w[this]? with
  | some (.list h s) =>
    if s = 0 then .err .assertFailed w
    else
      match h.next_node with
      | none => .err .undefinedBehavior w
      | some first =>
        match getNode w first with
        | none => .err .undefinedBehavior w
        | some n =>
          match deleteNode w first with
          | none => .err .undefinedBehavior w
          | some w1 => .ok (decSize (setNext w1 this n.next_node) this) ()
  | _ => .err .undefinedBehavior w

/-- The member `EraseAfter(pos)`. -/
def EraseAfter (w : Mem α) (this : Nat) (pos : Ptr) : Res α Ptr :=
  match w[this]? with
  | some (.list _ s) =>
    if s = 0 then .err .assertFailed w
    else
      match pos with
      | none => .err .undefinedBehavior w
      | some p =>
        match getNode w p with
        | none => .err .undefinedBehavior w
        | some pn =>
          match pn.next_node with
          | none => .err .undefinedBehavior w
          | some node_to_erase =>
            match getNode w node_to_erase with
            | none => .err .undefinedBehavior w
            | some en =>
              let node_after_erased := en.next_node
              let w1 := setNext w p node_after_erased
              match deleteNode w1 node_to_erase with
              | none => .err .undefinedBehavior w1
              | some w2 => .ok (decSize w2 this) node_after_erased
  | _ => .err .undefinedBehavior w

/-- The `while (head_.next_node != nullptr)` loop of `Clear()`, at most `fuel`
evaluations of its condition. -/
def Clear.loop : Nat → Mem α → Nat → Res α Unit
  | 0, w, _ => .err .outOfFuel w
  | fuel + 1, w, this =>
    match getNode w this with
    | none => .err .undefinedBehavior w
    | some h =>
      match h.next_node with
      | none => .ok w ()
      | some first =>
        match getNode w first with
        | none => .err .undefinedBehavior w
        | some n =>
          match deleteNode w first with
          | none => .err .undefinedBehavior w
          | some w1 => Clear.loop fuel (setNext w1 this n.next_node) this

/-- The member `Clear()`. -/
def Clear (w : Mem α) (this : Nat) : Res α Unit :=
  match w[this]? with
  | some (.list _ _) =>
    match Clear.loop (w.length + 1) w this with
    | .ok w1 _ => .ok (setSize w1 this 0) ()
    | .err e w1 => .err e w1
  | _ => .err .undefinedBehavior w

/-- The member `swap(other)`: `std::swap` of `head_.next_node` and of `size_`. -/
def swap (w : Mem α) (this other : Nat) : Res α Unit :=
  match w[this]?, w[other]? with
  | some (.list h1 s1), some (.list h2 s2) =>
    .ok ((w.set this (.list ⟨h1.value, h2.next_node⟩ s2)).set other
      (.list ⟨h2.value, h1.next_node⟩ s1)) ()
  | _, _ => .err .undefinedBehavior w

/-- The destructor `~SinglyLinkedList()` followed by the release of the
storage of the object. -/
def destroy (w : Mem α) (this : Nat) : Res α Unit :=
  match Clear w this with
  | .ok w1 _ => .ok (w1.set this .free) ()
  | .err e w1 => .err e w1

/-! ## Assign and the constructors -/

/-- What the template `Assign` needs of its `InputIterator`: `!=`, `*` and `++`. -/
structure InputIterator (α σ : Type) where
  ne : σ → σ → Bool
  deref : Mem α → σ → Except Err α
  incr : Mem α → σ → Except Err σ

/-- The iterators of `std::initializer_list<Type>`: a pointer into the array of
values is the list of the values from it on; `values.end()` is `[]`. -/
def initIter : InputIterator α (List α) where
  ne := fun a b => a.length != b.length
  deref := fun _ a =>
    match a with
    | v :: _ => .ok v
    | [] => .error .undefinedBehavior
  incr := fun _ a =>
    match a with
    | _ :: t => .ok t
    | [] => .error .undefinedBehavior

/-- The `ConstIterator` of the container as an `InputIterator`. -/
def listIter : InputIterator α Ptr where
  ne := fun a b => a != b
  deref := BasicIterator.deref
  incr := BasicIterator.incr

/-- The `while (from != to)` loop of `Assign`; `node_ptr` is the address of the
node whose `next_node` member the `Node**` points to. -/
def Assign.loop {σ : Type} (copy : α → Option α) (I : InputIterator α σ) :
    Nat → Mem α → Nat → Nat → σ → σ → Res α Unit
  | fuel, w, tmp, node_ptr, from_, to_ =>
    if I.ne from_ to_ then
      match fuel with
      | 0 => .err .outOfFuel w
      | fuel + 1 =>
        match getNode w node_ptr with
        | none => .err .undefinedBehavior w
        | some np =>
          if np.next_node ≠ none then .err .assertFailed w
          else
            match I.deref w from_ with
            | .error e => .err e w
            | .ok x =>
              match newNode copy w x none with
              | .err e w1 => .err e w1
              | .ok w1 a =>
                let w2 := incSize (setNext w1 node_ptr (some a)) tmp
                match getNode w2 node_ptr with
                | none => .err .undefinedBehavior w2
                | some np2 =>
                  match np2.next_node with
                  | none => .err .undefinedBehavior w2
                  | some node_ptr2 =>
                    match I.incr w2 from_ with
                    | .error e => .err e w2
                    | .ok from2 => Assign.loop copy I fuel w2 tmp node_ptr2 from2 to_
    else .ok w ()

/-- The private member `Assign(from, to)`.  The local `tmp` is an object of its
own; when the loop throws, unwinding destroys it. -/
def Assign {σ : Type} [Inhabited α] (copy : α → Option α) (I : InputIterator α σ)
    (fuel : Nat) (w : Mem α) (this : Nat) (from_ to_ : σ) : Res α Unit :=
  let tmp := w.length
  let w0 := w ++ [Cell.list ⟨default, none⟩ 0]
  match Assign.loop copy I fuel w0 tmp tmp from_ to_ with
  | .err .exception w1 =>
    match destroy w1 tmp with
    | .ok w2 _ => .err .exception w2
    | .err e w2 => .err e w2
  | .err e w1 => .err e w1
  | .ok w1 _ =>
    match swap w1 this tmp with
    | .err e w2 => .err e w2
    | .ok w2 _ => destroy w2 tmp

/-- The default constructor: a new empty container object; returns its address. -/
def construct [Inhabited α] (w : Mem α) : Mem α × Nat :=
  (w ++ [Cell.list ⟨default, none⟩ 0], w.length)

/-- The constructor `SinglyLinkedList(std::initializer_list<Type> values)`.
When `Assign` throws, the object under construction never comes to exist. -/
def fromValues [Inhabited α] (copy : α → Option α) (w : Mem α) (values : List α) :
    Res α Nat :=
  let this := w.length
  let w0 := w ++ [Cell.list ⟨default, none⟩ 0]
  match Assign copy initIter values.length w0 this values [] with
  | .ok w1 _ => .ok w1 this
  | .err .exception w1 => .err .exception (w1.set this .free)
  | .err e w1 => .err e w1

/-- The copy constructor `SinglyLinkedList(const SinglyLinkedList& other)`. -/
def copyConstruct [Inhabited α] (copy : α → Option α) (w : Mem α) (other : Nat) :
    Res α Nat :=
  let this := w.length
  let w0 := w ++ [Cell.list ⟨default, none⟩ 0]
  match cbegin w0 other with
  | .error e => .err e w0
  | .ok b =>
    match Assign copy listIter w.length w0 this b cend with
    | .ok w1 _ => .ok w1 this
    | .err .exception w1 => .err .exception (w1.set this .free)
    | .err e w1 => .err e w1

/-- The copy assignment `operator=(const SinglyLinkedList& rhs)`. -/
def operator_assign [Inhabited α] (copy : α → Option α) (w : Mem α) (this rhs : Nat) :
    Res α Unit :=
  if this ≠ rhs then
    match copyConstruct copy w rhs with
    | .err e w1 => .err e w1
    | .ok w1 tmp =>
      match swap w1 this tmp with
      | .err e w2 => .err e w2
      | .ok w2 _ => destroy w2 tmp
  else .ok w ()

/-! ## Comparison -/

/-- The three-iterator `std::equal(first1, last1, first2)`, at most `fuel` rounds. -/
def std_equal [BEq α] : Nat → Mem α → Ptr → Ptr → Ptr → Except Err Bool
  | fuel, w, first1, last1, first2 =>
    if first1 != last1 then
      match fuel with
      | 0 => .error .outOfFuel
      | fuel + 1 =>
        match BasicIterator.deref w first1, BasicIterator.deref w first2 with
        | .ok a, .ok b =>
          if !(a == b) then .ok false
          else
            match BasicIterator.incr w first1, BasicIterator.incr w first2 with
            | .ok n1, .ok n2 => std_equal fuel w n1 last1 n2
            | .error e, _ => .error e
            | _, .error e => .error e
        | .error e, _ => .error e
        | _, .error e => .error e
    else .ok true

/-- The free `operator==` on two containers. -/
def operator_eq [BEq α] (w : Mem α) (lhs rhs : Nat) : Except Err Bool :=
  if lhs = rhs then .ok true
  else
    match GetSize w lhs, GetSize w rhs with
    | .ok s1, .ok s2 =>
      if s1 = s2 then
        match cbegin w lhs, cbegin w rhs with
        | .ok b1, .ok b2 => std_equal w.length w b1 cend b2
        | .error e, _ => .error e
        | _, .error e => .error e
      else .ok false
    | .error e, _ => .error e
    | _, .error e => .error e

/-- The free `operator!=`: `!(lhs == rhs)`. -/
def operator_ne [BEq α] (w : Mem α) (lhs rhs : Nat) : Except Err Bool :=
  match operator_eq w lhs rhs with
  | .ok b => .ok (!b)
  | .error e => .error e

/-! ## Specification vocabulary -/

/-- A cell with the `next_node` of its `Node` replaced. -/
def Cell.withNext (c : Cell α) (nx : Ptr) : Cell α :=
  match c with
  | .free => .free
  | .node n => .node ⟨n.value, nx⟩
  | .list h s => .list ⟨h.value, nx⟩ s

/-- A cell with the `size_` of its container replaced by `f size_`. -/
def Cell.mapSize (c : Cell α) (f : Nat → Nat) : Cell α :=
  match c with
  | .list h s => .list h (f s)
  | .node n => .node n
  | .free => .free


/-- The pointer to the first node of a chain, `q` when the chain has no node. -/
def startOf (l : List (Nat × α)) (q : Ptr) : Ptr :=
  match l with
  | [] => q
  | (a, _) :: _ => some a

/-- The heap nodes at the addresses of `l` hold the values of `l` and are
linked in this order, the last one to `q`. -/
def Seg (w : Mem α) : List (Nat × α) → Ptr → Prop
  | [], _ => True
  | (a, v) :: rest, q => w[a]? = some (.node ⟨v, startOf rest q⟩) ∧ Seg w rest q

/-- Addresses of the nodes of a chain. -/
def addrs (l : List (Nat × α)) : List Nat := l.map Prod.fst

/-- Values of the nodes of a chain. -/
def vals (l : List (Nat × α)) : List α := l.map Prod.snd

/-- The container object at `this` has count `s` and its sentinel heads the
chain `l`, which ends at `nullptr` and visits no node twice. -/
structure ReprS (w : Mem α) (this : Nat) (l : List (Nat × α)) (s : Nat) : Prop where
  head : ∃ d, w[this]? = some (.list ⟨d, startOf l none⟩ s)
  seg : Seg w l none
  nodup : (addrs l).Nodup

/-- The container object at `this` is represented by the chain `l`: as `ReprS`,
with the count equal to the number of nodes. -/
def Repr (w : Mem α) (this : Nat) (l : List (Nat × α)) : Prop := ReprS w this l l.length

/-- The invariant of the memory: every container object is represented by a
chain, and the chains of two containers share no node. -/
structure Valid (w : Mem α) : Prop where
  lists : ∀ this h s, w[this]? = some (.list h s) → ∃ l, Repr w this l
  sep : ∀ t1 t2 l1 l2, t1 ≠ t2 → Repr w t1 l1 → Repr w t2 l2 → ∀ a, a ∈ addrs l1 → a ∉ addrs l2

/-- Address of the node a position references after the nodes `l` of the
container at `this` have been passed: the last of them, or the sentinel. -/
def lastAddr (this : Nat) (l : List (Nat × α)) : Nat := ((addrs l).getLast?).getD this

/-- Whether a cell is a container object. -/
def Cell.isList (c : Cell α) : Bool :=
  match c with
  | .list _ _ => true
  | _ => false

/-- The memory `w2` differs from `w` below the length of `w` at most at the
addresses in `S`, is no shorter, and holds no container object that `w` did
not hold at the same address. -/
structure Frame (w w2 : Mem α) (S : Nat → Prop) : Prop where
  len : w.length ≤ w2.length
  cells : ∀ i, i < w.length → ¬ S i → w2[i]? = w[i]?
  lists : ∀ (i : Nat) (c : Cell α), w2[i]? = some c → c.isList = true →
    ∃ c0 : Cell α, w[i]? = some c0 ∧ c0.isList = true

/-- Result of a step on the container at `this`: the memory is valid again,
the container is represented by `l2`, every other container keeps its chain. -/
structure Step (w w2 : Mem α) (this : Nat) (l2 : List (Nat × α)) : Prop where
  valid : Valid w2
  repr : Repr w2 this l2
  others : ∀ t, t ≠ this → ∀ l, Repr w t l → Repr w2 t l
  len : w.length ≤ w2.length

/-- The copies of the values of a list, made front to back; `none` as soon as
one copy throws. -/
def copyAll (copy : α → Option α) : List α → Option (List α)
  | [] => some []
  | x :: xs =>
    match copy x with
    | none => none
    | some v =>
      match copyAll copy xs with
      | none => none
      | some vs => some (v :: vs)

/-! ## Programs over the container -/

/-- The memory a program continues with after an operation: the one it
returned with, or the one left by an exception it propagated; `none` when the
operation failed an assertion, had undefined behaviour or did not end. -/
def Res.final {β : Type} : Res α β → Option (Mem α)
  | .ok w _ => some w
  | .err .exception w => some w
  | .err _ _ => none

/-- One mutation of a container by a client.  A position is named by the
number of `++` steps that lead to it from `before_begin()`. -/
inductive Mutation (α : Type) where
  | pushFront (value : α)
  | insertAfter (k : Nat) (value : α)
  | popFront
  | eraseAfter (k : Nat)
  | clear

/-- Runs one mutation on the container at `this`. -/
def applyMutation (copy : α → Option α) (w : Mem α) (this : Nat) : Mutation α → Option (Mem α)
  | .pushFront value => (PushFront copy w this value).final
  | .insertAfter k value =>
    match advance w (before_begin this) k with
    | .ok pos => (InsertAfter copy w this pos value).final
    | .error _ => none
  | .popFront => (PopFront w this).final
  | .eraseAfter k =>
    match advance w (before_begin this) k with
    | .ok pos => (EraseAfter w this pos).final
    | .error _ => none
  | .clear => (Clear w this).final

/-- Runs a sequence of mutations on the container at `this`, in order. -/
def runMutations (copy : α → Option α) (w : Mem α) (this : Nat) : List (Mutation α) → Option (Mem α)
  | [] => some w
  | m :: ms =>
    match applyMutation copy w this m with
    | some w1 => runMutations copy w1 this ms
    | none => none

/-- The loop `for (v : values) list.PushFront(v)` (`InsertRange` of `main.cpp`
with its pushing function). -/
def PushFrontAll (copy : α → Option α) (w : Mem α) (this : Nat) : List α → Res α Unit
  | [] => .ok w ()
  | v :: vs =>
    match PushFront copy w this v with
    | .ok w1 _ => PushFrontAll copy w1 this vs
    | .err e w1 => .err e w1

/-- The memories a program can reach from the empty memory by the public
operations of the container, used within their preconditions: a position handed
to `InsertAfter` or `EraseAfter` of a container was obtained from the
`before_begin()` of that container by `++`. -/
inductive Reachable [Inhabited α] (copy : α → Option α) : Mem α → Prop where
  | empty : Reachable copy []
  | construct {w : Mem α} : Reachable copy w → Reachable copy (construct w).1
  | fromValues {w w2 : Mem α} (values : List α) : Reachable copy w →
      (fromValues copy w values).final = some w2 → Reachable copy w2
  | copyConstruct {w w2 : Mem α} (other : Nat) : Reachable copy w →
      (copyConstruct copy w other).final = some w2 → Reachable copy w2
  | assign {w w2 : Mem α} (this rhs : Nat) : Reachable copy w →
      (operator_assign copy w this rhs).final = some w2 → Reachable copy w2
  | mutate {w w2 : Mem α} (this : Nat) (m : Mutation α) : Reachable copy w →
      applyMutation copy w this m = some w2 → Reachable copy w2
  | swap {w w2 : Mem α} (this other : Nat) : Reachable copy w →
      (swap w this other).final = some w2 → Reachable copy w2

/-- Whether the elements of two sequences compare equal pairwise with the
`==` of the element type, up to the length of the shorter one. -/
def pairwiseEq [BEq α] : List α → List α → Bool
  | a :: as, b :: bs => (a == b) && pairwiseEq as bs
  | _, _ => true

/-- The memory after `SinglyLinkedList<int>({11, 10})` has been constructed in
the empty memory, as in `main.cpp`; the container is at address `0`. -/
def demo : Mem Nat :=
  match fromValues some [] [11, 10] with
  | .ok w _ => w
  | .err _ w => w

/-- The memory after a second container, `SinglyLinkedList<int>({13, 12})`, has
been constructed next to the one of `demo`; it is at address `4`. -/
def demo2 : Mem Nat :=
  match fromValues some demo [13, 12] with
  | .ok w _ => w
  | .err _ w => w

/-- An element copy that throws on the value `10` and succeeds on all others. -/
def copyExcept10 (x : Nat) : Option Nat := if x = 10 then none else some x

/-! ## Ordering and the free swap -/

/-- The four-iterator `std::lexicographical_compare(first1, last1, first2, last2)`
with the `<` of the element type, at most `fuel` rounds. -/
def std_lexicographical_compare (lt : α → α → Bool) :
    Nat → Mem α → Ptr → Ptr → Ptr → Ptr → Except Err Bool
  | fuel, w, first1, last1, first2, last2 =>
    if (first1 != last1) && (first2 != last2) then
      match fuel with
      | 0 => .error .outOfFuel
      | fuel + 1 =>
        match BasicIterator.deref w first1, BasicIterator.deref w first2 with
        | .ok a, .ok b =>
          if lt a b then .ok true
          else if lt b a then .ok false
          else
            match BasicIterator.incr w first1, BasicIterator.incr w first2 with
            | .ok n1, .ok n2 => std_lexicographical_compare lt fuel w n1 last1 n2 last2
            | .error e, _ => .error e
            | _, .error e => .error e
        | .error e, _ => .error e
        | _, .error e => .error e
    else .ok ((first1 == last1) && (first2 != last2))

/-- The free `operator<` on two containers. -/
def operator_lt (lt : α → α → Bool) (w : Mem α) (lhs rhs : Nat) : Except Err Bool :=
  match cbegin w lhs, cbegin w rhs with
  | .ok b1, .ok b2 => std_lexicographical_compare lt w.length w b1 cend b2 cend
  | .error e, _ => .error e
  | _, .error e => .error e

/-- The free `operator<=`: `!(rhs < lhs)`. -/
def operator_le (lt : α → α → Bool) (w : Mem α) (lhs rhs : Nat) : Except Err Bool :=
  match operator_lt lt w rhs lhs with
  | .ok b => .ok (!b)
  | .error e => .error e

/-- The free `operator>`: `rhs < lhs`. -/
def operator_gt (lt : α → α → Bool) (w : Mem α) (lhs rhs : Nat) : Except Err Bool :=
  operator_lt lt w rhs lhs

/-- The free `operator>=`: `!(lhs < rhs)`. -/
def operator_ge (lt : α → α → Bool) (w : Mem α) (lhs rhs : Nat) : Except Err Bool :=
  match operator_lt lt w lhs rhs with
  | .ok b => .ok (!b)
  | .error e => .error e

/-- The free function `swap(lhs, rhs)`: `lhs.swap(rhs)`. -/
def swap_free (w : Mem α) (lhs rhs : Nat) : Res α Unit :=
  swap w lhs rhs

/-- Lexicographic comparison of two sequences as a computation: the first
position at which one element is less than the other decides, and a sequence
that ends first is the lesser one. -/
def lexLess (lt : α → α → Bool) : List α → List α → Bool
  | [], [] => false
  | [], _ :: _ => true
  | _ :: _, [] => false
  | a :: as, b :: bs => if lt a b then true else if lt b a then false else lexLess lt as bs

/-- The sequence `LA` is lexicographically less than `LB`, in the words of the
specification: there is an index `i` before which the two never differ in the
order of the element type, and at `i` either `LA` is exhausted while `LB` is
not, or the element of `LA` is less than the element of `LB`. -/
def LexLess (lt : α → α → Bool) (LA LB : List α) : Prop :=
  ∃ i : Nat,
    (∀ (j : Nat) (a b : α), j < i → LA[j]? = some a → LB[j]? = some b →
      lt a b = false ∧ lt b a = false) ∧
    ((LA[i]? = none ∧ ∃ b, LB[i]? = some b) ∨
      ∃ a b, LA[i]? = some a ∧ LB[i]? = some b ∧ lt a b = true)

/-- The `<` of a record type that is ordered by its key, the first component,
only; the `==` of the type compares both components. -/
def keyLt (a b : Nat × Nat) : Bool := decide (a.1 < b.1)

/-- The memory after a container holding the one record `{1, 0}` and then a
container holding the one record `{1, 1}` have been constructed in the empty
memory from their initializer lists; the element type is a record of a key and
a payload whose `<` is `keyLt`.  The containers are at the addresses `0` and
`3`. -/
def demoKeyed : Mem (Nat × Nat) :=
  match fromValues some [] [(1, 0)] with
  | .ok w _ =>
    match fromValues some w [(1, 1)] with
    | .ok w2 _ => w2
    | .err _ w2 => w2
  | .err _ w => w

/-! ## Worked memories with an element `==` that is not reflexive -/

/-- The `==` of a floating-point element type on a model of its values:
`some n` is the number `n`, `none` is a NaN, which compares unequal to every
value, itself included. -/
def nanBEq : BEq (Option Nat) :=
  ⟨fun a b =>
    match a, b with
    | some x, some y => x == y
    | _, _ => false⟩

/-- Value-initialization of that element type: the number zero. -/
def nanInhabited : Inhabited (Option Nat) := ⟨some 0⟩

/-- The memory after a container holding the one value NaN has been constructed
in the empty memory from its initializer list; the container is at address
`0`. -/
def demoNaN : Mem (Option Nat) :=
  match @fromValues (Option Nat) nanInhabited some [] [none] with
  | .ok w _ => w
  | .err _ w => w

/-- The memory after the container of `demoNaN` has been copy-constructed; the
copy is at address `3`. -/
def demoNaNCopy : Mem (Option Nat) :=
  match @copyConstruct (Option Nat) nanInhabited some demoNaN 0 with
  | .ok w _ => w
  | .err _ w => w

/-- The memory after a second container has been constructed from the same
initializer list, the one value NaN, next to the one of `demoNaN`; it is at
address `3`. -/
def demoNaNTwice : Mem (Option Nat) :=
  match @fromValues (Option Nat) nanInhabited some demoNaN [none] with
  | .ok w _ => w
  | .err _ w => w

/-- The memory after `PopFront()` on the container of `demo`: the node at
address `2`, which held `11`, has been deleted. -/
def demoPopped : Mem Nat :=
  match PopFront demo 0 with
  | .ok w _ => w
  | .err _ w => w

/-! ## Pointwise description of the memory primitives -/

theorem getElem?_set_cell (w : Mem α) (a i : Nat) (c c' : Cell α) (h : w[a]? = some c) :
    (w.set a c')[i]? = if i = a then some c' else w[i]? := by
  obtain ⟨hlt, _⟩ := List.getElem?_eq_some.1 h
  by_cases hi : i = a
  · subst hi; simp [List.getElem?_set, hlt]
  · have : a ≠ i := fun e => hi e.symm
    simp [hi, List.getElem?_set, this]

theorem getElem?_setNext (w : Mem α) (a : Nat) (nx : Ptr) (i : Nat) :
    (setNext w a nx)[i]? = if i = a then (w[a]?).map (fun c => c.withNext nx) else w[i]? := by
  unfold setNext
  split <;> rename_i h
  · rw [getElem?_set_cell w a i _ _ h]; simp [h, Cell.withNext]
  · rw [getElem?_set_cell w a i _ _ h]; simp [h, Cell.withNext]
  · by_cases hi : i = a
    · subst hi
      cases hc : w[i]? with
      | none => simp
      | some c =>
        cases c with
        | free => simp [Cell.withNext]
        | node n => rename_i h2; exact absurd hc (h2 n)
        | list hd s => exact absurd hc (h hd s)
    · simp [hi]

theorem getElem?_mapSize_aux (w : Mem α) (a : Nat) (f : Nat → Nat) (i : Nat) :
    (match w[a]? with
      | some (.list h s) => w.set a (.list h (f s))
      | _ => w)[i]? = if i = a then (w[a]?).map (fun c => c.mapSize f) else w[i]? := by
  split <;> rename_i h
  · rw [getElem?_set_cell w a i _ _ h]; simp [h, Cell.mapSize]
  · by_cases hi : i = a
    · subst hi
      cases hc : w[i]? with
      | none => simp
      | some c =>
        cases c with
        | free => simp [Cell.mapSize]
        | node n => simp [Cell.mapSize]
        | list hd s => exact absurd hc (h hd s)
    · simp [hi]

theorem getElem?_incSize (w : Mem α) (a i : Nat) :
    (incSize w a)[i]? = if i = a then (w[a]?).map (fun c => c.mapSize (· + 1)) else w[i]? :=
  getElem?_mapSize_aux w a (· + 1) i

theorem getElem?_decSize (w : Mem α) (a i : Nat) :
    (decSize w a)[i]? = if i = a then (w[a]?).map (fun c => c.mapSize (· - 1)) else w[i]? :=
  getElem?_mapSize_aux w a (· - 1) i

theorem getElem?_setSize (w : Mem α) (a s i : Nat) :
    (setSize w a s)[i]? = if i = a then (w[a]?).map (fun c => c.mapSize (fun _ => s)) else w[i]? :=
  getElem?_mapSize_aux w a (fun _ => s) i

theorem length_setNext (w : Mem α) (a : Nat) (nx : Ptr) : (setNext w a nx).length = w.length := by
  unfold setNext; split <;> simp

theorem length_incSize (w : Mem α) (a : Nat) : (incSize w a).length = w.length := by
  unfold incSize; split <;> simp

theorem length_decSize (w : Mem α) (a : Nat) : (decSize w a).length = w.length := by
  unfold decSize; split <;> simp

theorem length_setSize (w : Mem α) (a s : Nat) : (setSize w a s).length = w.length := by
  unfold setSize; split <;> simp

theorem deleteNode_eq_some {w w1 : Mem α} {a : Nat} (h : deleteNode w a = some w1) :
    (∃ n, w[a]? = some (.node n)) ∧ w1.length = w.length ∧
      ∀ i, w1[i]? = if i = a then some .free else w[i]? := by
  unfold deleteNode at h
  split at h <;> rename_i hc
  · injection h with h; subst h
    exact ⟨⟨_, hc⟩, by simp, fun i => getElem?_set_cell w a i _ _ hc⟩
  · exact absurd h (by simp)

theorem deleteNode_of_node {w : Mem α} {a : Nat} {n : Node α} (h : w[a]? = some (.node n)) :
    deleteNode w a = some (w.set a .free) := by
  unfold deleteNode; simp [h]

theorem getElem?_snoc (w : Mem α) (c : Cell α) (i : Nat) :
    (w ++ [c])[i]? = if i = w.length then some c else w[i]? := by
  by_cases hi : i = w.length
  · subst hi; simp
  · simp only [hi, if_false]
    rcases Nat.lt_or_gt_of_ne hi with h | h
    · rw [List.getElem?_append_left h]
    · rw [List.getElem?_eq_none (by simp; omega), List.getElem?_eq_none (by omega)]


/-! ## Chains -/

@[simp] theorem startOf_nil (q : Ptr) : startOf ([] : List (Nat × α)) q = q := rfl

@[simp] theorem startOf_cons (a : Nat) (v : α) (l : List (Nat × α)) (q : Ptr) :
    startOf ((a, v) :: l) q = some a := rfl

theorem startOf_append (l1 l2 : List (Nat × α)) (q : Ptr) :
    startOf (l1 ++ l2) q = startOf l1 (startOf l2 q) := by
  cases l1 with
  | nil => rfl
  | cons x t => obtain ⟨a, v⟩ := x; rfl

@[simp] theorem addrs_nil : addrs ([] : List (Nat × α)) = [] := rfl

@[simp] theorem addrs_cons (x : Nat × α) (l : List (Nat × α)) : addrs (x :: l) = x.1 :: addrs l := rfl

@[simp] theorem addrs_append (l1 l2 : List (Nat × α)) : addrs (l1 ++ l2) = addrs l1 ++ addrs l2 := by
  simp [addrs]

@[simp] theorem vals_nil : vals ([] : List (Nat × α)) = [] := rfl

@[simp] theorem vals_cons (x : Nat × α) (l : List (Nat × α)) : vals (x :: l) = x.2 :: vals l := rfl

@[simp] theorem vals_append (l1 l2 : List (Nat × α)) : vals (l1 ++ l2) = vals l1 ++ vals l2 := by
  simp [vals]

@[simp] theorem length_vals (l : List (Nat × α)) : (vals l).length = l.length := by simp [vals]

@[simp] theorem length_addrs (l : List (Nat × α)) : (addrs l).length = l.length := by simp [addrs]

theorem Seg_append {w : Mem α} (l1 l2 : List (Nat × α)) (q : Ptr) :
    Seg w (l1 ++ l2) q ↔ Seg w l1 (startOf l2 q) ∧ Seg w l2 q := by
  induction l1 with
  | nil => simp [Seg]
  | cons x t ih =>
    obtain ⟨a, v⟩ := x
    show (w[a]? = some (.node ⟨v, startOf (t ++ l2) q⟩) ∧ Seg w (t ++ l2) q) ↔
      (w[a]? = some (.node ⟨v, startOf t (startOf l2 q)⟩) ∧ Seg w t (startOf l2 q)) ∧ Seg w l2 q
    rw [ih, startOf_append, and_assoc]

theorem Seg_cell {w : Mem α} {l : List (Nat × α)} {q : Ptr} (h : Seg w l q) {a : Nat}
    (ha : a ∈ addrs l) : ∃ n, w[a]? = some (.node n) := by
  induction l with
  | nil => simp at ha
  | cons x t ih =>
    obtain ⟨b, v⟩ := x
    simp only [addrs_cons, List.mem_cons] at ha
    rcases ha with rfl | ha
    · exact ⟨_, h.1⟩
    · exact ih h.2 ha

theorem Seg_lt {w : Mem α} {l : List (Nat × α)} {q : Ptr} (h : Seg w l q) {a : Nat}
    (ha : a ∈ addrs l) : a < w.length := by
  obtain ⟨n, hn⟩ := Seg_cell h ha
  exact (List.getElem?_eq_some.1 hn).1

theorem Seg_congr {w w' : Mem α} {l : List (Nat × α)} {q : Ptr} (h : Seg w l q)
    (hc : ∀ a, a ∈ addrs l → w'[a]? = w[a]?) : Seg w' l q := by
  induction l with
  | nil => trivial
  | cons x t ih =>
    obtain ⟨b, v⟩ := x
    refine ⟨?_, ih h.2 (fun a ha => hc a (by simp [ha]))⟩
    rw [hc b (by simp)]; exact h.1

theorem Seg_unique {w : Mem α} {l1 l2 : List (Nat × α)} {q : Ptr} (h1 : Seg w l1 q)
    (h2 : Seg w l2 q) (hs : startOf l1 q = startOf l2 q) (hl : l1.length = l2.length) :
    l1 = l2 := by
  induction l1 generalizing l2 with
  | nil =>
    cases l2 with
    | nil => rfl
    | cons y t2 => simp at hl
  | cons x t1 ih =>
    cases l2 with
    | nil => simp at hl
    | cons y t2 =>
      obtain ⟨a, v⟩ := x
      obtain ⟨b, u⟩ := y
      simp only [startOf_cons, Option.some.injEq] at hs
      subst hs
      have hc := h1.1.symm.trans h2.1
      simp only [Option.some.injEq, Cell.node.injEq, Node.mk.injEq] at hc
      obtain ⟨hv, hn⟩ := hc
      subst hv
      rw [ih h1.2 h2.2 hn (by simpa using hl)]

theorem length_le_of_nodup_lt {l : List Nat} {n : Nat} (hn : l.Nodup) (hl : ∀ a ∈ l, a < n) :
    l.length ≤ n := by
  have hsub : l.toFinset ⊆ Finset.range n := by
    intro a ha
    simp only [List.mem_toFinset] at ha
    simpa using hl a ha
  have := Finset.card_le_card hsub
  rwa [List.toFinset_card_of_nodup hn, Finset.card_range] at this

theorem ReprS.not_mem {w : Mem α} {this : Nat} {l : List (Nat × α)} {s : Nat}
    (h : ReprS w this l s) : this ∉ addrs l := by
  intro hm
  obtain ⟨n, hn⟩ := Seg_cell h.seg hm
  obtain ⟨d, hd⟩ := h.head
  rw [hd] at hn
  simp at hn

theorem ReprS.length_lt {w : Mem α} {this : Nat} {l : List (Nat × α)} {s : Nat}
    (h : ReprS w this l s) : l.length < w.length := by
  have hnd : (this :: addrs l).Nodup := List.nodup_cons.2 ⟨h.not_mem, h.nodup⟩
  have hlt : ∀ a ∈ this :: addrs l, a < w.length := by
    intro a ha
    simp only [List.mem_cons] at ha
    rcases ha with rfl | ha
    · obtain ⟨d, hd⟩ := h.head
      exact (List.getElem?_eq_some.1 hd).1
    · exact Seg_lt h.seg ha
  have := length_le_of_nodup_lt hnd hlt
  simp at this
  omega

theorem ReprS.eq_of_length {w : Mem α} {this : Nat} {l1 l2 : List (Nat × α)} {s1 s2 : Nat}
    (h1 : ReprS w this l1 s1) (h2 : ReprS w this l2 s2) (hl : l1.length = l2.length) :
    l1 = l2 := by
  obtain ⟨d1, e1⟩ := h1.head
  obtain ⟨d2, e2⟩ := h2.head
  rw [e1] at e2
  simp only [Option.some.injEq, Cell.list.injEq, Node.mk.injEq] at e2
  exact Seg_unique h1.seg h2.seg e2.1.2 hl

theorem Repr.unique {w : Mem α} {this : Nat} {l1 l2 : List (Nat × α)}
    (h1 : Repr w this l1) (h2 : Repr w this l2) : l1 = l2 := by
  obtain ⟨d1, e1⟩ := h1.head
  obtain ⟨d2, e2⟩ := h2.head
  rw [e1] at e2
  simp only [Option.some.injEq, Cell.list.injEq, Node.mk.injEq] at e2
  exact ReprS.eq_of_length h1 h2 e2.2

/-! ## What the queries return on a represented container -/

theorem getNode_node {w : Mem α} {a : Nat} {n : Node α} (h : w[a]? = some (.node n)) :
    getNode w a = some n := by
  simp [getNode, h]

theorem getNode_list {w : Mem α} {a : Nat} {hd : Node α} {s : Nat}
    (h : w[a]? = some (.list hd s)) : getNode w a = some hd := by
  simp [getNode, h]

theorem iterate_Seg {w : Mem α} {l : List (Nat × α)} (h : Seg w l none) (fuel : Nat)
    (hf : l.length ≤ fuel) : iterate fuel w (startOf l none) none = .ok (vals l) := by
  induction l generalizing fuel with
  | nil => unfold iterate; simp
  | cons x t ih =>
    obtain ⟨a, v⟩ := x
    cases fuel with
    | zero => simp at hf
    | succ fuel =>
      unfold iterate
      simp [BasicIterator.deref, BasicIterator.incr, getNode_node h.1,
        ih h.2 fuel (by simpa using hf)]

theorem countNodes_Seg {w : Mem α} {l : List (Nat × α)} (h : Seg w l none) (fuel : Nat)
    (hf : l.length ≤ fuel) : countNodes fuel w (startOf l none) = .ok l.length := by
  induction l generalizing fuel with
  | nil => cases fuel <;> simp [countNodes]
  | cons x t ih =>
    obtain ⟨a, v⟩ := x
    cases fuel with
    | zero => simp at hf
    | succ fuel =>
      simp [countNodes, getNode_node h.1, ih h.2 fuel (by simpa using hf)]

theorem ReprS.cbegin_eq {w : Mem α} {this : Nat} {l : List (Nat × α)} {s : Nat}
    (h : ReprS w this l s) : cbegin w this = .ok (startOf l none) := by
  obtain ⟨d, hd⟩ := h.head
  simp [SLL.cbegin, hd]

theorem ReprS.toList_eq {w : Mem α} {this : Nat} {l : List (Nat × α)} {s : Nat}
    (h : ReprS w this l s) : toList w this = .ok (vals l) := by
  unfold SLL.toList
  rw [h.cbegin_eq]
  exact iterate_Seg h.seg _ (Nat.le_of_lt h.length_lt)

theorem ReprS.GetSize_eq {w : Mem α} {this : Nat} {l : List (Nat × α)} {s : Nat}
    (h : ReprS w this l s) : GetSize w this = .ok s := by
  obtain ⟨d, hd⟩ := h.head
  simp [SLL.GetSize, hd]

theorem ReprS.IsEmpty_eq {w : Mem α} {this : Nat} {l : List (Nat × α)} {s : Nat}
    (h : ReprS w this l s) : IsEmpty w this = .ok (s == 0) := by
  simp [SLL.IsEmpty, h.GetSize_eq]

theorem ReprS.reachableCount_eq {w : Mem α} {this : Nat} {l : List (Nat × α)} {s : Nat}
    (h : ReprS w this l s) : reachableCount w this = .ok l.length := by
  obtain ⟨d, hd⟩ := h.head
  simp only [SLL.reachableCount, getNode_list hd]
  exact countNodes_Seg h.seg _ (Nat.le_of_lt h.length_lt)

theorem toList_isList {w : Mem α} {this : Nat} {L : List α} (h : toList w this = .ok L) :
    ∃ hd s, w[this]? = some (.list hd s) := by
  unfold toList SLL.cbegin at h
  split at h
  · rename_i b hb
    split at hb
    · rename_i hd s hc; exact ⟨hd, s, hc⟩
    · simp at hb
  · simp at h

theorem Valid.repr_of_toList {w : Mem α} (hv : Valid w) {this : Nat} {L : List α}
    (h : toList w this = .ok L) : ∃ l, Repr w this l ∧ vals l = L := by
  obtain ⟨hd, s, hc⟩ := toList_isList h
  obtain ⟨l, hl⟩ := hv.lists this hd s hc
  refine ⟨l, hl, ?_⟩
  have := ReprS.toList_eq hl
  rw [h] at this
  simpa using this.symm

/-! ## Frames -/

@[simp] theorem isList_withNext (c : Cell α) (nx : Ptr) : (c.withNext nx).isList = c.isList := by
  cases c <;> rfl

@[simp] theorem isList_mapSize (c : Cell α) (f : Nat → Nat) : (c.mapSize f).isList = c.isList := by
  cases c <;> rfl

theorem Frame.same (w : Mem α) (S : Nat → Prop) : Frame w w S :=
  ⟨Nat.le_refl _, fun _ _ _ => rfl, fun _ c h hc => ⟨c, h, hc⟩⟩

theorem Frame.comp {w w1 w2 : Mem α} {S : Nat → Prop} (h1 : Frame w w1 S) (h2 : Frame w1 w2 S) :
    Frame w w2 S where
  len := Nat.le_trans h1.len h2.len
  cells := fun i hi hs => by
    rw [h2.cells i (Nat.lt_of_lt_of_le hi h1.len) hs, h1.cells i hi hs]
  lists := fun i c h hc => by
    obtain ⟨c1, e1, l1⟩ := h2.lists i c h hc
    exact h1.lists i c1 e1 l1

theorem Frame.mono {w w1 : Mem α} {S S2 : Nat → Prop} (h : Frame w w1 S) (hs : ∀ i, S i → S2 i) :
    Frame w w1 S2 :=
  ⟨h.len, fun i hi hn => h.cells i hi (fun hS => hn (hs i hS)), h.lists⟩

theorem Frame.of_setNext (w : Mem α) (p : Nat) (nx : Ptr) {S : Nat → Prop} (hp : S p) :
    Frame w (setNext w p nx) S where
  len := by rw [length_setNext]
  cells := fun i _ hs => by
    have : i ≠ p := fun e => hs (e ▸ hp)
    simp [getElem?_setNext, this]
  lists := fun i c h hc => by
    rw [getElem?_setNext] at h
    split at h
    · rename_i e; subst e
      cases hw : w[i]? with
      | none => simp [hw] at h
      | some c0 =>
        simp only [hw, Option.map_some', Option.some.injEq] at h
        subst h
        exact ⟨c0, rfl, by simpa using hc⟩
    · exact ⟨c, h, hc⟩

theorem Frame.of_mapSize {w w2 : Mem α} {a : Nat} {f : Nat → Nat} {S : Nat → Prop} (hp : S a)
    (hl : w2.length = w.length)
    (hg : ∀ i, w2[i]? = if i = a then (w[a]?).map (fun c => c.mapSize f) else w[i]?) :
    Frame w w2 S where
  len := by rw [hl]
  cells := fun i _ hs => by
    have : i ≠ a := fun e => hs (e ▸ hp)
    simp [hg, this]
  lists := fun i c h hc => by
    rw [hg] at h
    split at h
    · rename_i e; subst e
      cases hw : w[i]? with
      | none => simp [hw] at h
      | some c0 =>
        simp only [hw, Option.map_some', Option.some.injEq] at h
        subst h
        exact ⟨c0, rfl, by simpa using hc⟩
    · exact ⟨c, h, hc⟩

theorem Frame.of_incSize (w : Mem α) (a : Nat) {S : Nat → Prop} (hp : S a) :
    Frame w (incSize w a) S :=
  Frame.of_mapSize hp (length_incSize w a) (getElem?_incSize w a)

theorem Frame.of_decSize (w : Mem α) (a : Nat) {S : Nat → Prop} (hp : S a) :
    Frame w (decSize w a) S :=
  Frame.of_mapSize hp (length_decSize w a) (getElem?_decSize w a)

theorem Frame.of_setSize (w : Mem α) (a s : Nat) {S : Nat → Prop} (hp : S a) :
    Frame w (setSize w a s) S :=
  Frame.of_mapSize hp (length_setSize w a s) (getElem?_setSize w a s)

theorem Frame.of_snoc (w : Mem α) (c : Cell α) (hc : c.isList = false) (S : Nat → Prop) :
    Frame w (w ++ [c]) S where
  len := by simp
  cells := fun i hi _ => by simp [getElem?_snoc, Nat.ne_of_lt hi]
  lists := fun i c1 h hc1 => by
    rw [getElem?_snoc] at h
    split at h
    · simp only [Option.some.injEq] at h; subst h; rw [hc] at hc1; cases hc1
    · exact ⟨c1, h, hc1⟩

/-! ## The invariant across a step -/

theorem ReprS.frame {w w2 : Mem α} {t : Nat} {l : List (Nat × α)} {s : Nat} (h : ReprS w t l s)
    (ht : w2[t]? = w[t]?) (hc : ∀ a, a ∈ addrs l → w2[a]? = w[a]?) : ReprS w2 t l s where
  head := by rw [ht]; exact h.head
  seg := Seg_congr h.seg hc
  nodup := h.nodup

theorem Repr.isList_cell {w : Mem α} {t : Nat} {l : List (Nat × α)} (h : Repr w t l) :
    ∃ c, w[t]? = some c ∧ c.isList = true := by
  obtain ⟨d, hd⟩ := h.head
  exact ⟨_, hd, rfl⟩

theorem not_isList_of_mem {w : Mem α} {t : Nat} {l : List (Nat × α)} {s : Nat}
    (h : ReprS w t l s) {a : Nat} (ha : a ∈ addrs l) {c : Cell α} (hc : w[a]? = some c) :
    c.isList = false := by
  obtain ⟨n, hn⟩ := Seg_cell h.seg ha
  rw [hn] at hc
  simp only [Option.some.injEq] at hc
  subst hc
  rfl

theorem Valid.of_touched {w w2 : Mem α} (hv : Valid w) (T : Nat → Prop)
    (ha : ∀ t c, ¬ T t → w2[t]? = some c → c.isList = true →
      ∃ c0, w[t]? = some c0 ∧ c0.isList = true)
    (hb : ∀ t l, ¬ T t → Repr w t l → Repr w2 t l)
    (hc : ∀ t l2, T t → Repr w2 t l2 → ∀ a, a ∈ addrs l2 →
      w.length ≤ a ∨ ∃ t0 l0, T t0 ∧ Repr w t0 l0 ∧ a ∈ addrs l0)
    (hd : ∀ t c, T t → w2[t]? = some c → c.isList = true → ∃ l2, Repr w2 t l2)
    (he : ∀ t1 t2 l1 l2, T t1 → T t2 → t1 ≠ t2 → Repr w2 t1 l1 → Repr w2 t2 l2 →
      ∀ a, a ∈ addrs l1 → a ∉ addrs l2) : Valid w2 := by
  have old : ∀ t l2, ¬ T t → Repr w2 t l2 → Repr w t l2 := by
    intro t l2 hT hr
    obtain ⟨c, e, hl⟩ := hr.isList_cell
    obtain ⟨c0, e0, hl0⟩ := ha t c hT e hl
    cases c0 with
    | free => cases hl0
    | node n => cases hl0
    | list h0 s0 =>
      obtain ⟨l, hl⟩ := hv.lists t h0 s0 e0
      have := Repr.unique (hb t l hT hl) hr
      subst this
      exact hl
  have mixed : ∀ t1 t2 l1 l2, T t1 → ¬ T t2 → Repr w2 t1 l1 → Repr w2 t2 l2 →
      ∀ a, a ∈ addrs l1 → a ∉ addrs l2 := by
    intro t1 t2 l1 l2 h1 h2 r1 r2 a a1 a2
    have r2o := old t2 l2 h2 r2
    have hlt := Seg_lt r2o.seg a2
    rcases hc t1 l1 h1 r1 a a1 with hge | ⟨t0, l0, hT0, r0, a0⟩
    · omega
    · have hne : t0 ≠ t2 := fun e => h2 (e ▸ hT0)
      exact hv.sep t0 t2 l0 l2 hne r0 r2o a a0 a2
  constructor
  · intro t h s e
    by_cases hT : T t
    · exact hd t _ hT e rfl
    · obtain ⟨c0, e0, hl0⟩ := ha t _ hT e rfl
      cases c0 with
      | free => cases hl0
      | node n => cases hl0
      | list h0 s0 =>
        obtain ⟨l, hl⟩ := hv.lists t h0 s0 e0
        exact ⟨l, hb t l hT hl⟩
  · intro t1 t2 l1 l2 hne r1 r2 a a1 a2
    by_cases h1 : T t1 <;> by_cases h2 : T t2
    · exact he t1 t2 l1 l2 h1 h2 hne r1 r2 a a1 a2
    · exact mixed t1 t2 l1 l2 h1 h2 r1 r2 a a1 a2
    · exact mixed t2 t1 l2 l1 h2 h1 r2 r1 a a2 a1
    · exact hv.sep t1 t2 l1 l2 hne (old t1 l1 h1 r1) (old t2 l2 h2 r2) a a1 a2

theorem Valid.others {w w2 : Mem α} {t0 : Nat} {l0 : List (Nat × α)} (hv : Valid w)
    (hr : Repr w t0 l0) (hf : Frame w w2 (fun i => i = t0 ∨ i ∈ addrs l0)) :
    ∀ t, t ≠ t0 → ∀ l, Repr w t l → Repr w2 t l := by
  intro t ht l hl
  obtain ⟨c, e, hc⟩ := hl.isList_cell
  have hlt : t < w.length := (List.getElem?_eq_some.1 e).1
  refine ReprS.frame hl (hf.cells t hlt ?_) (fun a ha => hf.cells a (Seg_lt hl.seg ha) ?_)
  · rintro (h | h)
    · exact ht h
    · rw [not_isList_of_mem hr h e] at hc; cases hc
  · rintro (h | h)
    · subst h
      obtain ⟨c0, e0, hc0⟩ := hr.isList_cell
      rw [not_isList_of_mem hl ha e0] at hc0; cases hc0
    · exact hv.sep t t0 l l0 ht hl hr a ha h

theorem Valid.step {w w2 : Mem α} {t0 : Nat} {l0 l2 : List (Nat × α)} (hv : Valid w)
    (hr : Repr w t0 l0) (hr2 : Repr w2 t0 l2)
    (hsub : ∀ a, a ∈ addrs l2 → a ∈ addrs l0 ∨ w.length ≤ a)
    (hf : Frame w w2 (fun i => i = t0 ∨ i ∈ addrs l0)) : Step w w2 t0 l2 := by
  have hoth := Valid.others hv hr hf
  refine ⟨?_, hr2, hoth, hf.len⟩
  refine Valid.of_touched hv (fun t => t = t0) ?_ ?_ ?_ ?_ ?_
  · intro t c _ e hc
    exact hf.lists t c e hc
  · intro t l ht hl
    exact hoth t ht l hl
  · intro t l ht hl a ha
    subst ht
    have := Repr.unique hl hr2
    subst this
    rcases hsub a ha with h | h
    · exact Or.inr ⟨t, l0, rfl, hr, h⟩
    · exact Or.inl h
  · intro t c ht _ _
    subst ht
    exact ⟨l2, hr2⟩
  · intro t1 t2 l1 l2 h1 h2 hne
    exact absurd (h1.trans h2.symm) hne


/-! ## Relinking a chain -/

@[simp] theorem lastAddr_nil (this : Nat) : lastAddr this ([] : List (Nat × α)) = this := rfl

@[simp] theorem lastAddr_concat (this : Nat) (l : List (Nat × α)) (p : Nat) (x : α) :
    lastAddr this (l ++ [(p, x)]) = p := by
  simp [lastAddr]

theorem eq_nil_or_snoc (l : List (Nat × α)) :
    l = [] ∨ ∃ l0 p x, l = l0 ++ [(p, x)] := by
  rcases List.eq_nil_or_concat l with h | ⟨l0, ⟨p, x⟩, h⟩
  · exact Or.inl h
  · exact Or.inr ⟨l0, p, x, by rw [h, List.concat_eq_append]⟩

theorem ReprS.after_mapSize {w w2 : Mem α} {this : Nat} {l : List (Nat × α)} {s : Nat}
    (h : ReprS w this l s) (f : Nat → Nat)
    (hg : ∀ i, w2[i]? = if i = this then (w[this]?).map (fun c => c.mapSize f) else w[i]?) :
    ReprS w2 this l (f s) where
  head := by
    obtain ⟨d, hd⟩ := h.head
    exact ⟨d, by simp [hg, hd, Cell.mapSize]⟩
  seg := Seg_congr h.seg (fun a ha => by
    have : a ≠ this := fun e => h.not_mem (e ▸ ha)
    simp [hg, this])
  nodup := h.nodup

theorem ReprS.after_incSize {w : Mem α} {this : Nat} {l : List (Nat × α)} {s : Nat}
    (h : ReprS w this l s) : ReprS (incSize w this) this l (s + 1) :=
  h.after_mapSize (· + 1) (getElem?_incSize w this)

theorem ReprS.after_decSize {w : Mem α} {this : Nat} {l : List (Nat × α)} {s : Nat}
    (h : ReprS w this l s) : ReprS (decSize w this) this l (s - 1) :=
  h.after_mapSize (· - 1) (getElem?_decSize w this)

theorem ReprS.after_setSize {w : Mem α} {this : Nat} {l : List (Nat × α)} {s : Nat}
    (h : ReprS w this l s) (s2 : Nat) : ReprS (setSize w this s2) this l s2 :=
  h.after_mapSize (fun _ => s2) (getElem?_setSize w this s2)

theorem ReprS.after_snoc {w : Mem α} {this : Nat} {l : List (Nat × α)} {s : Nat}
    (h : ReprS w this l s) (c : Cell α) : ReprS (w ++ [c]) this l s := by
  refine h.frame ?_ (fun a ha => ?_)
  · have := Nat.lt_of_le_of_lt (Nat.zero_le _) h.length_lt
    obtain ⟨d, hd⟩ := h.head
    have hlt := (List.getElem?_eq_some.1 hd).1
    simp [getElem?_snoc, Nat.ne_of_lt hlt]
  · simp [getElem?_snoc, Nat.ne_of_lt (Seg_lt h.seg ha)]

theorem ReprS.after_free {w : Mem α} {this : Nat} {l : List (Nat × α)} {s : Nat}
    (h : ReprS w this l s) {a : Nat} (ha : a ∉ addrs l) (hne : a ≠ this) :
    ReprS (w.set a .free) this l s := by
  refine h.frame ?_ (fun b hb => ?_)
  · exact List.getElem?_set_ne hne
  · exact List.getElem?_set_ne (fun e => ha (by rw [e]; exact hb))

theorem ReprS.link_insert {w : Mem α} {this : Nat} {l1 l2 : List (Nat × α)} {s : Nat}
    (h : ReprS w this (l1 ++ l2) s) {n : Nat} {v : α}
    (hn : w[n]? = some (.node ⟨v, startOf l2 none⟩)) (hfresh : n ∉ addrs (l1 ++ l2)) :
    ReprS (setNext w (lastAddr this l1) (some n)) this (l1 ++ (n, v) :: l2) s := by
  obtain ⟨d, hd⟩ := h.head
  have hnt : n ≠ this := by
    intro e; rw [e, hd] at hn; simp at hn
  have hseg := (Seg_append l1 l2 none).1 h.seg
  have hnd : (addrs (l1 ++ (n, v) :: l2)).Nodup := by
    have := h.nodup
    simp only [addrs_append, addrs_cons, List.mem_append, not_or] at *
    rw [List.nodup_append] at *
    refine ⟨this.1, List.nodup_cons.2 ⟨hfresh.2, this.2.1⟩, ?_⟩
    intro a ha hb
    simp only [List.mem_cons] at hb
    rcases hb with rfl | hb
    · exact hfresh.1 ha
    · exact this.2.2 ha hb
  rcases eq_nil_or_snoc l1 with rfl | ⟨l0, p, x, rfl⟩
  · refine ⟨⟨d, ?_⟩, ⟨?_, Seg_congr hseg.2 (fun a ha => ?_)⟩, hnd⟩
    · simp [getElem?_setNext, hd, Cell.withNext] at *
    · simp [getElem?_setNext, hnt, hn]
    · have : a ≠ this := fun e => h.not_mem (e ▸ by simpa using ha)
      simp [getElem?_setNext, this]
  · have hmem : p ∈ addrs ((l0 ++ [(p, x)]) ++ l2) := by simp
    have hpt : p ≠ this := fun e => h.not_mem (e ▸ hmem)
    have hnp : n ≠ p := fun e => hfresh (e ▸ hmem)
    have hnd0 := h.nodup
    simp only [addrs_append, addrs_cons, addrs_nil, List.append_assoc, List.singleton_append] at hnd0
    rw [List.nodup_append] at hnd0
    obtain ⟨-, hnd1, hdisj⟩ := hnd0
    have hseg0 := (Seg_append l0 [(p, x)] (startOf l2 none)).1 hseg.1
    have hpc : w[p]? = some (.node ⟨x, startOf l2 none⟩) := hseg0.2.1
    rw [lastAddr_concat]
    refine ⟨⟨d, ?_⟩, ?_, hnd⟩
    · simp only [getElem?_setNext, Ne.symm hpt, if_false]
      rw [hd]
      simp [startOf_append]
    · rw [List.append_assoc, Seg_append]
      refine ⟨Seg_congr hseg0.1 (fun a ha => ?_), ?_, ?_, Seg_congr hseg.2 (fun a ha => ?_)⟩
      · have : a ≠ p := fun e => hdisj ha (by simp [e])
        simp [getElem?_setNext, this]
      · simp [getElem?_setNext, hpc, Cell.withNext]
      · simp [getElem?_setNext, hnp, hn]
      · have : a ≠ p := fun e => (List.nodup_cons.1 hnd1).1 (e ▸ ha)
        simp [getElem?_setNext, this]

theorem ReprS.link_erase {w : Mem α} {this : Nat} {l1 l2 : List (Nat × α)} {a : Nat} {x : α}
    {s : Nat} (h : ReprS w this (l1 ++ (a, x) :: l2) s) :
    ReprS (setNext w (lastAddr this l1) (startOf l2 none)) this (l1 ++ l2) s := by
  obtain ⟨d, hd⟩ := h.head
  have hseg := (Seg_append l1 ((a, x) :: l2) none).1 h.seg
  have hnd0 := h.nodup
  simp only [addrs_append, addrs_cons] at hnd0
  have hnd : (addrs (l1 ++ l2)).Nodup := by
    rw [addrs_append]
    rw [List.nodup_append] at *
    exact ⟨hnd0.1, (List.nodup_cons.1 hnd0.2.1).2, fun b hb hb2 =>
      hnd0.2.2 hb (List.mem_cons_of_mem _ hb2)⟩
  rcases eq_nil_or_snoc l1 with rfl | ⟨l0, p, y, rfl⟩
  · refine ⟨⟨d, ?_⟩, Seg_congr hseg.2.2 (fun b hb => ?_), hnd⟩
    · simp [getElem?_setNext, hd, Cell.withNext] at *
    · have : b ≠ this := fun e => h.not_mem (e ▸ by
        simp only [List.nil_append] at hb; simp [hb])
      simp [getElem?_setNext, this]
  · have hmem : p ∈ addrs ((l0 ++ [(p, y)]) ++ (a, x) :: l2) := by simp
    have hpt : p ≠ this := fun e => h.not_mem (e ▸ hmem)
    simp only [addrs_append, addrs_cons, addrs_nil, List.append_assoc, List.singleton_append]
      at hnd0
    rw [List.nodup_append] at hnd0
    obtain ⟨-, hnd1, hdisj⟩ := hnd0
    have hseg0 := (Seg_append l0 [(p, y)] (startOf ((a, x) :: l2) none)).1 hseg.1
    have hpc : w[p]? = some (.node ⟨y, some a⟩) := hseg0.2.1
    rw [lastAddr_concat]
    refine ⟨⟨d, ?_⟩, ?_, hnd⟩
    · simp only [getElem?_setNext, Ne.symm hpt, if_false]
      rw [hd]
      simp [startOf_append]
    · rw [List.append_assoc, Seg_append]
      refine ⟨Seg_congr hseg0.1 (fun b hb => ?_), ?_, Seg_congr hseg.2.2 (fun b hb => ?_)⟩
      · have : b ≠ p := fun e => hdisj hb (by simp [e])
        simp [getElem?_setNext, this]
      · simp [getElem?_setNext, hpc, Cell.withNext]
      · have : b ≠ p := fun e =>
          (List.nodup_cons.1 hnd1).1 (e ▸ List.mem_cons_of_mem _ hb)
        simp [getElem?_setNext, this]


/-! ## Insertion -/

theorem ReprS.cast {w : Mem α} {this : Nat} {l : List (Nat × α)} {s s2 : Nat}
    (h : ReprS w this l s) (e : s = s2) : ReprS w this l s2 := e ▸ h

theorem ReprS.getNode_last {w : Mem α} {this : Nat} {l1 l2 : List (Nat × α)} {s : Nat}
    (h : ReprS w this (l1 ++ l2) s) :
    ∃ y, getNode w (lastAddr this l1) = some ⟨y, startOf l2 none⟩ := by
  rcases eq_nil_or_snoc l1 with rfl | ⟨l0, p, x, rfl⟩
  · obtain ⟨d, hd⟩ := h.head
    exact ⟨d, by simpa using getNode_list hd⟩
  · have hseg := (Seg_append (l0 ++ [(p, x)]) l2 none).1 h.seg
    have hseg0 := (Seg_append l0 [(p, x)] (startOf l2 none)).1 hseg.1
    exact ⟨x, by rw [lastAddr_concat]; exact getNode_node hseg0.2.1⟩

theorem lastAddr_mem (this : Nat) (l : List (Nat × α)) :
    lastAddr this l = this ∨ lastAddr this l ∈ addrs l := by
  rcases eq_nil_or_snoc l with rfl | ⟨l0, p, x, rfl⟩
  · exact Or.inl rfl
  · exact Or.inr (by simp)

theorem insert_step {w : Mem α} {this : Nat} {l1 l2 : List (Nat × α)} (hv : Valid w)
    (hr : Repr w this (l1 ++ l2)) (v : α) :
    Step w (incSize (setNext (w ++ [.node ⟨v, startOf l2 none⟩]) (lastAddr this l1)
      (some w.length)) this) this (l1 ++ (w.length, v) :: l2) := by
  have hfresh : w.length ∉ addrs (l1 ++ l2) := fun hm =>
    Nat.lt_irrefl _ (Seg_lt hr.seg hm)
  have hS : (fun i => i = this ∨ i ∈ addrs (l1 ++ l2)) (lastAddr this l1) := by
    rcases lastAddr_mem this l1 with h | h
    · exact Or.inl h
    · exact Or.inr (by simp [h])
  refine Valid.step hv hr ?_ ?_ ?_
  · have h1 := (ReprS.after_snoc hr (.node ⟨v, startOf l2 none⟩)).link_insert
      (n := w.length) (v := v) (by simp) hfresh
    exact h1.after_incSize.cast (by simp; omega)
  · intro a ha
    simp only [addrs_append, addrs_cons, List.mem_append, List.mem_cons] at ha ⊢
    rcases ha with h | h | h
    · exact Or.inl (Or.inl h)
    · exact Or.inr (Nat.le_of_eq h.symm)
    · exact Or.inl (Or.inr h)
  · exact (Frame.of_snoc w (.node ⟨v, startOf l2 none⟩) rfl _).comp
      ((Frame.of_setNext _ _ _ hS).comp (Frame.of_incSize _ _ (Or.inl rfl)))

theorem snoc_free_step {w : Mem α} {this : Nat} {l : List (Nat × α)} (hv : Valid w)
    (hr : Repr w this l) : Step w (w ++ [.free]) this l :=
  Valid.step hv hr (ReprS.after_snoc hr _) (fun _ ha => Or.inl ha) (Frame.of_snoc w .free rfl _)

theorem PushFront_ok {copy : α → Option α} {w : Mem α} {this : Nat} {l : List (Nat × α)}
    (hv : Valid w) (hr : Repr w this l) {x v : α} (hc : copy x = some v) :
    ∃ w2, PushFront copy w this x = .ok w2 () ∧ Step w w2 this ((w.length, v) :: l) := by
  obtain ⟨d, hd⟩ := hr.head
  refine ⟨_, ?_, insert_step hv (show Repr w this ([] ++ l) from hr) v⟩
  simp [PushFront, hd, newNode, hc]

theorem PushFront_throw {copy : α → Option α} {w : Mem α} {this : Nat} {l : List (Nat × α)}
    (hv : Valid w) (hr : Repr w this l) {x : α} (hc : copy x = none) :
    ∃ w2, PushFront copy w this x = .err .exception w2 ∧ Step w w2 this l := by
  obtain ⟨d, hd⟩ := hr.head
  refine ⟨_, ?_, snoc_free_step hv hr⟩
  simp [PushFront, hd, newNode, hc]

theorem InsertAfter_ok {copy : α → Option α} {w : Mem α} {this : Nat} {l1 l2 : List (Nat × α)}
    (hv : Valid w) (hr : Repr w this (l1 ++ l2)) {x v : α} (hc : copy x = some v) :
    ∃ w2, InsertAfter copy w this (some (lastAddr this l1)) x = .ok w2 (some w.length) ∧
      Step w w2 this (l1 ++ (w.length, v) :: l2) := by
  obtain ⟨d, hd⟩ := hr.head
  obtain ⟨y, hy⟩ := hr.getNode_last
  have hs := insert_step hv hr v
  refine ⟨_, ?_, hs⟩
  have hr3 : Repr _ this (l1 ++ ((w.length, v) :: l2)) := hs.repr
  obtain ⟨y3, hy3⟩ := ReprS.getNode_last hr3
  simp [InsertAfter, hd, newNode, hc, hy, hy3]

theorem InsertAfter_throw {copy : α → Option α} {w : Mem α} {this : Nat}
    {l1 l2 : List (Nat × α)} (hv : Valid w) (hr : Repr w this (l1 ++ l2)) {x : α}
    (hc : copy x = none) :
    ∃ w2, InsertAfter copy w this (some (lastAddr this l1)) x = .err .exception w2 ∧
      Step w w2 this (l1 ++ l2) := by
  obtain ⟨d, hd⟩ := hr.head
  obtain ⟨y, hy⟩ := hr.getNode_last
  refine ⟨_, ?_, snoc_free_step hv hr⟩
  simp [InsertAfter, hd, newNode, hc, hy]


/-! ## Removal -/

theorem Frame.of_set_free (w : Mem α) (a : Nat) {S : Nat → Prop} (hp : S a) :
    Frame w (w.set a .free) S where
  len := by simp
  cells := fun i _ hs => List.getElem?_set_ne (fun e => hs (by rw [← e]; exact hp))
  lists := fun i c1 h1 hc1 => by
    rw [List.getElem?_set] at h1
    split at h1
    · split at h1
      · simp only [Option.some.injEq] at h1; subst h1; cases hc1
      · cases h1
    · exact ⟨c1, h1, hc1⟩

theorem setNext_set_comm (w : Mem α) {a p : Nat} (c : Cell α) (nx : Ptr) (h : a ≠ p) :
    setNext (w.set a c) p nx = (setNext w p nx).set a c := by
  apply List.ext_getElem?
  intro i
  simp only [getElem?_setNext, List.getElem?_set, length_setNext]
  by_cases hi : i = p
  · subst hi; simp [h]
  · simp [hi]

theorem erase_step {w : Mem α} {this : Nat} {l1 l2 : List (Nat × α)} {a : Nat} {x : α}
    (hv : Valid w) (hr : Repr w this (l1 ++ (a, x) :: l2)) :
    Step w (decSize ((setNext w (lastAddr this l1) (startOf l2 none)).set a .free) this) this
      (l1 ++ l2) := by
  have hS : (fun i => i = this ∨ i ∈ addrs (l1 ++ (a, x) :: l2)) (lastAddr this l1) := by
    rcases lastAddr_mem this l1 with h | h
    · exact Or.inl h
    · exact Or.inr (by simp [h])
  have hmem : a ∈ addrs (l1 ++ (a, x) :: l2) := by simp
  have hat : a ≠ this := fun e => hr.not_mem (e ▸ hmem)
  have hnot : a ∉ addrs (l1 ++ l2) := by
    have hnd := hr.nodup
    simp only [addrs_append, addrs_cons, List.mem_append, not_or] at hnd ⊢
    rw [List.nodup_append] at hnd
    exact ⟨fun h => hnd.2.2 h (List.mem_cons_self _ _), (List.nodup_cons.1 hnd.2.1).1⟩
  refine Valid.step hv hr ?_ ?_ ?_
  · exact ((ReprS.link_erase hr).after_free hnot hat).after_decSize.cast (by simp)
  · intro b hb
    simp only [addrs_append, addrs_cons, List.mem_append, List.mem_cons] at hb ⊢
    rcases hb with h | h
    · exact Or.inl (Or.inl h)
    · exact Or.inl (Or.inr (Or.inr h))
  · exact (Frame.of_setNext _ _ _ hS).comp
      ((Frame.of_set_free _ _ (Or.inr hmem)).comp (Frame.of_decSize _ _ (Or.inl rfl)))

theorem ReprS.cell_mid {w : Mem α} {this : Nat} {l1 l2 : List (Nat × α)} {a : Nat} {x : α}
    {s : Nat} (h : ReprS w this (l1 ++ (a, x) :: l2) s) :
    w[a]? = some (.node ⟨x, startOf l2 none⟩) :=
  ((Seg_append l1 ((a, x) :: l2) none).1 h.seg).2.1

theorem PopFront_ok {w : Mem α} {this : Nat} {l : List (Nat × α)} {a : Nat} {x : α}
    (hv : Valid w) (hr : Repr w this ((a, x) :: l)) :
    ∃ w2, PopFront w this = .ok w2 () ∧ Step w w2 this l := by
  obtain ⟨d, hd⟩ := hr.head
  have hc := ReprS.cell_mid (show ReprS w this ([] ++ (a, x) :: l) _ from hr)
  have hat : a ≠ this := fun e => hr.not_mem (e ▸ by simp)
  refine ⟨_, ?_, erase_step hv (show Repr w this ([] ++ (a, x) :: l) from hr)⟩
  simp [PopFront, hd, getNode_node hc, deleteNode_of_node hc, setNext_set_comm _ _ _ hat]

theorem EraseAfter_ok {w : Mem α} {this : Nat} {l1 l2 : List (Nat × α)} {a : Nat} {x : α}
    (hv : Valid w) (hr : Repr w this (l1 ++ (a, x) :: l2)) :
    ∃ w2, EraseAfter w this (some (lastAddr this l1)) = .ok w2 (startOf l2 none) ∧
      Step w w2 this (l1 ++ l2) := by
  obtain ⟨d, hd⟩ := hr.head
  obtain ⟨y, hy⟩ := hr.getNode_last
  have hc := ReprS.cell_mid hr
  have hap : a ≠ lastAddr this l1 := by
    intro e
    rcases lastAddr_mem this l1 with h | h
    · exact hr.not_mem (by rw [← h, ← e]; simp)
    · have hnd := hr.nodup
      simp only [addrs_append, addrs_cons] at hnd
      rw [List.nodup_append] at hnd
      exact hnd.2.2 h (by rw [← e]; exact List.mem_cons_self _ _)
  have hc2 : (setNext w (lastAddr this l1) (startOf l2 none))[a]? =
      some (.node ⟨x, startOf l2 none⟩) := by
    rw [getElem?_setNext, if_neg hap]; exact hc
  refine ⟨_, ?_, erase_step hv hr⟩
  simp [EraseAfter, hd, hy, getNode_node hc, deleteNode_of_node hc2]

/-! ## Clear -/

theorem Clear_loop_ok {w : Mem α} {this : Nat} {l : List (Nat × α)} {s : Nat}
    (hr : ReprS w this l s) (fuel : Nat) (hf : l.length < fuel) :
    ∃ w2, Clear.loop fuel w this = .ok w2 () ∧ ReprS w2 this [] s ∧
      Frame w w2 (fun i => i = this ∨ i ∈ addrs l) := by
  induction l generalizing w fuel with
  | nil =>
    obtain ⟨d, hd⟩ := hr.head
    cases fuel with
    | zero => simp at hf
    | succ fuel =>
      exact ⟨w, by simp [Clear.loop, getNode_list hd], hr, Frame.same _ _⟩
  | cons y t ih =>
    obtain ⟨a, x⟩ := y
    obtain ⟨d, hd⟩ := hr.head
    have hc := ReprS.cell_mid (show ReprS w this ([] ++ (a, x) :: t) s from hr)
    have hat : a ≠ this := fun e => hr.not_mem (e ▸ by simp)
    have hnot : a ∉ addrs t := (List.nodup_cons.1 hr.nodup).1
    cases fuel with
    | zero => simp at hf
    | succ fuel =>
      have hr1 : ReprS ((setNext w this (startOf t none)).set a .free) this t s :=
        (ReprS.link_erase (show ReprS w this ([] ++ (a, x) :: t) s from hr)).after_free hnot hat
      obtain ⟨w2, h2, hr2, hf2⟩ := ih hr1 fuel (by simpa using hf)
      refine ⟨w2, ?_, hr2, ?_⟩
      · simp [Clear.loop, getNode_list hd, getNode_node hc, deleteNode_of_node hc,
          setNext_set_comm _ _ _ hat, h2]
      · have f1 : Frame w ((setNext w this (startOf t none)).set a .free)
            (fun i => i = this ∨ i ∈ addrs ((a, x) :: t)) :=
          (Frame.of_setNext _ _ _ (Or.inl rfl)).comp (Frame.of_set_free _ _ (Or.inr (by simp)))
        exact f1.comp (hf2.mono (fun i hi => by
          rcases hi with h | h
          · exact Or.inl h
          · exact Or.inr (by simp [h])))

theorem Clear_ok {w : Mem α} {this : Nat} {l : List (Nat × α)} (hv : Valid w)
    (hr : Repr w this l) : ∃ w2, Clear w this = .ok w2 () ∧ Step w w2 this [] := by
  obtain ⟨d, hd⟩ := hr.head
  obtain ⟨w1, h1, hr1, hf1⟩ := Clear_loop_ok hr (w.length + 1)
    (Nat.lt_succ_of_lt hr.length_lt)
  refine ⟨setSize w1 this 0, ?_, ?_⟩
  · simp [Clear, hd, h1]
  · exact Valid.step hv hr (hr1.after_setSize 0) (fun a ha => by simp at ha)
      (hf1.comp (Frame.of_setSize _ _ _ (Or.inl rfl)))

/-! ## swap, creation and destruction of container objects -/

theorem swap_self {w : Mem α} {t : Nat} {hd : Node α} {s : Nat}
    (h : w[t]? = some (.list hd s)) : swap w t t = .ok w () := by
  have : (w.set t (.list ⟨hd.value, hd.next_node⟩ s)).set t (.list ⟨hd.value, hd.next_node⟩ s)
      = w := by
    apply List.ext_getElem?
    intro i
    simp only [List.getElem?_set, List.length_set]
    by_cases hi : t = i
    · subst hi
      have hlt := (List.getElem?_eq_some.1 h).1
      simp [hlt, h]
    · simp [hi]
  simp [swap, h, this]

theorem swap_ok {w : Mem α} {t1 t2 : Nat} {l1 l2 : List (Nat × α)} (hv : Valid w)
    (h1 : Repr w t1 l1) (h2 : Repr w t2 l2) :
    ∃ w2, swap w t1 t2 = .ok w2 () ∧ Valid w2 ∧ Repr w2 t1 l2 ∧ Repr w2 t2 l1 ∧
      (∀ t, t ≠ t1 → t ≠ t2 → ∀ l, Repr w t l → Repr w2 t l) ∧ w2.length = w.length := by
  obtain ⟨d1, e1⟩ := h1.head
  obtain ⟨d2, e2⟩ := h2.head
  by_cases hne : t1 = t2
  · subst hne
    have := Repr.unique h1 h2
    subst this
    exact ⟨w, swap_self e1, hv, h1, h1, fun _ _ _ _ h => h, rfl⟩
  have hlt1 := (List.getElem?_eq_some.1 e1).1
  have hlt2 := (List.getElem?_eq_some.1 e2).1
  have hg : ∀ i, ((w.set t1 (.list ⟨d1, startOf l2 none⟩ l2.length)).set t2
      (.list ⟨d2, startOf l1 none⟩ l1.length))[i]? =
      if i = t2 then some (.list ⟨d2, startOf l1 none⟩ l1.length)
      else if i = t1 then some (.list ⟨d1, startOf l2 none⟩ l2.length) else w[i]? := by
    intro i
    simp only [List.getElem?_set, List.length_set]
    by_cases hi2 : t2 = i
    · subst hi2; simp [hlt2]
    · by_cases hi1 : t1 = i
      · subst hi1; simp [hlt1, hne, hi2]
      · simp [hi1, hi2, Ne.symm hi1, Ne.symm hi2]
  have hnode : ∀ {t : Nat} {l : List (Nat × α)}, Repr w t l → ∀ a, a ∈ addrs l →
      a ≠ t1 ∧ a ≠ t2 := by
    intro t l hl a ha
    obtain ⟨n, hn⟩ := Seg_cell hl.seg ha
    constructor
    · intro e; rw [e, e1] at hn; simp at hn
    · intro e; rw [e, e2] at hn; simp at hn
  have hkeep : ∀ {t : Nat} {l : List (Nat × α)}, Repr w t l → Seg
      ((w.set t1 (.list ⟨d1, startOf l2 none⟩ l2.length)).set t2
        (.list ⟨d2, startOf l1 none⟩ l1.length)) l none := by
    intro t l hl
    refine Seg_congr hl.seg (fun a ha => ?_)
    obtain ⟨n1, n2⟩ := hnode hl a ha
    rw [hg]; simp [n1, n2]
  have r1 : Repr ((w.set t1 (.list ⟨d1, startOf l2 none⟩ l2.length)).set t2
      (.list ⟨d2, startOf l1 none⟩ l1.length)) t1 l2 :=
    ⟨⟨d1, by rw [hg]; simp [hne]⟩, hkeep h2, h2.nodup⟩
  have r2 : Repr ((w.set t1 (.list ⟨d1, startOf l2 none⟩ l2.length)).set t2
      (.list ⟨d2, startOf l1 none⟩ l1.length)) t2 l1 :=
    ⟨⟨d2, by rw [hg]; simp⟩, hkeep h1, h1.nodup⟩
  have hoth : ∀ t, t ≠ t1 → t ≠ t2 → ∀ l, Repr w t l → Repr ((w.set t1
      (.list ⟨d1, startOf l2 none⟩ l2.length)).set t2
        (.list ⟨d2, startOf l1 none⟩ l1.length)) t l := by
    intro t n1 n2 l hl
    obtain ⟨d, hd⟩ := hl.head
    exact ⟨⟨d, by rw [hg]; simp [n1, n2, hd]⟩, hkeep hl, hl.nodup⟩
  refine ⟨_, ?_, ?_, r1, r2, hoth, by simp⟩
  · simp [swap, e1, e2]
  · refine Valid.of_touched hv (fun t => t = t1 ∨ t = t2) ?_ ?_ ?_ ?_ ?_
    · intro t c hT e hc
      simp only [not_or] at hT
      rw [hg] at e
      simp only [hT.1, hT.2, if_false] at e
      exact ⟨c, e, hc⟩
    · intro t l hT hl
      simp only [not_or] at hT
      exact hoth t hT.1 hT.2 l hl
    · intro t l hT hl a ha
      rcases hT with rfl | rfl
      · have := Repr.unique hl r1
        subst this
        exact Or.inr ⟨t2, l, Or.inr rfl, h2, ha⟩
      · have := Repr.unique hl r2
        subst this
        exact Or.inr ⟨t1, l, Or.inl rfl, h1, ha⟩
    · intro t c hT _ _
      rcases hT with rfl | rfl
      · exact ⟨_, r1⟩
      · exact ⟨_, r2⟩
    · intro u1 u2 k1 k2 hT1 hT2 hn hk1 hk2 a a1 a2
      rcases hT1 with rfl | rfl <;> rcases hT2 with rfl | rfl
      · exact hn rfl
      · have := Repr.unique hk1 r1
        subst this
        have := Repr.unique hk2 r2
        subst this
        exact hv.sep u2 u1 k1 k2 (Ne.symm hn) h2 h1 a a1 a2
      · have := Repr.unique hk1 r2
        subst this
        have := Repr.unique hk2 r1
        subst this
        exact hv.sep u2 u1 k1 k2 (Ne.symm hn) h1 h2 a a1 a2
      · exact hn rfl

theorem create_valid {w : Mem α} (hv : Valid w) (d : α) :
    Valid (w ++ [Cell.list ⟨d, none⟩ 0]) ∧ Repr (w ++ [Cell.list ⟨d, none⟩ 0]) w.length [] ∧
      ∀ t l, Repr w t l → Repr (w ++ [Cell.list ⟨d, none⟩ 0]) t l := by
  have hr : Repr (w ++ [Cell.list ⟨d, none⟩ 0]) w.length [] :=
    ⟨⟨d, by simp⟩, trivial, List.nodup_nil⟩
  have hoth : ∀ t l, Repr w t l → Repr (w ++ [Cell.list ⟨d, none⟩ 0]) t l :=
    fun t l hl => ReprS.after_snoc hl _
  refine ⟨?_, hr, hoth⟩
  refine Valid.of_touched hv (fun t => t = w.length) ?_ ?_ ?_ ?_ ?_
  · intro t c hT e hc
    rw [getElem?_snoc, if_neg hT] at e
    exact ⟨c, e, hc⟩
  · intro t l _ hl
    exact hoth t l hl
  · intro t l hT hl a ha
    subst hT
    have := Repr.unique hl hr
    subst this
    simp at ha
  · intro t c hT _ _
    subst hT
    exact ⟨[], hr⟩
  · intro u1 u2 _ _ hT1 hT2 hn
    exact absurd (hT1.trans hT2.symm) hn

theorem free_list_valid {w : Mem α} {t0 : Nat} (hv : Valid w) (hr : Repr w t0 []) :
    Valid (w.set t0 .free) ∧ ∀ t, t ≠ t0 → ∀ l, Repr w t l → Repr (w.set t0 .free) t l := by
  have hoth : ∀ t, t ≠ t0 → ∀ l, Repr w t l → Repr (w.set t0 .free) t l := by
    intro t ht l hl
    refine ReprS.after_free hl ?_ (Ne.symm ht)
    intro hm
    obtain ⟨c, e, hc⟩ := hr.isList_cell
    rw [not_isList_of_mem hl hm e] at hc
    cases hc
  obtain ⟨d, hd⟩ := hr.head
  have hlt := (List.getElem?_eq_some.1 hd).1
  have hfree : (w.set t0 .free)[t0]? = some .free := List.getElem?_set_self hlt
  refine ⟨?_, hoth⟩
  refine Valid.of_touched hv (fun t => t = t0) ?_ ?_ ?_ ?_ ?_
  · intro t c hT e hc
    rw [List.getElem?_set_ne (Ne.symm hT)] at e
    exact ⟨c, e, hc⟩
  · intro t l hT hl
    exact hoth t hT l hl
  · intro t l hT hl
    subst hT
    obtain ⟨d2, h2⟩ := hl.head
    rw [hfree] at h2
    simp at h2
  · intro t c hT e hc
    subst hT
    rw [hfree] at e
    simp only [Option.some.injEq] at e
    subst e
    cases hc
  · intro u1 u2 _ _ hT1 hT2 hn
    exact absurd (hT1.trans hT2.symm) hn

theorem destroy_ok {w : Mem α} {this : Nat} {l : List (Nat × α)} (hv : Valid w)
    (hr : Repr w this l) : ∃ w2, destroy w this = .ok w2 () ∧ Valid w2 ∧
      (∀ t, t ≠ this → ∀ lt, Repr w t lt → Repr w2 t lt) ∧ w.length ≤ w2.length := by
  obtain ⟨w1, h1, hs⟩ := Clear_ok hv hr
  obtain ⟨hv2, ho2⟩ := free_list_valid hs.valid hs.repr
  refine ⟨w1.set this .free, by simp [destroy, h1], hv2, ?_, by simpa using hs.len⟩
  intro t ht lt hlt
  exact ho2 t ht lt (hs.others t ht lt hlt)

/-! ## The loop of Assign -/

theorem copyAll_id {copy : α → Option α} {vs : List α} (h : ∀ x, x ∈ vs → copy x = some x) :
    copyAll copy vs = some vs := by
  induction vs with
  | nil => rfl
  | cons x xs ih =>
    simp [copyAll, h x (List.mem_cons_self _ _),
      ih (fun y hy => h y (List.mem_cons_of_mem _ hy))]

theorem copyAll_none {copy : α → Option α} {vs : List α} {x : α} (hx : x ∈ vs)
    (h : copy x = none) : copyAll copy vs = none := by
  induction vs with
  | nil => simp at hx
  | cons y ys ih =>
    simp only [List.mem_cons] at hx
    unfold copyAll
    cases hy : copy y with
    | none => rfl
    | some v =>
      rcases hx with rfl | hx
      · rw [h] at hy; cases hy
      · simp [ih hx]

theorem Step.andThen {w w1 w2 : Mem α} {this : Nat} {l1 l2 : List (Nat × α)}
    (h1 : Step w w1 this l1) (h2 : Step w1 w2 this l2) : Step w w2 this l2 :=
  ⟨h2.valid, h2.repr, fun t ht l hl => h2.others t ht l (h1.others t ht l hl),
    Nat.le_trans h1.len h2.len⟩

theorem Step.stay {w : Mem α} {this : Nat} {l : List (Nat × α)} (hv : Valid w)
    (hr : Repr w this l) : Step w w this l :=
  ⟨hv, hr, fun _ _ _ h => h, Nat.le_refl _⟩

theorem Assign_loop_init (copy : α → Option α) {tmp : Nat} (vs : List α) :
    ∀ {w : Mem α} {l : List (Nat × α)} (fuel : Nat), Valid w → Repr w tmp l →
      vs.length ≤ fuel →
      ∃ w2 l2, Step w w2 tmp (l ++ l2) ∧ (∀ a, a ∈ addrs l2 → w.length ≤ a) ∧
        match copyAll copy vs with
        | some cs => Assign.loop copy initIter fuel w tmp (lastAddr tmp l) vs [] = .ok w2 () ∧
            vals l2 = cs
        | none => Assign.loop copy initIter fuel w tmp (lastAddr tmp l) vs [] =
            .err .exception w2 := by
  induction vs with
  | nil =>
    intro w l fuel hv hr _
    refine ⟨w, [], by simpa using Step.stay hv hr, by simp, ?_⟩
    unfold Assign.loop
    simp [copyAll, initIter]
  | cons x xs ih =>
    intro w l fuel hv hr hf
    cases fuel with
    | zero => simp at hf
    | succ fuel =>
      have hr0 : Repr w tmp (l ++ []) := by simpa using hr
      obtain ⟨y, hy⟩ := ReprS.getNode_last hr0
      cases hc : copy x with
      | none =>
        refine ⟨w ++ [.free], [], by simpa using snoc_free_step hv hr, by simp, ?_⟩
        unfold Assign.loop
        simp [copyAll, hc, initIter, hy, newNode]
      | some v =>
        obtain ⟨w1, hw1⟩ : ∃ w1, w1 = incSize (setNext (w ++ [Cell.node ⟨v, none⟩])
          (lastAddr tmp l) (some w.length)) tmp := ⟨_, rfl⟩
        have hs : Step w w1 tmp (l ++ [(w.length, v)]) := hw1 ▸ insert_step hv hr0 v
        obtain ⟨y1, hy1⟩ := ReprS.getNode_last
          (show ReprS w1 tmp (l ++ [(w.length, v)]) _ from hs.repr)
        have hr2 : Repr w1 tmp (l ++ [(w.length, v)]) := hs.repr
        obtain ⟨w2, l2, hs2, hfresh, hm⟩ := ih fuel hs.valid hr2 (by simpa using hf)
        refine ⟨w2, (w.length, v) :: l2, ?_, ?_, ?_⟩
        · have := hs.andThen hs2
          simpa using this
        · intro a ha
          simp only [addrs_cons, List.mem_cons] at ha
          rcases ha with rfl | ha
          · exact Nat.le_refl _
          · exact Nat.le_trans hs.len (hfresh a ha)
        · rw [lastAddr_concat] at hm
          unfold Assign.loop
          simp only [copyAll, hc]
          cases hca : copyAll copy xs with
          | none =>
            rw [hca] at hm
            simp [initIter, hy, newNode, hc, ← hw1, hy1]
            exact hm
          | some cs =>
            rw [hca] at hm
            simp [initIter, hy, newNode, hc, ← hw1, hy1]
            exact hm

theorem copyAll_cons_some {copy : α → Option α} {x v : α} (xs : List α) (hc : copy x = some v) :
    copyAll copy (x :: xs) = (copyAll copy xs).map (fun vs => v :: vs) := by
  simp only [copyAll, hc]
  cases copyAll copy xs <;> rfl

theorem Assign_loop_list (copy : α → Option α) {tmp other : Nat} (hne : other ≠ tmp)
    (ls : List (Nat × α)) :
    ∀ {w : Mem α} {l lpre : List (Nat × α)} (fuel : Nat), Valid w → Repr w tmp l →
      Repr w other (lpre ++ ls) → ls.length ≤ fuel →
      ∃ w2 l2, Step w w2 tmp (l ++ l2) ∧ (∀ a, a ∈ addrs l2 → w.length ≤ a) ∧
        match copyAll copy (vals ls) with
        | some cs => Assign.loop copy listIter fuel w tmp (lastAddr tmp l) (startOf ls none)
            none = .ok w2 () ∧ vals l2 = cs
        | none => Assign.loop copy listIter fuel w tmp (lastAddr tmp l) (startOf ls none)
            none = .err .exception w2 := by
  induction ls with
  | nil =>
    intro w l lpre fuel hv hr _ _
    refine ⟨w, [], by simpa using Step.stay hv hr, by simp, ?_⟩
    unfold Assign.loop
    simp [copyAll, listIter]
  | cons p ps ih =>
    obtain ⟨a, x⟩ := p
    intro w l lpre fuel hv hr hro hf
    cases fuel with
    | zero => simp at hf
    | succ fuel =>
      have hr0 : Repr w tmp (l ++ []) := by simpa using hr
      obtain ⟨y, hy⟩ := ReprS.getNode_last hr0
      have hca := getNode_node (ReprS.cell_mid hro)
      cases hc : copy x with
      | none =>
        refine ⟨w ++ [.free], [], by simpa using snoc_free_step hv hr, by simp, ?_⟩
        unfold Assign.loop
        simp [copyAll, hc, listIter, BasicIterator.deref, hca, hy, newNode]
      | some v =>
        obtain ⟨w1, hw1⟩ : ∃ w1, w1 = incSize (setNext (w ++ [Cell.node ⟨v, none⟩])
          (lastAddr tmp l) (some w.length)) tmp := ⟨_, rfl⟩
        have hs : Step w w1 tmp (l ++ [(w.length, v)]) := hw1 ▸ insert_step hv hr0 v
        obtain ⟨y1, hy1⟩ := ReprS.getNode_last
          (show ReprS w1 tmp (l ++ [(w.length, v)]) _ from hs.repr)
        have hr2 : Repr w1 tmp (l ++ [(w.length, v)]) := hs.repr
        have hro1 : Repr w1 other (lpre ++ (a, x) :: ps) := hs.others other hne _ hro
        have hca1 := getNode_node (ReprS.cell_mid hro1)
        have hro2 : Repr w1 other ((lpre ++ [(a, x)]) ++ ps) := by simpa using hro1
        obtain ⟨w2, l2, hs2, hfresh, hm⟩ := ih fuel hs.valid hr2 hro2 (by simpa using hf)
        refine ⟨w2, (w.length, v) :: l2, ?_, ?_, ?_⟩
        · have := hs.andThen hs2
          simpa using this
        · intro b hb
          simp only [addrs_cons, List.mem_cons] at hb
          rcases hb with rfl | hb
          · exact Nat.le_refl _
          · exact Nat.le_trans hs.len (hfresh b hb)
        · rw [lastAddr_concat] at hm
          unfold Assign.loop
          have hvc : vals ((a, x) :: ps) = x :: vals ps := rfl
          rw [hvc, copyAll_cons_some _ hc]
          cases hcp : copyAll copy (vals ps) with
          | none =>
            rw [hcp] at hm
            simp [listIter, BasicIterator.deref, BasicIterator.incr, hca, hy, newNode, hc,
              ← hw1, hy1, hca1]
            exact hm
          | some cs =>
            rw [hcp] at hm
            simp [listIter, BasicIterator.deref, BasicIterator.incr, hca, hy, newNode, hc,
              ← hw1, hy1, hca1]
            exact hm

/-! ## Assign, the constructors and copy assignment -/

theorem Assign_ok_of_loop {σ : Type} [Inhabited α] {I : InputIterator α σ}
    {copy : α → Option α} {fuel : Nat} {w w1 : Mem α} {this : Nat} {l l2 : List (Nat × α)}
    {from_ to_ : σ} (hv : Valid w) (hr : Repr w this l)
    (hstep : Step (w ++ [Cell.list ⟨default, none⟩ 0]) w1 w.length l2)
    (hloop : Assign.loop copy I fuel (w ++ [Cell.list ⟨default, none⟩ 0]) w.length w.length
      from_ to_ = .ok w1 ()) :
    ∃ w3, Assign copy I fuel w this from_ to_ = .ok w3 () ∧ Valid w3 ∧ Repr w3 this l2 ∧
      (∀ t, t ≠ this → ∀ lt, Repr w t lt → Repr w3 t lt) ∧ w.length ≤ w3.length := by
  obtain ⟨-, -, hc⟩ := create_valid hv (default : α)
  have hlt : ∀ {t : Nat} {lt : List (Nat × α)}, Repr w t lt → t ≠ w.length := by
    intro t lt h
    obtain ⟨d, hd⟩ := h.head
    exact Nat.ne_of_lt (List.getElem?_eq_some.1 hd).1
  have hthis : Repr w1 this l := hstep.others this (hlt hr) l (hc this l hr)
  obtain ⟨w2, hsw, hv2, r1, r2, ho2, hl2⟩ := swap_ok hstep.valid hthis hstep.repr
  obtain ⟨w3, hd3, hv3, ho3, hl3⟩ := destroy_ok hv2 r2
  refine ⟨w3, ?_, hv3, ho3 this (hlt hr) l2 r1, ?_, ?_⟩
  · simp [Assign, hloop, hsw, hd3]
  · intro t ht lt h
    exact ho3 t (hlt h) lt (ho2 t ht (hlt h) lt (hstep.others t (hlt h) lt (hc t lt h)))
  · have := hstep.len
    simp at this
    omega

theorem Assign_throw_of_loop {σ : Type} [Inhabited α] {I : InputIterator α σ}
    {copy : α → Option α} {fuel : Nat} {w w1 : Mem α} (this : Nat) {l2 : List (Nat × α)}
    {from_ to_ : σ} (hv : Valid w)
    (hstep : Step (w ++ [Cell.list ⟨default, none⟩ 0]) w1 w.length l2)
    (hloop : Assign.loop copy I fuel (w ++ [Cell.list ⟨default, none⟩ 0]) w.length w.length
      from_ to_ = .err .exception w1) :
    ∃ w3, Assign copy I fuel w this from_ to_ = .err .exception w3 ∧ Valid w3 ∧
      (∀ t lt, Repr w t lt → Repr w3 t lt) ∧ w.length ≤ w3.length := by
  obtain ⟨-, -, hc⟩ := create_valid hv (default : α)
  have hlt : ∀ {t : Nat} {lt : List (Nat × α)}, Repr w t lt → t ≠ w.length := by
    intro t lt h
    obtain ⟨d, hd⟩ := h.head
    exact Nat.ne_of_lt (List.getElem?_eq_some.1 hd).1
  obtain ⟨w3, hd3, hv3, ho3, hl3⟩ := destroy_ok hstep.valid hstep.repr
  refine ⟨w3, ?_, hv3, ?_, ?_⟩
  · simp [Assign, hloop, hd3]
  · intro t lt h
    exact ho3 t (hlt h) lt (hstep.others t (hlt h) lt (hc t lt h))
  · have := hstep.len
    simp at this
    omega

theorem Repr.ne_length {w : Mem α} {t : Nat} {lt : List (Nat × α)} (h : Repr w t lt) :
    t ≠ w.length := by
  obtain ⟨d, hd⟩ := h.head
  exact Nat.ne_of_lt (List.getElem?_eq_some.1 hd).1

theorem fromValues_ok [Inhabited α] {copy : α → Option α} {w : Mem α} (hv : Valid w)
    {vs cs : List α} (hc : copyAll copy vs = some cs) :
    ∃ w2 l2, fromValues copy w vs = .ok w2 w.length ∧ Valid w2 ∧ Repr w2 w.length l2 ∧
      vals l2 = cs ∧ (∀ t lt, Repr w t lt → Repr w2 t lt) ∧ w.length ≤ w2.length := by
  obtain ⟨hv0, hr0, hc0⟩ := create_valid hv (default : α)
  obtain ⟨hv1, hr1, -⟩ := create_valid hv0 (default : α)
  obtain ⟨w1, l2, hs, -, hm⟩ := Assign_loop_init copy vs vs.length hv1 hr1
    (Nat.le_refl _)
  rw [hc] at hm
  obtain ⟨w3, h3, hv3, r3, o3, len3⟩ := Assign_ok_of_loop hv0 hr0 hs hm.1
  refine ⟨w3, l2, ?_, hv3, r3, hm.2, ?_, ?_⟩
  · simp [fromValues, h3]
  · intro t lt h
    exact o3 t h.ne_length lt (hc0 t lt h)
  · simp at len3; omega

theorem fromValues_throw [Inhabited α] {copy : α → Option α} {w : Mem α} (hv : Valid w)
    {vs : List α} (hc : copyAll copy vs = none) :
    ∃ w2, fromValues copy w vs = .err .exception w2 ∧ Valid w2 ∧
      (∀ t lt, Repr w t lt → Repr w2 t lt) ∧ w.length ≤ w2.length := by
  obtain ⟨hv0, hr0, hc0⟩ := create_valid hv (default : α)
  obtain ⟨hv1, hr1, -⟩ := create_valid hv0 (default : α)
  obtain ⟨w1, l2, hs, -, hm⟩ := Assign_loop_init copy vs vs.length hv1 hr1
    (Nat.le_refl _)
  rw [hc] at hm
  obtain ⟨w3, h3, hv3, o3, len3⟩ := Assign_throw_of_loop w.length hv0 hs hm
  obtain ⟨hv4, o4⟩ := free_list_valid hv3 (o3 _ _ hr0)
  refine ⟨w3.set w.length .free, ?_, hv4, ?_, ?_⟩
  · simp [fromValues, h3]
  · intro t lt h
    exact o4 t h.ne_length lt (o3 t lt (hc0 t lt h))
  · simp at len3 ⊢; omega

theorem copyConstruct_ok_new [Inhabited α] {copy : α → Option α} {w : Mem α} (hv : Valid w)
    {other : Nat} {lo : List (Nat × α)}
    (hro0 : Repr (w ++ [Cell.list ⟨default, none⟩ 0]) other lo) {cs : List α}
    (hc : copyAll copy (vals lo) = some cs) :
    ∃ w2 l2, copyConstruct copy w other = .ok w2 w.length ∧ Valid w2 ∧ Repr w2 w.length l2 ∧
      vals l2 = cs ∧ (∀ t lt, Repr w t lt → Repr w2 t lt) ∧ w.length ≤ w2.length := by
  obtain ⟨hv0, hr0, hc0⟩ := create_valid hv (default : α)
  obtain ⟨hv1, hr1, hc1⟩ := create_valid hv0 (default : α)
  have hro1 : Repr _ other ([] ++ lo) := hc1 other lo hro0
  have hfuel : lo.length ≤ w.length := by
    have := hro0.length_lt
    simp at this
    omega
  obtain ⟨w1, l2, hs, -, hm⟩ := Assign_loop_list copy hro0.ne_length lo w.length
    hv1 hr1 hro1 hfuel
  rw [hc] at hm
  obtain ⟨w3, h3, hv3, r3, o3, len3⟩ := Assign_ok_of_loop hv0 hr0 hs hm.1
  refine ⟨w3, l2, ?_, hv3, r3, hm.2, ?_, ?_⟩
  · simp [copyConstruct, ReprS.cbegin_eq hro0, cend, h3]
  · intro t lt h
    exact o3 t h.ne_length lt (hc0 t lt h)
  · simp at len3; omega

theorem copyConstruct_throw_new [Inhabited α] {copy : α → Option α} {w : Mem α} (hv : Valid w)
    {other : Nat} {lo : List (Nat × α)}
    (hro0 : Repr (w ++ [Cell.list ⟨default, none⟩ 0]) other lo)
    (hc : copyAll copy (vals lo) = none) :
    ∃ w2, copyConstruct copy w other = .err .exception w2 ∧ Valid w2 ∧
      (∀ t lt, Repr w t lt → Repr w2 t lt) ∧ w.length ≤ w2.length := by
  obtain ⟨hv0, hr0, hc0⟩ := create_valid hv (default : α)
  obtain ⟨hv1, hr1, hc1⟩ := create_valid hv0 (default : α)
  have hro1 : Repr _ other ([] ++ lo) := hc1 other lo hro0
  have hfuel : lo.length ≤ w.length := by
    have := hro0.length_lt
    simp at this
    omega
  obtain ⟨w1, l2, hs, -, hm⟩ := Assign_loop_list copy hro0.ne_length lo w.length
    hv1 hr1 hro1 hfuel
  rw [hc] at hm
  obtain ⟨w3, h3, hv3, o3, len3⟩ := Assign_throw_of_loop w.length hv0 hs hm
  obtain ⟨hv4, o4⟩ := free_list_valid hv3 (o3 _ _ hr0)
  refine ⟨w3.set w.length .free, ?_, hv4, ?_, ?_⟩
  · simp [copyConstruct, ReprS.cbegin_eq hro0, cend, h3]
  · intro t lt h
    exact o4 t h.ne_length lt (o3 t lt (hc0 t lt h))
  · simp at len3 ⊢; omega

theorem copyConstruct_ok [Inhabited α] {copy : α → Option α} {w : Mem α} (hv : Valid w)
    {other : Nat} {lo : List (Nat × α)} (hro : Repr w other lo) {cs : List α}
    (hc : copyAll copy (vals lo) = some cs) :
    ∃ w2 l2, copyConstruct copy w other = .ok w2 w.length ∧ Valid w2 ∧ Repr w2 w.length l2 ∧
      vals l2 = cs ∧ (∀ t lt, Repr w t lt → Repr w2 t lt) ∧ w.length ≤ w2.length :=
  copyConstruct_ok_new hv ((create_valid hv (default : α)).2.2 other lo hro) hc

theorem copyConstruct_throw [Inhabited α] {copy : α → Option α} {w : Mem α} (hv : Valid w)
    {other : Nat} {lo : List (Nat × α)} (hro : Repr w other lo)
    (hc : copyAll copy (vals lo) = none) :
    ∃ w2, copyConstruct copy w other = .err .exception w2 ∧ Valid w2 ∧
      (∀ t lt, Repr w t lt → Repr w2 t lt) ∧ w.length ≤ w2.length :=
  copyConstruct_throw_new hv ((create_valid hv (default : α)).2.2 other lo hro) hc

theorem operator_assign_self [Inhabited α] (copy : α → Option α) (w : Mem α) (this : Nat) :
    operator_assign copy w this this = .ok w () := by
  simp [operator_assign]

theorem operator_assign_ok [Inhabited α] {copy : α → Option α} {w : Mem α} (hv : Valid w)
    {this rhs : Nat} {l lo : List (Nat × α)} (hrt : Repr w this l) (hro : Repr w rhs lo)
    (hne : this ≠ rhs) {cs : List α} (hc : copyAll copy (vals lo) = some cs) :
    ∃ w2 l2, operator_assign copy w this rhs = .ok w2 () ∧ Valid w2 ∧ Repr w2 this l2 ∧
      vals l2 = cs ∧ (∀ t, t ≠ this → ∀ lt, Repr w t lt → Repr w2 t lt) ∧
      w.length ≤ w2.length := by
  obtain ⟨w1, l2, h1, hv1, r1, hvals, o1, len1⟩ := copyConstruct_ok hv hro hc
  obtain ⟨w2, hsw, hv2, r2a, r2b, o2, len2⟩ := swap_ok hv1 (o1 this l hrt) r1
  obtain ⟨w3, hd3, hv3, o3, len3⟩ := destroy_ok hv2 r2b
  refine ⟨w3, l2, ?_, hv3, o3 this hrt.ne_length l2 r2a, hvals, ?_, ?_⟩
  · simp [operator_assign, hne, h1, hsw, hd3]
  · intro t ht lt h
    exact o3 t h.ne_length lt (o2 t ht h.ne_length lt (o1 t lt h))
  · omega

theorem operator_assign_throw [Inhabited α] {copy : α → Option α} {w : Mem α} (hv : Valid w)
    {this rhs : Nat} {lo : List (Nat × α)} (hro : Repr w rhs lo)
    (hne : this ≠ rhs) (hc : copyAll copy (vals lo) = none) :
    ∃ w2, operator_assign copy w this rhs = .err .exception w2 ∧ Valid w2 ∧
      (∀ t lt, Repr w t lt → Repr w2 t lt) ∧ w.length ≤ w2.length := by
  obtain ⟨w1, h1, hv1, o1, len1⟩ := copyConstruct_throw hv hro hc
  exact ⟨w1, by simp [operator_assign, hne, h1], hv1, o1, len1⟩

/-! ## Positions -/

theorem advance_Seg {w : Mem α} {l : List (Nat × α)} {q : Ptr} (h : Seg w l q) (k : Nat)
    (hk : k ≤ l.length) : advance w (startOf l q) k = .ok (startOf (l.drop k) q) := by
  induction l generalizing k with
  | nil =>
    have : k = 0 := by simpa using hk
    subst this
    rfl
  | cons x t ih =>
    obtain ⟨a, v⟩ := x
    cases k with
    | zero => rfl
    | succ k =>
      simp only [advance, startOf_cons, BasicIterator.incr, getNode_node h.1, List.drop_succ_cons]
      exact ih h.2 k (by simpa using hk)

theorem lastAddr_cons (this : Nat) (x : Nat × α) (m : List (Nat × α)) :
    lastAddr this (x :: m) = lastAddr x.1 m := by
  cases m with
  | nil => simp [lastAddr]
  | cons y m =>
    simp only [lastAddr, addrs_cons, List.getLast?_cons_cons]
    rw [List.getLast?_eq_getLast _ (List.cons_ne_nil _ _)]
    rfl

theorem startOf_drop (this : Nat) (l : List (Nat × α)) (q : Ptr) (k : Nat) (hk : k < l.length) :
    startOf (l.drop k) q = some (lastAddr this (l.take (k + 1))) := by
  induction l generalizing k this with
  | nil => simp at hk
  | cons x t ih =>
    obtain ⟨a, v⟩ := x
    cases k with
    | zero => simp [lastAddr]
    | succ k =>
      rw [List.drop_succ_cons, List.take_succ_cons, lastAddr_cons]
      exact ih a k (by simpa using hk)

theorem advance_Repr {w : Mem α} {this : Nat} {l : List (Nat × α)} {s : Nat}
    (h : ReprS w this l s) (k : Nat) (hk : k ≤ l.length) :
    advance w (before_begin this) k = .ok (some (lastAddr this (l.take k))) := by
  obtain ⟨d, hd⟩ := h.head
  cases k with
  | zero => rfl
  | succ k =>
    simp only [advance, before_begin, BasicIterator.incr, getNode_list hd]
    rw [advance_Seg h.seg k (by omega), startOf_drop this l none k (by omega)]

theorem advance_end {w : Mem α} {this : Nat} {l : List (Nat × α)} {s : Nat}
    (h : ReprS w this l s) : advance w (before_begin this) (l.length + 1) = .ok cend := by
  obtain ⟨d, hd⟩ := h.head
  simp only [advance, before_begin, BasicIterator.incr, getNode_list hd]
  rw [advance_Seg h.seg l.length (Nat.le_refl _)]
  simp [cend]

theorem advance_add (w : Mem α) (p : Ptr) (j k : Nat) :
    advance w p (j + k) =
      match advance w p j with
      | .ok q => advance w q k
      | .error e => .error e := by
  induction j generalizing p with
  | zero => simp [advance]
  | succ j ih =>
    rw [Nat.add_right_comm]
    simp only [advance]
    cases BasicIterator.incr w p with
    | ok nx => exact ih nx
    | error e => rfl

theorem advance_past {w : Mem α} {this : Nat} {l : List (Nat × α)} {s : Nat}
    (h : ReprS w this l s) (k : Nat) (hk : l.length + 1 < k) :
    ∃ e, advance w (before_begin this) k = .error e := by
  obtain ⟨j, rfl⟩ : ∃ j, k = (l.length + 1) + (j + 1) := ⟨k - (l.length + 1) - 1, by omega⟩
  rw [advance_add, advance_end h]
  exact ⟨.assertFailed, by simp [advance, cend, BasicIterator.incr]⟩

/-! ## Worked memory -/

theorem Valid_nil : Valid ([] : Mem α) where
  lists := fun this h s e => by simp at e
  sep := fun t1 t2 l1 l2 _ h1 _ => by
    obtain ⟨d, hd⟩ := h1.head
    simp at hd

theorem demo_valid : Valid demo := by
  obtain ⟨w2, l2, h, hv, -⟩ := @fromValues_ok Nat _ some [] Valid_nil [11, 10] [11, 10] rfl
  have e : fromValues some ([] : Mem Nat) [11, 10] = .ok demo 0 := rfl
  rw [e] at h
  injection h with h1 h2
  rw [h1]
  exact hv

/-! ## The claims -/

/-- C1: for every sequence of values `V`, the container built from it by the
initializer-list constructor (every element copy succeeding) iterates from
`begin()` to `end()` over exactly `V`, in order, and `GetSize()` is the
length of `V`. -/
theorem C1_fromValues_iterates [Inhabited α] (copy : α → Option α) (w : Mem α) (hv : Valid w)
    (V : List α) (hcopy : ∀ x, x ∈ V → copy x = some x) :
    ∃ w2 this, fromValues copy w V = .ok w2 this ∧ toList w2 this = .ok V ∧
      GetSize w2 this = .ok V.length := by
  obtain ⟨w2, l2, h, -, hr, hvals, -⟩ := fromValues_ok hv (copyAll_id hcopy)
  refine ⟨w2, w.length, h, ?_, ?_⟩
  · rw [ReprS.toList_eq hr, hvals]
  · rw [ReprS.GetSize_eq hr, ← hvals, length_vals]

theorem C1_fromValues_iterates_witness :
    ∃ w2 this, fromValues some ([] : Mem Nat) [11, 10] = .ok w2 this ∧
      toList w2 this = .ok [11, 10] ∧ GetSize w2 this = .ok 2 :=
  C1_fromValues_iterates some [] Valid_nil [11, 10] (fun _ _ => rfl)

theorem PushFrontAll_ok {copy : α → Option α} {this : Nat} (vs : List α)
    (hcopy : ∀ v, v ∈ vs → copy v = some v) :
    ∀ {w : Mem α} {l : List (Nat × α)}, Valid w → Repr w this l →
      ∃ w2 l2, PushFrontAll copy w this vs = .ok w2 () ∧ Valid w2 ∧ Repr w2 this l2 ∧
        vals l2 = vs.reverse ++ vals l := by
  induction vs with
  | nil =>
    intro w l hv hr
    exact ⟨w, l, rfl, hv, hr, by simp⟩
  | cons v vs ih =>
    intro w l hv hr
    obtain ⟨w1, h1, hs⟩ := PushFront_ok hv hr (hcopy v (List.mem_cons_self _ _))
    obtain ⟨w2, l2, h2, hv2, hr2, hvals⟩ :=
      ih (fun u hu => hcopy u (List.mem_cons_of_mem _ hu)) hs.valid hs.repr
    exact ⟨w2, l2, by simp [PushFrontAll, h1, h2], hv2, hr2, by simp [hvals]⟩

/-- C3: on a container with element sequence `L`, `PushFront(x)` gives the
sequence `x` followed by `L` and raises `GetSize()` by one; pushing `v1 … vn`
in this order gives `vn … v1` followed by `L`. -/
theorem C3_PushFront (copy : α → Option α) (w : Mem α) (hv : Valid w) (this : Nat)
    (L : List α) (htl : toList w this = .ok L) :
    (∀ x, copy x = some x → ∃ w2, PushFront copy w this x = .ok w2 () ∧
      toList w2 this = .ok (x :: L) ∧ GetSize w this = .ok L.length ∧
      GetSize w2 this = .ok (L.length + 1)) ∧
    (∀ vs, (∀ v, v ∈ vs → copy v = some v) → ∃ w2, PushFrontAll copy w this vs = .ok w2 () ∧
      toList w2 this = .ok (vs.reverse ++ L) ∧ GetSize w2 this = .ok (L.length + vs.length)) := by
  obtain ⟨l, hr, rfl⟩ := hv.repr_of_toList htl
  constructor
  · intro x hx
    obtain ⟨w2, h, hs⟩ := PushFront_ok hv hr hx
    refine ⟨w2, h, ?_, ?_, ?_⟩
    · rw [ReprS.toList_eq hs.repr]; rfl
    · rw [ReprS.GetSize_eq hr, length_vals]
    · rw [ReprS.GetSize_eq hs.repr, length_vals]; rfl
  · intro vs hvs
    obtain ⟨w2, l2, h, -, hr2, hvals⟩ := PushFrontAll_ok vs hvs hv hr
    refine ⟨w2, h, ?_, ?_⟩
    · rw [ReprS.toList_eq hr2, hvals]
    · rw [ReprS.GetSize_eq hr2, ← length_vals l2, hvals]
      simp [Nat.add_comm]

theorem C3_PushFront_witness :
    Valid demo ∧ toList demo 0 = .ok [11, 10] ∧
      (∃ w2, PushFront some demo 0 21 = .ok w2 () ∧ toList w2 0 = .ok [21, 11, 10] ∧
        GetSize demo 0 = .ok 2 ∧ GetSize w2 0 = .ok 3) ∧
      ∃ w2, PushFrontAll some demo 0 [20, 21] = .ok w2 () ∧
        toList w2 0 = .ok [21, 20, 11, 10] ∧ GetSize w2 0 = .ok 4 :=
  ⟨demo_valid, rfl,
    (C3_PushFront some demo demo_valid 0 [11, 10] rfl).1 21 rfl,
    (C3_PushFront some demo demo_valid 0 [11, 10] rfl).2 [20, 21] (fun _ _ => rfl)⟩

theorem deref_node {w : Mem α} {a : Nat} {n : Node α} (h : w[a]? = some (.node n)) :
    BasicIterator.deref w (some a) = .ok n.value := by
  simp [BasicIterator.deref, getNode_node h]

theorem vals_take (l : List (Nat × α)) (k : Nat) : vals (l.take k) = (vals l).take k := by
  simp [vals, List.map_take]

theorem vals_drop (l : List (Nat × α)) (k : Nat) : vals (l.drop k) = (vals l).drop k := by
  simp [vals, List.map_drop]

theorem position_unique {w : Mem α} {this : Nat} {l : List (Nat × α)} {s : Nat}
    (h : ReprS w this l s) {k : Nat} (hk : k ≤ l.length) {p : Ptr}
    (hp : advance w (before_begin this) k = .ok p) : p = some (lastAddr this (l.take k)) := by
  rw [advance_Repr h k hk] at hp
  injection hp with hp
  exact hp.symm

/-- C4: on a container with element sequence `L`, for the position `p` reached
from `before_begin()` by `k ≤ |L|` steps (the sentinel for `k = 0`, else the
`k`-th element), `InsertAfter(p, v)` gives the first `k` elements of `L`, then
`v`, then the rest; `GetSize()` grows by one; the returned position
dereferences to `v` and is the one reached by advancing `p` once. -/
theorem C4_InsertAfter (copy : α → Option α) (w : Mem α) (hv : Valid w) (this : Nat)
    (L : List α) (htl : toList w this = .ok L) (k : Nat) (hk : k ≤ L.length) (p : Ptr)
    (hp : advance w (before_begin this) k = .ok p) (v : α) (hc : copy v = some v) :
    ∃ w2 it, InsertAfter copy w this p v = .ok w2 it ∧
      toList w2 this = .ok (L.take k ++ v :: L.drop k) ∧
      GetSize w this = .ok L.length ∧ GetSize w2 this = .ok (L.length + 1) ∧
      BasicIterator.deref w2 it = .ok v ∧ BasicIterator.incr w2 p = .ok it := by
  obtain ⟨l, hr, rfl⟩ := hv.repr_of_toList htl
  rw [length_vals] at hk
  have hpe := position_unique hr hk hp
  subst hpe
  have hsplit : Repr w this (l.take k ++ l.drop k) := by rw [List.take_append_drop]; exact hr
  obtain ⟨w2, h, hs⟩ := InsertAfter_ok hv hsplit hc
  obtain ⟨y, hy⟩ := ReprS.getNode_last hs.repr
  refine ⟨w2, some w.length, h, ?_, ?_, ?_, ?_, ?_⟩
  · rw [ReprS.toList_eq hs.repr]
    simp [vals_take, vals_drop]
  · rw [ReprS.GetSize_eq hr, length_vals]
  · rw [ReprS.GetSize_eq hs.repr, length_vals]
    have := List.take_append_drop k l
    simp only [List.length_append, List.length_cons]
    rw [← Nat.add_assoc, ← List.length_append, this]
  · exact deref_node (ReprS.cell_mid hs.repr)
  · simp [BasicIterator.incr, hy]

theorem C4_InsertAfter_witness :
    Valid demo ∧ toList demo 0 = .ok [11, 10] ∧ advance demo (before_begin 0) 1 = .ok (some 2) ∧
      ∃ w2 it, InsertAfter some demo 0 (some 2) 100 = .ok w2 it ∧
        toList w2 0 = .ok [11, 100, 10] ∧ GetSize demo 0 = .ok 2 ∧ GetSize w2 0 = .ok 3 ∧
        BasicIterator.deref w2 it = .ok 100 ∧ BasicIterator.incr w2 (some 2) = .ok it :=
  ⟨demo_valid, rfl, rfl,
    C4_InsertAfter some demo demo_valid 0 [11, 10] rfl 1 (by decide) (some 2) rfl 100 rfl⟩

/-- C5: on a container with element sequence `L`, for the position `p` reached
from `before_begin()` by `k < |L|` steps (so that a node follows `p`),
`EraseAfter(p)` removes exactly the element that follows `p` and keeps the
others in order; `GetSize()` drops by one; the returned position is the one
now following `p`: it dereferences to the element that came after the erased
one, or is `end()` when there is none.  If the erased element was the only
one, the container is empty. -/
theorem C5_EraseAfter (w : Mem α) (hv : Valid w) (this : Nat) (L : List α)
    (htl : toList w this = .ok L) (k : Nat) (hk : k < L.length) (p : Ptr)
    (hp : advance w (before_begin this) k = .ok p) :
    ∃ w2 it, EraseAfter w this p = .ok w2 it ∧
      toList w2 this = .ok (L.eraseIdx k) ∧
      GetSize w this = .ok L.length ∧ GetSize w2 this = .ok (L.length - 1) ∧
      BasicIterator.incr w2 p = .ok it ∧
      (∀ y, L[k + 1]? = some y → BasicIterator.deref w2 it = .ok y) ∧
      (L[k + 1]? = none → it = cend) ∧
      (L.length = 1 → toList w2 this = .ok [] ∧ IsEmpty w2 this = .ok true) := by
  obtain ⟨l, hr, rfl⟩ := hv.repr_of_toList htl
  rw [length_vals] at hk
  have hpe := position_unique hr (Nat.le_of_lt hk) hp
  subst hpe
  have hsplit : Repr w this (l.take k ++ (l[k].1, l[k].2) :: l.drop (k + 1)) := by
    rw [← List.drop_eq_getElem_cons hk, List.take_append_drop]; exact hr
  obtain ⟨w2, h, hs⟩ := EraseAfter_ok hv hsplit
  obtain ⟨y, hy⟩ := ReprS.getNode_last hs.repr
  have hlen : (l.take k ++ l.drop (k + 1)).length = l.length - 1 := by
    simp only [List.length_append, List.length_take, List.length_drop]; omega
  have hvals : vals (l.take k ++ l.drop (k + 1)) = (vals l).eraseIdx k := by
    rw [List.eraseIdx_eq_take_drop_succ]; simp [vals_take, vals_drop]
  refine ⟨w2, startOf (l.drop (k + 1)) none, h, ?_, ?_, ?_, ?_, ?_, ?_, ?_⟩
  · rw [ReprS.toList_eq hs.repr, hvals]
  · rw [ReprS.GetSize_eq hr, length_vals]
  · rw [ReprS.GetSize_eq hs.repr, hlen, length_vals]
  · simp [BasicIterator.incr, hy]
  · intro y2 hy2
    have hk2 : k + 1 < l.length := by
      have := (List.getElem?_eq_some.1 hy2).1
      simpa using this
    have hseg := ((Seg_append (l.take k) (l.drop (k + 1)) none).1 hs.repr.seg).2
    rw [List.drop_eq_getElem_cons hk2] at hseg ⊢
    rcases hl : l[k + 1] with ⟨a, x⟩
    rw [hl] at hseg
    have hx : x = y2 := by
      have := List.getElem?_eq_getElem (l := vals l) (n := k + 1) (by simpa using hk2)
      rw [this] at hy2
      simp only [vals, List.getElem_map, hl, Option.some.injEq] at hy2
      exact hy2
    subst hx
    exact deref_node hseg.1
  · intro hnone
    have hk2 : l.length ≤ k + 1 := by
      have := List.getElem?_eq_none_iff.1 hnone
      simpa using this
    rw [List.drop_eq_nil_of_le hk2]
    rfl
  · intro h1
    rw [length_vals] at h1
    have hnil : l.take k ++ l.drop (k + 1) = [] := List.eq_nil_of_length_eq_zero (by omega)
    have hr2 := hs.repr
    rw [hnil] at hr2
    exact ⟨ReprS.toList_eq hr2, by rw [ReprS.IsEmpty_eq hr2]; rfl⟩

theorem C5_EraseAfter_witness :
    Valid demo ∧ toList demo 0 = .ok [11, 10] ∧ advance demo (before_begin 0) 1 = .ok (some 2) ∧
      ∃ w2 it, EraseAfter demo 0 (some 2) = .ok w2 it ∧
        toList w2 0 = .ok [11] ∧ GetSize demo 0 = .ok 2 ∧ GetSize w2 0 = .ok 1 ∧
        BasicIterator.incr w2 (some 2) = .ok it ∧
        (∀ y, [11, 10][2]? = some y → BasicIterator.deref w2 it = .ok y) ∧
        (([11, 10] : List Nat)[2]? = none → it = cend) ∧
        (([11, 10] : List Nat).length = 1 → toList w2 0 = .ok [] ∧ IsEmpty w2 0 = .ok true) :=
  ⟨demo_valid, rfl, rfl,
    C5_EraseAfter demo demo_valid 0 [11, 10] rfl 1 (by decide) (some 2) rfl⟩

/-- C6: on a non-empty container with element sequence `x` followed by `L`,
`PopFront()` gives the sequence `L` and lowers `GetSize()` by one. -/
theorem C6_PopFront (w : Mem α) (hv : Valid w) (this : Nat) (x : α) (L : List α)
    (htl : toList w this = .ok (x :: L)) :
    ∃ w2, PopFront w this = .ok w2 () ∧ toList w2 this = .ok L ∧
      GetSize w this = .ok (L.length + 1) ∧ GetSize w2 this = .ok L.length := by
  obtain ⟨l, hr, hvals⟩ := hv.repr_of_toList htl
  cases l with
  | nil => simp at hvals
  | cons y t =>
    obtain ⟨a, x2⟩ := y
    simp only [vals_cons, List.cons.injEq] at hvals
    obtain ⟨rfl, rfl⟩ := hvals
    obtain ⟨w2, h, hs⟩ := PopFront_ok hv hr
    refine ⟨w2, h, ReprS.toList_eq hs.repr, ?_, ?_⟩
    · rw [ReprS.GetSize_eq hr, length_vals]; rfl
    · rw [ReprS.GetSize_eq hs.repr, length_vals]

theorem C6_PopFront_witness :
    Valid demo ∧ toList demo 0 = .ok [11, 10] ∧
      ∃ w2, PopFront demo 0 = .ok w2 () ∧ toList w2 0 = .ok [10] ∧
        GetSize demo 0 = .ok 2 ∧ GetSize w2 0 = .ok 1 :=
  ⟨demo_valid, rfl, C6_PopFront demo demo_valid 0 11 [10] rfl⟩

/-! ## Every public operation keeps the invariant -/

theorem final_ok {β : Type} {w w2 : Mem α} {r : β} {res : Res α β} (h : res = .ok w r)
    (hf : res.final = some w2) : w2 = w := by
  subst h
  simpa [Res.final] using hf.symm

theorem final_exception {β : Type} {w w2 : Mem α} {res : Res α β}
    (h : res = .err .exception w) (hf : res.final = some w2) : w2 = w := by
  subst h
  simpa [Res.final] using hf.symm

theorem applyMutation_not_list {copy : α → Option α} {w : Mem α} {this : Nat}
    (hn : ∀ hd s, w[this]? ≠ some (.list hd s)) (m : Mutation α) :
    applyMutation copy w this m = none := by
  have h1 : ∀ x, PushFront copy w this x = .err .undefinedBehavior w := by
    intro x; unfold PushFront; split
    · rename_i hd s e; exact absurd e (hn hd s)
    · rfl
  have h2 : ∀ p x, InsertAfter copy w this p x = .err .undefinedBehavior w := by
    intro p x; unfold InsertAfter; split
    · rename_i hd s e; exact absurd e (hn hd s)
    · rfl
  have h3 : PopFront w this = .err .undefinedBehavior w := by
    unfold PopFront; split
    · rename_i hd s e; exact absurd e (hn hd s)
    · rfl
  have h4 : ∀ p, EraseAfter w this p = .err .undefinedBehavior w := by
    intro p; unfold EraseAfter; split
    · rename_i hd s e; exact absurd e (hn hd s)
    · rfl
  have h5 : Clear w this = .err .undefinedBehavior w := by
    unfold Clear; split
    · rename_i hd s e; exact absurd e (hn hd s)
    · rfl
  cases m <;> simp only [applyMutation, h1, h2, h3, h4, h5, Res.final]
  · split <;> rfl
  · split <;> rfl

theorem applyMutation_step {copy : α → Option α} {w w2 : Mem α} {this : Nat} {m : Mutation α}
    (hv : Valid w) (h : applyMutation copy w this m = some w2) :
    ∃ l l2, Repr w this l ∧ Step w w2 this l2 := by
  have hlist : ∃ hd s, w[this]? = some (.list hd s) := by
    by_contra hcon
    rw [applyMutation_not_list (fun hd s e => hcon ⟨hd, s, e⟩) m] at h
    cases h
  obtain ⟨hd, s, hw⟩ := hlist
  obtain ⟨l, hr⟩ := hv.lists this hd s hw
  obtain ⟨d, hd2⟩ := hr.head
  refine ⟨l, ?_⟩
  cases m with
  | pushFront x =>
    simp only [applyMutation] at h
    cases hc : copy x with
    | none =>
      obtain ⟨w3, h3, hs⟩ := PushFront_throw hv hr hc
      rw [final_exception h3 h]
      exact ⟨_, hr, hs⟩
    | some v =>
      obtain ⟨w3, h3, hs⟩ := PushFront_ok hv hr hc
      rw [final_ok h3 h]
      exact ⟨_, hr, hs⟩
  | insertAfter k x =>
    simp only [applyMutation] at h
    rcases Nat.lt_or_ge l.length k with hk | hk
    · exfalso
      rcases Nat.eq_or_lt_of_le hk with hk | hk
      · rw [← hk, advance_end hr] at h
        simp [InsertAfter, hw, cend, Res.final] at h
      · obtain ⟨e, he⟩ := advance_past hr k hk
        rw [he] at h
        simp at h
    · rw [advance_Repr hr k hk] at h
      simp only at h
      have hsplit : Repr w this (l.take k ++ l.drop k) := by
        rw [List.take_append_drop]; exact hr
      cases hc : copy x with
      | none =>
        obtain ⟨w3, h3, hs⟩ := InsertAfter_throw hv hsplit hc
        rw [final_exception h3 h]
        exact ⟨_, hr, hs⟩
      | some v =>
        obtain ⟨w3, h3, hs⟩ := InsertAfter_ok hv hsplit hc
        rw [final_ok h3 h]
        exact ⟨_, hr, hs⟩
  | popFront =>
    simp only [applyMutation] at h
    cases l with
    | nil =>
      exfalso
      simp [PopFront, hd2, Res.final] at h
    | cons y t =>
      obtain ⟨a, x⟩ := y
      obtain ⟨w3, h3, hs⟩ := PopFront_ok hv hr
      rw [final_ok h3 h]
      exact ⟨_, hr, hs⟩
  | eraseAfter k =>
    simp only [applyMutation] at h
    rcases Nat.lt_or_ge k l.length with hk | hk
    · rw [advance_Repr hr k (Nat.le_of_lt hk)] at h
      simp only at h
      have hsplit : Repr w this (l.take k ++ (l[k].1, l[k].2) :: l.drop (k + 1)) := by
        rw [← List.drop_eq_getElem_cons hk, List.take_append_drop]; exact hr
      obtain ⟨w3, h3, hs⟩ := EraseAfter_ok hv hsplit
      rw [final_ok h3 h]
      exact ⟨_, hr, hs⟩
    · exfalso
      rcases Nat.eq_or_lt_of_le hk with hk | hk
      · have hr0 : Repr w this (l ++ []) := by simpa using hr
        obtain ⟨y, hy⟩ := ReprS.getNode_last hr0
        rw [← hk, advance_Repr hr l.length (Nat.le_refl _), List.take_length] at h
        by_cases hz : l.length = 0
        · simp [EraseAfter, hd2, hz, Res.final] at h
        · simp [EraseAfter, hd2, hz, hy, Res.final] at h
      · rcases Nat.eq_or_lt_of_le hk with hk | hk
        · rw [← hk, advance_end hr] at h
          by_cases hz : l.length = 0
          · simp [EraseAfter, hd2, hz, Res.final] at h
          · simp [EraseAfter, hd2, hz, cend, Res.final] at h
        · obtain ⟨e, he⟩ := advance_past hr k hk
          rw [he] at h
          simp at h
  | clear =>
    simp only [applyMutation] at h
    obtain ⟨w3, h3, hs⟩ := Clear_ok hv hr
    rw [final_ok h3 h]
    exact ⟨_, hr, hs⟩

theorem fromValues_final [Inhabited α] {copy : α → Option α} {w w2 : Mem α} (hv : Valid w)
    {vs : List α} (h : (fromValues copy w vs).final = some w2) : Valid w2 := by
  cases hc : copyAll copy vs with
  | none =>
    obtain ⟨w3, h3, hv3, -⟩ := fromValues_throw hv hc
    rw [final_exception h3 h]; exact hv3
  | some cs =>
    obtain ⟨w3, l3, h3, hv3, -⟩ := fromValues_ok hv hc
    rw [final_ok h3 h]; exact hv3

theorem copyConstruct_cases [Inhabited α] (copy : α → Option α) {w : Mem α} (hv : Valid w)
    (other : Nat) :
    (∃ w1 l2, copyConstruct copy w other = .ok w1 w.length ∧ Valid w1 ∧ Repr w1 w.length l2 ∧
      (∀ t lt, Repr w t lt → Repr w1 t lt)) ∨
    (∃ w1, copyConstruct copy w other = .err .exception w1 ∧ Valid w1 ∧
      (∀ t lt, Repr w t lt → Repr w1 t lt)) ∨
    ∃ w1, copyConstruct copy w other = .err .undefinedBehavior w1 := by
  obtain ⟨hv0, -, -⟩ := create_valid hv (default : α)
  by_cases hlist : ∃ hd s, (w ++ [Cell.list ⟨(default : α), none⟩ 0])[other]? = some (.list hd s)
  · obtain ⟨hd, s, e⟩ := hlist
    obtain ⟨lo, hro0⟩ := hv0.lists other hd s e
    cases hc : copyAll copy (vals lo) with
    | none =>
      obtain ⟨w3, h3, hv3, o3, -⟩ := copyConstruct_throw_new hv hro0 hc
      exact Or.inr (Or.inl ⟨w3, h3, hv3, o3⟩)
    | some cs =>
      obtain ⟨w3, l3, h3, hv3, r3, -, o3, -⟩ := copyConstruct_ok_new hv hro0 hc
      exact Or.inl ⟨w3, l3, h3, hv3, r3, o3⟩
  · refine Or.inr (Or.inr ⟨w ++ [Cell.list ⟨(default : α), none⟩ 0], ?_⟩)
    have : cbegin (w ++ [Cell.list ⟨(default : α), none⟩ 0]) other =
        .error .undefinedBehavior := by
      unfold cbegin; split
      · rename_i hd s e; exact absurd ⟨hd, s, e⟩ hlist
      · rfl
    simp only [copyConstruct, this]

theorem copyConstruct_final [Inhabited α] {copy : α → Option α} {w w2 : Mem α} (hv : Valid w)
    {other : Nat} (h : (copyConstruct copy w other).final = some w2) : Valid w2 := by
  rcases copyConstruct_cases copy hv other with ⟨w1, l2, h1, hv1, -⟩ | ⟨w1, h1, hv1, -⟩ | ⟨w1, h1⟩
  · rw [final_ok h1 h]; exact hv1
  · rw [final_exception h1 h]; exact hv1
  · rw [h1] at h; simp [Res.final] at h

theorem swap_final {w w2 : Mem α} (hv : Valid w) {this other : Nat}
    (h : (swap w this other).final = some w2) : Valid w2 := by
  by_cases h1 : ∃ hd s, w[this]? = some (.list hd s)
  · by_cases h2 : ∃ hd s, w[other]? = some (.list hd s)
    · obtain ⟨d1, s1, e1⟩ := h1
      obtain ⟨d2, s2, e2⟩ := h2
      obtain ⟨l1, r1⟩ := hv.lists this d1 s1 e1
      obtain ⟨l2, r2⟩ := hv.lists other d2 s2 e2
      obtain ⟨w3, h3, hv3, -⟩ := swap_ok hv r1 r2
      rw [final_ok h3 h]; exact hv3
    · exfalso
      have : swap w this other = .err .undefinedBehavior w := by
        unfold swap; split
        · rename_i hd s e; exact absurd ⟨_, _, e⟩ h2
        · rfl
      rw [this] at h; simp [Res.final] at h
  · exfalso
    have : swap w this other = .err .undefinedBehavior w := by
      unfold swap; split
      · rename_i e _; exact absurd ⟨_, _, e⟩ h1
      · rfl
    rw [this] at h; simp [Res.final] at h

theorem operator_assign_final [Inhabited α] {copy : α → Option α} {w w2 : Mem α} (hv : Valid w)
    {this rhs : Nat} (h : (operator_assign copy w this rhs).final = some w2) : Valid w2 := by
  by_cases hne : this = rhs
  · subst hne
    rw [final_ok (operator_assign_self copy w this) h]; exact hv
  rcases copyConstruct_cases copy hv rhs with ⟨w1, l2, h1, hv1, r1, -⟩ | ⟨w1, h1, hv1, -⟩ | ⟨w1, h1⟩
  · by_cases hl : ∃ hd s, w1[this]? = some (.list hd s)
    · obtain ⟨d, s, e⟩ := hl
      obtain ⟨l, hr⟩ := hv1.lists this d s e
      obtain ⟨w3, hsw, hv3, -, r3, -⟩ := swap_ok hv1 hr r1
      obtain ⟨w4, hd4, hv4, -⟩ := destroy_ok hv3 r3
      have : operator_assign copy w this rhs = .ok w4 () := by
        simp [operator_assign, hne, h1, hsw, hd4]
      rw [final_ok this h]; exact hv4
    · exfalso
      have hsw : swap w1 this w.length = .err .undefinedBehavior w1 := by
        unfold swap; split
        · rename_i e _; exact absurd ⟨_, _, e⟩ hl
        · rfl
      have : operator_assign copy w this rhs = .err .undefinedBehavior w1 := by
        simp [operator_assign, hne, h1, hsw]
      rw [this] at h; simp [Res.final] at h
  · have : operator_assign copy w this rhs = .err .exception w1 := by
      simp [operator_assign, hne, h1]
    rw [final_exception this h]; exact hv1
  · exfalso
    have : operator_assign copy w this rhs = .err .undefinedBehavior w1 := by
      simp [operator_assign, hne, h1]
    rw [this] at h; simp [Res.final] at h

theorem Reachable.valid [Inhabited α] {copy : α → Option α} {w : Mem α}
    (h : Reachable copy w) : Valid w := by
  induction h with
  | empty => exact Valid_nil
  | construct _ ih => exact (create_valid ih (default : α)).1
  | fromValues values _ hf ih => exact fromValues_final ih hf
  | copyConstruct other _ hf ih => exact copyConstruct_final ih hf
  | assign this rhs _ hf ih => exact operator_assign_final ih hf
  | mutate this m _ hf ih =>
    obtain ⟨l, l2, -, hs⟩ := applyMutation_step ih hf
    exact hs.valid
  | swap this other _ hf ih => exact swap_final ih hf

/-- C2: in every memory reachable by the public operations used within their
preconditions, each container object has `GetSize()` equal to the number of
nodes reachable from the `next_node` of its sentinel up to `nullptr`, and
`IsEmpty()` holds exactly when that number is zero. -/
theorem C2_size_invariant [Inhabited α] (copy : α → Option α) (w : Mem α)
    (hreach : Reachable copy w) (this : Nat) (hd : Node α) (s : Nat)
    (hobj : w[this]? = some (.list hd s)) :
    ∃ n, GetSize w this = .ok n ∧ reachableCount w this = .ok n ∧
      IsEmpty w this = .ok (decide (n = 0)) := by
  obtain ⟨l, hr⟩ := hreach.valid.lists this hd s hobj
  refine ⟨l.length, ReprS.GetSize_eq hr, ReprS.reachableCount_eq hr, ?_⟩
  rw [ReprS.IsEmpty_eq hr]
  congr 1

theorem C2_size_invariant_witness :
    Reachable some demo ∧ demo[0]? = some (.list ⟨0, some 2⟩ 2) ∧
      ∃ n, GetSize demo 0 = .ok n ∧ reachableCount demo 0 = .ok n ∧
        IsEmpty demo 0 = .ok (decide (n = 0)) :=
  ⟨Reachable.fromValues [11, 10] Reachable.empty rfl, rfl,
    C2_size_invariant some demo (Reachable.fromValues [11, 10] Reachable.empty rfl) 0
      ⟨0, some 2⟩ 2 rfl⟩

/-! ## Comparison -/

theorem std_equal_Seg [BEq α] {w : Mem α} {l1 : List (Nat × α)} :
    ∀ {l2 : List (Nat × α)}, Seg w l1 none → Seg w l2 none → l1.length = l2.length →
      ∀ fuel, l1.length ≤ fuel →
        std_equal fuel w (startOf l1 none) none (startOf l2 none) =
          .ok (pairwiseEq (vals l1) (vals l2)) := by
  induction l1 with
  | nil =>
    intro l2 _ _ _ fuel _
    unfold std_equal
    simp [pairwiseEq]
  | cons x t ih =>
    intro l2 h1 h2 hlen fuel hf
    obtain ⟨a, u⟩ := x
    cases l2 with
    | nil => simp at hlen
    | cons y t2 =>
      obtain ⟨b, v⟩ := y
      cases fuel with
      | zero => simp at hf
      | succ fuel =>
        have hrec := ih h1.2 h2.2 (by simpa using hlen) fuel (by simpa using hf)
        unfold std_equal
        simp only [startOf_cons, BasicIterator.deref, BasicIterator.incr, getNode_node h1.1,
          getNode_node h2.1, vals_cons, pairwiseEq]
        by_cases he : (u == v) = true
        · simp [he, hrec]; rfl
        · simp [he]

theorem operator_eq_Repr [BEq α] {w : Mem α} {A B : Nat} {l1 l2 : List (Nat × α)}
    (h1 : Repr w A l1) (h2 : Repr w B l2) (hne : A ≠ B) :
    operator_eq w A B =
      .ok (decide (l1.length = l2.length) && pairwiseEq (vals l1) (vals l2)) := by
  unfold operator_eq
  rw [if_neg hne, ReprS.GetSize_eq h1, ReprS.GetSize_eq h2]
  by_cases hl : l1.length = l2.length
  · simp only [hl, if_true, ReprS.cbegin_eq h1, ReprS.cbegin_eq h2, cend]
    rw [std_equal_Seg h1.seg h2.seg hl _ (Nat.le_of_lt h1.length_lt)]
    simp
  · simp [hl]

theorem pairwiseEq_self [BEq α] (L : List α) (h : ∀ x, x ∈ L → (x == x) = true) :
    pairwiseEq L L = true := by
  induction L with
  | nil => rfl
  | cons x t ih =>
    simp [pairwiseEq, h x (List.mem_cons_self _ _),
      ih (fun y hy => h y (List.mem_cons_of_mem _ hy))]

theorem pairwiseEq_iff [BEq α] (L1 : List α) :
    ∀ (L2 : List α), L1.length = L2.length →
      (pairwiseEq L1 L2 = true ↔
        ∀ (i : Nat) (h1 : i < L1.length) (h2 : i < L2.length), (L1[i] == L2[i]) = true) := by
  induction L1 with
  | nil =>
    intro L2 _
    simp [pairwiseEq]
  | cons x t ih =>
    intro L2 hlen
    cases L2 with
    | nil => simp at hlen
    | cons y t2 =>
      simp only [pairwiseEq, Bool.and_eq_true, ih t2 (by simpa using hlen)]
      constructor
      · rintro ⟨hxy, hrest⟩ i h1 h2
        cases i with
        | zero => simpa using hxy
        | succ i => simpa using hrest i (by simpa using h1) (by simpa using h2)
      · intro hall
        refine ⟨by simpa using hall 0 (by simp) (by simp), fun i h1 h2 => ?_⟩
        simpa using hall (i + 1) (by simpa using h1) (by simpa using h2)

theorem runMutations_frame {copy : α → Option α} {A B : Nat} {lA : List (Nat × α)}
    (hne : A ≠ B) (ms : List (Mutation α)) :
    ∀ {w w3 : Mem α}, Valid w → Repr w A lA → runMutations copy w B ms = some w3 →
      Valid w3 ∧ Repr w3 A lA := by
  induction ms with
  | nil =>
    intro w w3 hv hr h
    simp only [runMutations, Option.some.injEq] at h
    subst h
    exact ⟨hv, hr⟩
  | cons m ms ih =>
    intro w w3 hv hr h
    simp only [runMutations] at h
    cases hm : applyMutation copy w B m with
    | none => rw [hm] at h; cases h
    | some w1 =>
      rw [hm] at h
      obtain ⟨l, l2, -, hs⟩ := applyMutation_step hv hm
      exact ih hs.valid (hs.others A hne lA hr) h

theorem demo2_valid : Valid demo2 := by
  obtain ⟨w2, l2, h, hv, -⟩ := @fromValues_ok Nat _ some demo demo_valid [13, 12] [13, 12] rfl
  have e : fromValues some demo [13, 12] = .ok demo2 4 := rfl
  rw [e] at h
  injection h with h1 h2
  rw [h1]
  exact hv

/-- C7, refuted as stated: for a container holding one NaN, an element that
does not compare equal to itself, copy construction returns a copy with the
same sequence and size, yet `A == B` is false. -/
theorem C7_copy_is_deep_counterexample :
    toList demoNaN 0 = .ok [none] ∧
      @copyConstruct (Option Nat) nanInhabited some demoNaN 0 = .ok demoNaNCopy 3 ∧
      toList demoNaNCopy 3 = .ok [none] ∧ GetSize demoNaNCopy 3 = .ok 1 ∧
      @operator_eq (Option Nat) nanBEq demoNaNCopy 0 3 = .ok false ∧
      ¬ (@operator_eq (Option Nat) nanBEq demoNaNCopy 0 3 = .ok true) := by
  refine ⟨rfl, rfl, rfl, rfl, rfl, ?_⟩
  intro h
  have e : @operator_eq (Option Nat) nanBEq demoNaNCopy 0 3 = .ok false := rfl
  rw [e] at h
  cases h

/-- C7, amended: copy construction is a deep copy.  For every container `A`
with element sequence `L` (element copies succeeding), the copy `B` is another
object with the same sequence and size, `A` is as before, and no sequence of
mutations of `B` (`PushFront`, `InsertAfter`, `PopFront`, `EraseAfter`,
`Clear`, positions taken in `B`) changes the sequence or the size of `A`.
`A == B` is the pairwise `==` of `L` with itself: it holds when every element
of `A` compares equal to itself. -/
theorem C7_copy_is_deep [Inhabited α] [BEq α] (copy : α → Option α) (w : Mem α) (hv : Valid w)
    (A : Nat) (L : List α) (htl : toList w A = .ok L) (hcopy : ∀ x, x ∈ L → copy x = some x) :
    ∃ w2 B, copyConstruct copy w A = .ok w2 B ∧ B ≠ A ∧
      toList w2 B = .ok L ∧ GetSize w2 B = .ok L.length ∧
      toList w2 A = .ok L ∧ GetSize w2 A = .ok L.length ∧ GetSize w A = .ok L.length ∧
      operator_eq w2 A B = .ok (pairwiseEq L L) ∧
      ((∀ x, x ∈ L → (x == x) = true) → operator_eq w2 A B = .ok true) ∧
      ∀ (ms : List (Mutation α)) (w3 : Mem α), runMutations copy w2 B ms = some w3 →
        toList w3 A = .ok L ∧ GetSize w3 A = .ok L.length := by
  obtain ⟨l, hr, rfl⟩ := hv.repr_of_toList htl
  obtain ⟨w2, l2, h, hv2, hr2, hvals, ho, -⟩ := copyConstruct_ok hv hr (copyAll_id hcopy)
  have hne : A ≠ w.length := hr.ne_length
  have hrA := ho A l hr
  have hlen : l2.length = l.length := by rw [← length_vals l2, hvals, length_vals]
  have heq : operator_eq w2 A w.length = .ok (pairwiseEq (vals l) (vals l)) := by
    rw [operator_eq_Repr hrA hr2 hne, hvals]
    simp [hlen]
  refine ⟨w2, w.length, h, Ne.symm hne, ?_, ?_, ReprS.toList_eq hrA, ?_, ?_, heq, ?_, ?_⟩
  · rw [ReprS.toList_eq hr2, hvals]
  · rw [ReprS.GetSize_eq hr2, hlen, length_vals]
  · rw [ReprS.GetSize_eq hrA, length_vals]
  · rw [ReprS.GetSize_eq hr, length_vals]
  · intro hrefl
    rw [heq, pairwiseEq_self _ hrefl]
  · intro ms w3 hrun
    obtain ⟨-, hr3⟩ := runMutations_frame hne ms hv2 hrA hrun
    exact ⟨ReprS.toList_eq hr3, by rw [ReprS.GetSize_eq hr3, length_vals]⟩

theorem C7_copy_is_deep_witness :
    Valid demo ∧ toList demo 0 = .ok [11, 10] ∧
      ∃ w2 B, copyConstruct some demo 0 = .ok w2 B ∧ B ≠ 0 ∧
        toList w2 B = .ok [11, 10] ∧ GetSize w2 B = .ok 2 ∧
        toList w2 0 = .ok [11, 10] ∧ GetSize w2 0 = .ok 2 ∧ GetSize demo 0 = .ok 2 ∧
        operator_eq w2 0 B = .ok (pairwiseEq [11, 10] [11, 10]) ∧
        (∀ x, x ∈ ([11, 10] : List Nat) → (x == x) = true) ∧ operator_eq w2 0 B = .ok true ∧
        ∀ (ms : List (Mutation Nat)) (w3 : Mem Nat), runMutations some w2 B ms = some w3 →
          toList w3 0 = .ok [11, 10] ∧ GetSize w3 0 = .ok 2 := by
  obtain ⟨w2, B, h1, h2, h3, h4, h5, h6, h7, h8, h9, h10⟩ :=
    C7_copy_is_deep some demo demo_valid 0 [11, 10] rfl (fun _ _ => rfl)
  have hrefl : ∀ x, x ∈ ([11, 10] : List Nat) → (x == x) = true := fun _ _ => by simp
  exact ⟨demo_valid, rfl, w2, B, h1, h2, h3, h4, h5, h6, h7, h8, hrefl, h9 hrefl, h10⟩

/-- C8: after the copy assignment `A = B` (element copies succeeding) the
sequence and size of `A` are those `B` had, whatever `A` held before, and `B`
is unchanged; the self-assignment `A = A` changes nothing at all. -/
theorem C8_copy_assignment [Inhabited α] (copy : α → Option α) (w : Mem α) (hv : Valid w)
    (A B : Nat) (LA LB : List α) (hA : toList w A = .ok LA) (hB : toList w B = .ok LB)
    (hcopy : ∀ x, x ∈ LB → copy x = some x) :
    (∃ w2, operator_assign copy w A B = .ok w2 () ∧
      toList w2 A = .ok LB ∧ GetSize w2 A = .ok LB.length ∧
      toList w2 B = .ok LB ∧ GetSize w2 B = .ok LB.length ∧ GetSize w B = .ok LB.length) ∧
    operator_assign copy w A A = .ok w () := by
  obtain ⟨lA, hrA, rfl⟩ := hv.repr_of_toList hA
  obtain ⟨lB, hrB, rfl⟩ := hv.repr_of_toList hB
  have hsB : GetSize w B = .ok (vals lB).length := by rw [ReprS.GetSize_eq hrB, length_vals]
  refine ⟨?_, operator_assign_self copy w A⟩
  by_cases hne : A = B
  · subst hne
    exact ⟨w, operator_assign_self copy w A, hB, hsB, hB, hsB, hsB⟩
  · obtain ⟨w2, l2, h, hv2, hr2, hvals, ho, -⟩ :=
      operator_assign_ok hv hrA hrB hne (copyAll_id hcopy)
    have hrB2 := ho B (Ne.symm hne) lB hrB
    refine ⟨w2, h, ?_, ?_, ReprS.toList_eq hrB2, ?_, hsB⟩
    · rw [ReprS.toList_eq hr2, hvals]
    · rw [ReprS.GetSize_eq hr2, ← length_vals l2, hvals]
    · rw [ReprS.GetSize_eq hrB2, length_vals]

theorem C8_copy_assignment_witness :
    Valid demo2 ∧ toList demo2 4 = .ok [13, 12] ∧ toList demo2 0 = .ok [11, 10] ∧
      (∃ w2, operator_assign some demo2 4 0 = .ok w2 () ∧
        toList w2 4 = .ok [11, 10] ∧ GetSize w2 4 = .ok 2 ∧
        toList w2 0 = .ok [11, 10] ∧ GetSize w2 0 = .ok 2 ∧ GetSize demo2 0 = .ok 2) ∧
      operator_assign some demo2 4 4 = .ok demo2 () :=
  ⟨demo2_valid, rfl, rfl,
    C8_copy_assignment some demo2 demo2_valid 4 0 [13, 12] [11, 10] rfl rfl (fun _ _ => rfl)⟩

/-- C9: strong safety of copy assignment.  When the copy of some element of `B`
throws, the assignment `A = B` of two distinct containers ends with that
exception (for `A = A` no element is copied and it returns), and in either case
`A` and `B` have exactly the sequences and sizes they had before. -/
theorem C9_assignment_strong_safety [Inhabited α] (copy : α → Option α) (w : Mem α)
    (hv : Valid w) (A B : Nat) (LA LB : List α) (hA : toList w A = .ok LA)
    (hB : toList w B = .ok LB) (i : Nat) (hi : i < LB.length) (hfail : copy LB[i] = none) :
    ∃ w2, operator_assign copy w A B = (if A = B then .ok w2 () else .err .exception w2) ∧
      toList w2 A = .ok LA ∧ GetSize w2 A = GetSize w A ∧
      toList w2 B = .ok LB ∧ GetSize w2 B = GetSize w B := by
  by_cases hne : A = B
  · subst hne
    exact ⟨w, by simp [operator_assign_self], hA, rfl, hB, rfl⟩
  · obtain ⟨lA, hrA, rfl⟩ := hv.repr_of_toList hA
    obtain ⟨lB, hrB, rfl⟩ := hv.repr_of_toList hB
    obtain ⟨w2, h, hv2, ho, -⟩ := operator_assign_throw hv hrB hne
      (copyAll_none (List.getElem_mem hi) hfail)
    have hrA2 := ho A lA hrA
    have hrB2 := ho B lB hrB
    refine ⟨w2, by simp [hne, h], ReprS.toList_eq hrA2, ?_, ReprS.toList_eq hrB2, ?_⟩
    · rw [ReprS.GetSize_eq hrA2, ReprS.GetSize_eq hrA]
    · rw [ReprS.GetSize_eq hrB2, ReprS.GetSize_eq hrB]

theorem C9_assignment_strong_safety_witness :
    Valid demo2 ∧ toList demo2 4 = .ok [13, 12] ∧ toList demo2 0 = .ok [11, 10] ∧
      copyExcept10 [11, 10][1] = none ∧
      ∃ w2, operator_assign copyExcept10 demo2 4 0 =
          (if 4 = 0 then .ok w2 () else .err .exception w2) ∧
        toList w2 4 = .ok [13, 12] ∧ GetSize w2 4 = GetSize demo2 4 ∧
        toList w2 0 = .ok [11, 10] ∧ GetSize w2 0 = GetSize demo2 0 :=
  ⟨demo2_valid, rfl, rfl, rfl,
    C9_assignment_strong_safety copyExcept10 demo2 demo2_valid 4 0 [13, 12] [11, 10] rfl rfl 1
      (by decide) rfl⟩

/-- C10, refuted as stated: two containers built one after the other from the
same initializer list, the one value NaN, are distinct objects with the same
sequence, yet `A == B` is false. -/
theorem C10_equality_counterexample :
    @fromValues (Option Nat) nanInhabited some [] [none] = .ok demoNaN 0 ∧
      @fromValues (Option Nat) nanInhabited some demoNaN [none] = .ok demoNaNTwice 3 ∧
      toList demoNaNTwice 0 = .ok [none] ∧ toList demoNaNTwice 3 = .ok [none] ∧
      @operator_eq (Option Nat) nanBEq demoNaNTwice 0 3 = .ok false ∧
      ¬ (@operator_eq (Option Nat) nanBEq demoNaNTwice 0 3 = .ok true) := by
  refine ⟨rfl, rfl, rfl, rfl, rfl, ?_⟩
  intro h
  have e : @operator_eq (Option Nat) nanBEq demoNaNTwice 0 3 = .ok false := rfl
  rw [e] at h
  cases h

/-- C10, amended: container equality.  `A == A` is true.  For distinct objects
`A == B` is true exactly when the sizes match and the elements at every index
compare equal with the element `==`.  `A != B` is the negation of `A == B`.
Two containers built one after the other from the same values are distinct
objects whose `==` is the pairwise `==` of the values with themselves: they
compare equal when every value compares equal to itself. -/
theorem C10_equality [Inhabited α] [BEq α] (copy : α → Option α) (w : Mem α) (hv : Valid w)
    (A B : Nat) (LA LB : List α) (hA : toList w A = .ok LA) (hB : toList w B = .ok LB) :
    operator_eq w A A = .ok true ∧
    GetSize w A = .ok LA.length ∧ GetSize w B = .ok LB.length ∧
    (A ≠ B → ∃ b, operator_eq w A B = .ok b ∧
      (b = true ↔ (LA.length = LB.length ∧
        ∀ (i : Nat) (h1 : i < LA.length) (h2 : i < LB.length), (LA[i] == LB[i]) = true))) ∧
    (∃ b, operator_eq w A B = .ok b ∧ operator_ne w A B = .ok (!b)) ∧
    (∀ V : List α, (∀ x, x ∈ V → copy x = some x) →
      ∃ w1 X w2 Y, fromValues copy w V = .ok w1 X ∧ fromValues copy w1 V = .ok w2 Y ∧
        X ≠ Y ∧ toList w2 X = .ok V ∧ toList w2 Y = .ok V ∧
        operator_eq w2 X Y = .ok (pairwiseEq V V) ∧
        ((∀ x, x ∈ V → (x == x) = true) → operator_eq w2 X Y = .ok true)) := by
  obtain ⟨lA, hrA, rfl⟩ := hv.repr_of_toList hA
  obtain ⟨lB, hrB, rfl⟩ := hv.repr_of_toList hB
  have hself : operator_eq w A A = .ok true := by simp [operator_eq]
  have hdist : A ≠ B → ∃ b, operator_eq w A B = .ok b ∧
      (b = true ↔ ((vals lA).length = (vals lB).length ∧
        ∀ (i : Nat) (h1 : i < (vals lA).length) (h2 : i < (vals lB).length),
          ((vals lA)[i] == (vals lB)[i]) = true)) := by
    intro hne
    refine ⟨_, operator_eq_Repr hrA hrB hne, ?_⟩
    simp only [Bool.and_eq_true, decide_eq_true_eq, length_vals]
    constructor
    · rintro ⟨hl, hp⟩
      exact ⟨hl, by
        have := (pairwiseEq_iff (vals lA) (vals lB) (by simpa using hl)).1 hp
        simpa using this⟩
    · rintro ⟨hl, hp⟩
      exact ⟨hl, (pairwiseEq_iff (vals lA) (vals lB) (by simpa using hl)).2 (by simpa using hp)⟩
  refine ⟨hself, ?_, ?_, hdist, ?_, ?_⟩
  · rw [ReprS.GetSize_eq hrA, length_vals]
  · rw [ReprS.GetSize_eq hrB, length_vals]
  · by_cases hne : A = B
    · subst hne
      exact ⟨true, hself, by simp [operator_ne, hself]⟩
    · obtain ⟨b, hb, -⟩ := hdist hne
      exact ⟨b, hb, by simp [operator_ne, hb]⟩
  · intro V hV
    have hc : copyAll copy V = some V := copyAll_id hV
    obtain ⟨w1, l1, h1, hv1, hr1, hvals1, -, hlen1⟩ := fromValues_ok hv hc
    obtain ⟨w2, l2, h2, hv2, hr2, hvals2, ho2, -⟩ := fromValues_ok hv1 hc
    have hr1b := ho2 _ _ hr1
    have hne : w.length ≠ w1.length := hr1.ne_length
    have heq : operator_eq w2 w.length w1.length = .ok (pairwiseEq V V) := by
      rw [operator_eq_Repr hr1b hr2 hne, hvals1, hvals2]
      have : l1.length = l2.length := by
        rw [← length_vals l1, ← length_vals l2, hvals1, hvals2]
      simp [this]
    refine ⟨w1, w.length, w2, w1.length, h1, h2, hne, ?_, ?_, heq, ?_⟩
    · rw [ReprS.toList_eq hr1b, hvals1]
    · rw [ReprS.toList_eq hr2, hvals2]
    · intro hrefl
      rw [heq, pairwiseEq_self V hrefl]

theorem C10_equality_witness :
    Valid demo2 ∧ toList demo2 0 = .ok [11, 10] ∧ toList demo2 4 = .ok [13, 12] ∧
      operator_eq demo2 0 0 = .ok true ∧
      GetSize demo2 0 = .ok 2 ∧ GetSize demo2 4 = .ok 2 ∧
      (0 ≠ 4 → ∃ b, operator_eq demo2 0 4 = .ok b ∧
        (b = true ↔ (([11, 10] : List Nat).length = ([13, 12] : List Nat).length ∧
          ∀ (i : Nat) (_h1 : i < ([11, 10] : List Nat).length)
            (h2 : i < ([13, 12] : List Nat).length),
            (([11, 10] : List Nat)[i] == ([13, 12] : List Nat)[i]) = true))) ∧
      (∃ b, operator_eq demo2 0 4 = .ok b ∧ operator_ne demo2 0 4 = .ok (!b)) ∧
      (∀ V : List Nat, (∀ x, x ∈ V → some x = some x) →
        ∃ w1 X w2 Y, fromValues some demo2 V = .ok w1 X ∧ fromValues some w1 V = .ok w2 Y ∧
          X ≠ Y ∧ toList w2 X = .ok V ∧ toList w2 Y = .ok V ∧
          operator_eq w2 X Y = .ok (pairwiseEq V V) ∧
          ((∀ x, x ∈ V → (x == x) = true) → operator_eq w2 X Y = .ok true)) :=
  ⟨demo2_valid, rfl, rfl,
    C10_equality some demo2 demo2_valid 0 4 [11, 10] [13, 12] rfl rfl⟩

/-! ## Lexicographic comparison -/

theorem demoKeyed_valid : Valid demoKeyed := by
  obtain ⟨w1, l1, h1, hv1, -⟩ :=
    @fromValues_ok (Nat × Nat) _ some [] Valid_nil [(1, 0)] [(1, 0)] rfl
  obtain ⟨w2, l2, h2, hv2, -⟩ :=
    @fromValues_ok (Nat × Nat) _ some w1 hv1 [(1, 1)] [(1, 1)] rfl
  have e1 : fromValues some ([] : Mem (Nat × Nat)) [(1, 0)] =
      .ok [Cell.list ⟨default, some 2⟩ 1, .free, .node ⟨(1, 0), none⟩] 0 := rfl
  rw [e1] at h1
  injection h1 with h1 _
  subst h1
  have e2 : fromValues some [Cell.list ⟨default, some 2⟩ 1, .free, .node ⟨((1 : Nat), (0 : Nat)), none⟩]
      [(1, 1)] = .ok demoKeyed 3 := rfl
  rw [e2] at h2
  injection h2 with h2 _
  rw [h2]
  exact hv2

theorem lex_compare_Seg (lt : α → α → Bool) {w : Mem α} {l1 : List (Nat × α)} :
    ∀ {l2 : List (Nat × α)}, Seg w l1 none → Seg w l2 none →
      ∀ fuel, l1.length ≤ fuel →
        std_lexicographical_compare lt fuel w (startOf l1 none) none (startOf l2 none) none =
          .ok (lexLess lt (vals l1) (vals l2)) := by
  induction l1 with
  | nil =>
    intro l2 _ _ fuel _
    unfold std_lexicographical_compare
    cases l2 with
    | nil => simp [lexLess]
    | cons y t2 => obtain ⟨b, v⟩ := y; simp [lexLess]
  | cons x t ih =>
    intro l2 h1 h2 fuel hf
    obtain ⟨a, u⟩ := x
    cases l2 with
    | nil =>
      unfold std_lexicographical_compare
      simp [lexLess]
    | cons y t2 =>
      obtain ⟨b, v⟩ := y
      cases fuel with
      | zero => simp at hf
      | succ fuel =>
        have hrec := ih h1.2 h2.2 fuel (by simpa using hf)
        unfold std_lexicographical_compare
        simp only [startOf_cons, BasicIterator.deref, BasicIterator.incr, getNode_node h1.1,
          getNode_node h2.1, vals_cons, lexLess]
        by_cases hab : lt u v = true
        · simp [hab]
        · by_cases hba : lt v u = true
          · simp [hab, hba]
          · simp [hab, hba, hrec]; rfl

theorem operator_lt_Repr (lt : α → α → Bool) {w : Mem α} {A B : Nat} {l1 l2 : List (Nat × α)}
    (h1 : Repr w A l1) (h2 : Repr w B l2) :
    operator_lt lt w A B = .ok (lexLess lt (vals l1) (vals l2)) := by
  unfold operator_lt
  simp only [ReprS.cbegin_eq h1, ReprS.cbegin_eq h2, cend]
  exact lex_compare_Seg lt h1.seg h2.seg _ (Nat.le_of_lt h1.length_lt)

theorem lexLess_iff (lt : α → α → Bool) (LA : List α) :
    ∀ LB : List α, lexLess lt LA LB = true ↔ LexLess lt LA LB := by
  have h0 : ∀ (x : α) (xs : List α), (x :: xs)[0]? = some x := fun _ _ => by simp
  induction LA with
  | nil =>
    intro LB
    cases LB with
    | nil =>
      simp only [lexLess, LexLess]
      constructor
      · intro h; cases h
      · rintro ⟨i, -, h⟩
        rcases h with ⟨-, b, hb⟩ | ⟨a, b, ha, -⟩
        · simp at hb
        · simp at ha
    | cons b bs =>
      simp only [lexLess, LexLess, true_iff]
      exact ⟨0, fun j _ _ hj => absurd hj (Nat.not_lt_zero j), Or.inl ⟨rfl, b, h0 b bs⟩⟩
  | cons a as ih =>
    intro LB
    cases LB with
    | nil =>
      simp only [lexLess, LexLess]
      constructor
      · intro h; cases h
      · rintro ⟨i, -, h⟩
        rcases h with ⟨-, b, hb⟩ | ⟨x, b, -, hb, -⟩
        · simp at hb
        · simp at hb
    | cons b bs =>
      simp only [lexLess]
      by_cases hab : lt a b = true
      · simp only [hab, if_true, true_iff]
        exact ⟨0, fun j _ _ hj => absurd hj (Nat.not_lt_zero j), Or.inr ⟨a, b, h0 a as, h0 b bs, hab⟩⟩
      · by_cases hba : lt b a = true
        · simp only [hab, hba, if_true, if_false]
          constructor
          · intro h; cases h
          · rintro ⟨i, hpre, h⟩
            exfalso
            cases i with
            | zero =>
              rcases h with ⟨hn, -⟩ | ⟨x, y, hx, hy, hxy⟩
              · simp at hn
              · simp only [List.getElem?_cons_zero, Option.some.injEq] at hx hy
                subst hx; subst hy
                exact hab hxy
            | succ i =>
              have := (hpre 0 a b (Nat.succ_pos i) (h0 a as) (h0 b bs)).2
              rw [this] at hba
              cases hba
        · simp only [hab, hba, if_false, Bool.false_eq_true]
          rw [ih bs]
          constructor
          · rintro ⟨i, hpre, h⟩
            refine ⟨i + 1, ?_, ?_⟩
            · intro j x y hj hx hy
              cases j with
              | zero =>
                simp only [List.getElem?_cons_zero, Option.some.injEq] at hx hy
                subst hx; subst hy
                exact ⟨by simpa using hab, by simpa using hba⟩
              | succ j =>
                simp only [List.getElem?_cons_succ] at hx hy
                exact hpre j x y (by omega) hx hy
            · simpa only [List.getElem?_cons_succ] using h
          · rintro ⟨i, hpre, h⟩
            cases i with
            | zero =>
              exfalso
              rcases h with ⟨hn, -⟩ | ⟨x, y, hx, hy, hxy⟩
              · simp at hn
              · simp only [List.getElem?_cons_zero, Option.some.injEq] at hx hy
                subst hx; subst hy
                exact hab hxy
            | succ i =>
              refine ⟨i, ?_, ?_⟩
              · intro j x y hj hx hy
                exact hpre (j + 1) x y (by omega) (by simpa using hx) (by simpa using hy)
              · simpa only [List.getElem?_cons_succ] using h

theorem lexLess_prefix (lt : α → α → Bool) (V1 : List α) (T : List α) (hT : T ≠ [])
    (hirr : ∀ x, x ∈ V1 → lt x x = false) :
    lexLess lt V1 (V1 ++ T) = true ∧ lexLess lt (V1 ++ T) V1 = false := by
  induction V1 with
  | nil =>
    cases T with
    | nil => exact absurd rfl hT
    | cons t ts => exact ⟨rfl, rfl⟩
  | cons x xs ih =>
    have hx := hirr x (List.mem_cons_self _ _)
    have := ih (fun y hy => hirr y (List.mem_cons_of_mem _ hy))
    simp only [List.cons_append, lexLess, hx]
    simpa using this

/-- C11: `A < B` is true exactly when the element sequence of `A` is
lexicographically less than that of `B` in the order of the element type (at
the first index where they differ the element of `A` is less, or `A` is
exhausted first).  For a strict prefix `V1` of `V2` (the element `<`
irreflexive), the container built from `V1` is less than the one built from
`V2`, and not the other way round. -/
theorem C11_ordering [Inhabited α] (lt : α → α → Bool) (copy : α → Option α) (w : Mem α)
    (hv : Valid w) (A B : Nat) (LA LB : List α) (hA : toList w A = .ok LA)
    (hB : toList w B = .ok LB) :
    (∃ b, operator_lt lt w A B = .ok b ∧ (b = true ↔ LexLess lt LA LB)) ∧
    (∀ V1 V2 : List α, V1 <+: V2 → V1 ≠ V2 →
      (∀ x, x ∈ V2 → copy x = some x ∧ lt x x = false) →
      ∃ w1 X w2 Y, fromValues copy w V1 = .ok w1 X ∧ fromValues copy w1 V2 = .ok w2 Y ∧
        toList w2 X = .ok V1 ∧ toList w2 Y = .ok V2 ∧
        operator_lt lt w2 X Y = .ok true ∧ operator_lt lt w2 Y X = .ok false) := by
  obtain ⟨lA, hrA, rfl⟩ := hv.repr_of_toList hA
  obtain ⟨lB, hrB, rfl⟩ := hv.repr_of_toList hB
  refine ⟨⟨_, operator_lt_Repr lt hrA hrB, lexLess_iff lt _ _⟩, ?_⟩
  rintro V1 V2 ⟨T, rfl⟩ hne hV
  have hT : T ≠ [] := by
    intro e; subst e; exact hne (by simp)
  have hc1 : copyAll copy V1 = some V1 :=
    copyAll_id (fun x hx => (hV x (List.mem_append_left _ hx)).1)
  have hc2 : copyAll copy (V1 ++ T) = some (V1 ++ T) := copyAll_id (fun x hx => (hV x hx).1)
  obtain ⟨w1, l1, h1, hv1, hr1, hvals1, -⟩ := fromValues_ok hv hc1
  obtain ⟨w2, l2, h2, hv2, hr2, hvals2, ho2, -⟩ := fromValues_ok hv1 hc2
  have hr1b := ho2 _ _ hr1
  obtain ⟨hlt, hgt⟩ := lexLess_prefix lt V1 T hT
    (fun x hx => (hV x (List.mem_append_left _ hx)).2)
  refine ⟨w1, w.length, w2, w1.length, h1, h2, ?_, ?_, ?_, ?_⟩
  · rw [ReprS.toList_eq hr1b, hvals1]
  · rw [ReprS.toList_eq hr2, hvals2]
  · rw [operator_lt_Repr lt hr1b hr2, hvals1, hvals2, hlt]
  · rw [operator_lt_Repr lt hr2 hr1b, hvals1, hvals2, hgt]

theorem C11_ordering_witness :
    Valid demo2 ∧ toList demo2 0 = .ok [11, 10] ∧ toList demo2 4 = .ok [13, 12] ∧
      (∃ b, operator_lt (fun a b => decide (a < b)) demo2 0 4 = .ok b ∧
        (b = true ↔ LexLess (fun a b => decide (a < b)) [11, 10] [13, 12])) ∧
      (∀ V1 V2 : List Nat, V1 <+: V2 → V1 ≠ V2 →
        (∀ x, x ∈ V2 → some x = some x ∧ decide (x < x) = false) →
        ∃ w1 X w2 Y, fromValues some demo2 V1 = .ok w1 X ∧ fromValues some w1 V2 = .ok w2 Y ∧
          toList w2 X = .ok V1 ∧ toList w2 Y = .ok V2 ∧
          operator_lt (fun a b => decide (a < b)) w2 X Y = .ok true ∧
          operator_lt (fun a b => decide (a < b)) w2 Y X = .ok false) :=
  ⟨demo2_valid, rfl, rfl,
    C11_ordering (fun a b => decide (a < b)) some demo2 demo2_valid 0 4 [11, 10] [13, 12]
      rfl rfl⟩

theorem lexLess_irrefl (lt : α → α → Bool) (hasym : ∀ a b, lt a b = true → lt b a = false)
    (L : List α) : lexLess lt L L = false := by
  induction L with
  | nil => rfl
  | cons x xs ih =>
    have hx : lt x x = false := by
      cases h : lt x x with
      | false => rfl
      | true => have := hasym x x h; rw [h] at this; cases this
    simp [lexLess, hx, ih]

theorem lexLess_total [BEq α] (lt : α → α → Bool)
    (htri : ∀ a b : α, (a == b) = (!lt a b && !lt b a))
    (hasym : ∀ a b, lt a b = true → lt b a = false) (L1 : List α) :
    ∀ L2 : List α, (!lexLess lt L2 L1) =
      (lexLess lt L1 L2 || (decide (L1.length = L2.length) && pairwiseEq L1 L2)) := by
  induction L1 with
  | nil =>
    intro L2
    cases L2 with
    | nil => simp [lexLess, pairwiseEq]
    | cons b bs => simp [lexLess]
  | cons a as ih =>
    intro L2
    cases L2 with
    | nil => simp [lexLess]
    | cons b bs =>
      cases hab : lt a b with
      | true =>
        have hba := hasym a b hab
        simp [lexLess, hab, hba]
      | false =>
        cases hba : lt b a with
        | true =>
          have he : (a == b) = false := by rw [htri, hab, hba]; rfl
          simp [lexLess, hab, hba, pairwiseEq, he]
        | false =>
          have he : (a == b) = true := by rw [htri, hab, hba]; rfl
          simp only [lexLess, hab, hba, pairwiseEq, he, Bool.true_and, List.length_cons,
            Nat.add_right_cancel_iff, if_false, Bool.false_eq_true]
          exact ih bs

/-- C12, refuted as stated: with elements ordered by a key only and compared
for equality as a whole, the containers `[(1, 0)]` and `[(1, 1)]` satisfy
`A <= B` although neither `A < B` nor `A == B` holds. -/
theorem C12_derived_relations_counterexample :
    toList demoKeyed 0 = .ok [(1, 0)] ∧ toList demoKeyed 3 = .ok [(1, 1)] ∧
      ¬ (operator_le keyLt demoKeyed 0 3 = .ok true ↔
        (operator_lt keyLt demoKeyed 0 3 = .ok true ∨ operator_eq demoKeyed 0 3 = .ok true)) := by
  refine ⟨rfl, rfl, ?_⟩
  intro h
  have e1 : operator_lt keyLt demoKeyed 0 3 = .ok false := rfl
  have e2 : operator_eq demoKeyed 0 3 = .ok false := rfl
  rcases h.1 rfl with h1 | h1
  · rw [e1] at h1; cases h1
  · rw [e2] at h1; cases h1

/-- C12, amended: `A <= B` is `!(B < A)`, `A > B` is `B < A` and `A >= B` is
`!(A < B)`, with the `operator<` of the container.  When the `<` and `==` of
the element type are trichotomous (two elements are `==` exactly when neither
is less than the other, and never each less than the other), `A <= B` holds iff
`A < B` or `A == B`, and `A >= B` holds iff `A > B` or `A == B`. -/
theorem C12_derived_relations [BEq α] (lt : α → α → Bool) (w : Mem α) (hv : Valid w)
    (A B : Nat) (LA LB : List α) (hA : toList w A = .ok LA) (hB : toList w B = .ok LB) :
    ∃ blt bgt beq, operator_lt lt w A B = .ok blt ∧ operator_lt lt w B A = .ok bgt ∧
      operator_eq w A B = .ok beq ∧
      operator_le lt w A B = .ok (!bgt) ∧ operator_gt lt w A B = .ok bgt ∧
      operator_ge lt w A B = .ok (!blt) ∧
      ((∀ a b : α, (a == b) = (!lt a b && !lt b a)) →
        (∀ a b : α, lt a b = true → lt b a = false) →
        (!bgt) = (blt || beq) ∧ (!blt) = (bgt || beq)) := by
  obtain ⟨lA, hrA, rfl⟩ := hv.repr_of_toList hA
  obtain ⟨lB, hrB, rfl⟩ := hv.repr_of_toList hB
  have hlt := operator_lt_Repr lt hrA hrB
  have hgt := operator_lt_Repr lt hrB hrA
  by_cases hne : A = B
  · subst hne
    have := Repr.unique hrA hrB
    subst this
    refine ⟨_, _, true, hlt, hgt, by simp [operator_eq], by simp [operator_le, hgt],
      by simp [operator_gt, hgt], by simp [operator_ge, hlt], ?_⟩
    intro _ hasym
    simp [lexLess_irrefl lt hasym]
  · refine ⟨_, _, _, hlt, hgt, operator_eq_Repr hrA hrB hne, by simp [operator_le, hgt],
      by simp [operator_gt, hgt], by simp [operator_ge, hlt], ?_⟩
    intro htri hasym
    have hsym : ∀ a b : α, (a == b) = (b == a) := by
      intro a b; rw [htri a b, htri b a, Bool.and_comm]
    have hpw : ∀ (L1 : List α) (L2 : List α), pairwiseEq L2 L1 = pairwiseEq L1 L2 := by
      intro L1
      induction L1 with
      | nil => intro L2; cases L2 <;> rfl
      | cons x xs ih =>
        intro L2
        cases L2 with
        | nil => rfl
        | cons y ys => simp [pairwiseEq, hsym y x, ih ys]
    have t1 := lexLess_total lt htri hasym (vals lA) (vals lB)
    have t2 := lexLess_total lt htri hasym (vals lB) (vals lA)
    rw [hpw] at t2
    simp only [length_vals] at t1 t2
    refine ⟨t1, ?_⟩
    rw [t2]
    congr 2
    simp only [decide_eq_decide]
    exact eq_comm

theorem C12_derived_relations_witness :
    Valid demo2 ∧ toList demo2 0 = .ok [11, 10] ∧ toList demo2 4 = .ok [13, 12] ∧
      ∃ blt bgt beq, operator_lt (fun a b => decide (a < b)) demo2 0 4 = .ok blt ∧
        operator_lt (fun a b => decide (a < b)) demo2 4 0 = .ok bgt ∧
        operator_eq demo2 0 4 = .ok beq ∧
        operator_le (fun a b => decide (a < b)) demo2 0 4 = .ok (!bgt) ∧
        operator_gt (fun a b => decide (a < b)) demo2 0 4 = .ok bgt ∧
        operator_ge (fun a b => decide (a < b)) demo2 0 4 = .ok (!blt) ∧
        ((∀ a b : Nat, (a == b) = (!decide (a < b) && !decide (b < a))) →
          (∀ a b : Nat, decide (a < b) = true → decide (b < a) = false) →
          (!bgt) = (blt || beq) ∧ (!blt) = (bgt || beq)) :=
  ⟨demo2_valid, rfl, rfl,
    C12_derived_relations (fun a b => decide (a < b)) demo2 demo2_valid 0 4 [11, 10] [13, 12]
      rfl rfl⟩

/-! ## Round trips, Clear and swap -/

theorem PushFront_ok_mem {copy : α → Option α} {w : Mem α} {this : Nat} {l : List (Nat × α)}
    (hr : Repr w this l) {x v : α} (hc : copy x = some v) :
    PushFront copy w this x = .ok (incSize (setNext (w ++ [.node ⟨v, startOf l none⟩]) this
      (some w.length)) this) () := by
  obtain ⟨d, hd⟩ := hr.head
  simp [PushFront, hd, newNode, hc]

theorem InsertAfter_front_mem {copy : α → Option α} {w : Mem α} {this : Nat}
    {l : List (Nat × α)} (hv : Valid w) (hr : Repr w this l) {x v : α} (hc : copy x = some v) :
    InsertAfter copy w this (before_begin this) x =
      .ok (incSize (setNext (w ++ [.node ⟨v, startOf l none⟩]) this (some w.length)) this)
        (some w.length) := by
  obtain ⟨d, hd⟩ := hr.head
  have hs := insert_step hv (show Repr w this ([] ++ l) from hr) v
  obtain ⟨y3, hy3⟩ := ReprS.getNode_last
    (show ReprS _ this ([] ++ ((w.length, v) :: l)) _ from hs.repr)
  simp only [lastAddr_nil] at hy3
  simp [InsertAfter, before_begin, hd, getNode_list hd, newNode, hc, hy3]

/-- C13: `PushFront(x)` followed by `PopFront()` restores the container: the
same elements in the same order and the same size as before. -/
theorem C13_push_pop_roundtrip (copy : α → Option α) (w : Mem α) (hv : Valid w) (this : Nat)
    (L : List α) (htl : toList w this = .ok L) (x v : α) (hc : copy x = some v) :
    ∃ w1 w2, PushFront copy w this x = .ok w1 () ∧ PopFront w1 this = .ok w2 () ∧
      toList w2 this = .ok L ∧ GetSize w2 this = GetSize w this ∧
      GetSize w this = .ok L.length := by
  obtain ⟨l, hr, rfl⟩ := hv.repr_of_toList htl
  obtain ⟨w1, h1, hs1⟩ := PushFront_ok hv hr hc
  obtain ⟨w2, h2, hs2⟩ := PopFront_ok hs1.valid hs1.repr
  refine ⟨w1, w2, h1, h2, ReprS.toList_eq hs2.repr, ?_, ?_⟩
  · rw [ReprS.GetSize_eq hs2.repr, ReprS.GetSize_eq hr]
  · rw [ReprS.GetSize_eq hr, length_vals]

theorem C13_push_pop_roundtrip_witness :
    Valid demo ∧ toList demo 0 = .ok [11, 10] ∧
      ∃ w1 w2, PushFront some demo 0 7 = .ok w1 () ∧ PopFront w1 0 = .ok w2 () ∧
        toList w2 0 = .ok [11, 10] ∧ GetSize w2 0 = GetSize demo 0 ∧
        GetSize demo 0 = .ok 2 :=
  ⟨demo_valid, rfl, C13_push_pop_roundtrip some demo demo_valid 0 [11, 10] rfl 7 7 rfl⟩

/-- C14: `InsertAfter(before_begin(), x)` leaves the very memory that
`PushFront(x)` leaves, hence the same element sequence `x` followed by `L` and
the same size, and the position it returns is `begin()` of the result. -/
theorem C14_InsertAfter_before_begin (copy : α → Option α) (w : Mem α) (hv : Valid w)
    (this : Nat) (L : List α) (htl : toList w this = .ok L) (x : α) (hc : copy x = some x) :
    ∃ w2 it, PushFront copy w this x = .ok w2 () ∧
      InsertAfter copy w this (before_begin this) x = .ok w2 it ∧
      cbegin w2 this = .ok it ∧ toList w2 this = .ok (x :: L) ∧
      GetSize w2 this = .ok (L.length + 1) := by
  obtain ⟨l, hr, rfl⟩ := hv.repr_of_toList htl
  have hs := insert_step hv (show Repr w this ([] ++ l) from hr) x
  have hr2 : Repr (incSize (setNext (w ++ [.node ⟨x, startOf l none⟩]) this (some w.length))
      this) this ((w.length, x) :: l) := hs.repr
  refine ⟨_, some w.length, PushFront_ok_mem hr hc, InsertAfter_front_mem hv hr hc, ?_, ?_, ?_⟩
  · exact ReprS.cbegin_eq hr2
  · exact ReprS.toList_eq hr2
  · rw [ReprS.GetSize_eq hr2, length_vals]; rfl

theorem C14_InsertAfter_before_begin_witness :
    Valid demo ∧ toList demo 0 = .ok [11, 10] ∧
      ∃ w2 it, PushFront some demo 0 7 = .ok w2 () ∧
        InsertAfter some demo 0 (before_begin 0) 7 = .ok w2 it ∧
        cbegin w2 0 = .ok it ∧ toList w2 0 = .ok [7, 11, 10] ∧ GetSize w2 0 = .ok 3 :=
  ⟨demo_valid, rfl, C14_InsertAfter_before_begin some demo demo_valid 0 [11, 10] rfl 7 rfl⟩

/-- C15: for a position `p` with a successor (`k < |L|` steps after
`before_begin()`), `EraseAfter(p)` followed by `InsertAfter(p, v)` restores the
count for every `v`, puts `v` where the erased element was, and gives back the
original sequence when `v` is the erased value. -/
theorem C15_erase_then_insert (copy : α → Option α) (w : Mem α) (hv : Valid w) (this : Nat)
    (L : List α) (htl : toList w this = .ok L) (k : Nat) (hk : k < L.length) (p : Ptr)
    (hp : advance w (before_begin this) k = .ok p) (v : α) (hc : copy v = some v) :
    ∃ w1 it1 w2 it2, EraseAfter w this p = .ok w1 it1 ∧
      InsertAfter copy w1 this p v = .ok w2 it2 ∧
      GetSize w this = .ok L.length ∧ GetSize w2 this = .ok L.length ∧
      toList w2 this = .ok (L.take k ++ v :: L.drop (k + 1)) ∧
      (L[k]? = some v → toList w2 this = .ok L) := by
  obtain ⟨l, hr, rfl⟩ := hv.repr_of_toList htl
  rw [length_vals] at hk
  have hpe := position_unique hr (Nat.le_of_lt hk) hp
  subst hpe
  have hsplit : Repr w this (l.take k ++ (l[k].1, l[k].2) :: l.drop (k + 1)) := by
    rw [← List.drop_eq_getElem_cons hk, List.take_append_drop]; exact hr
  obtain ⟨w1, h1, hs1⟩ := EraseAfter_ok hv hsplit
  obtain ⟨w2, h2, hs2⟩ := InsertAfter_ok hs1.valid hs1.repr hc
  have htl2 : toList w2 this = .ok ((vals l).take k ++ v :: (vals l).drop (k + 1)) := by
    rw [ReprS.toList_eq hs2.repr]
    simp [vals_take, vals_drop]
  refine ⟨w1, _, w2, _, h1, h2, ?_, ?_, htl2, ?_⟩
  · rw [ReprS.GetSize_eq hr, length_vals]
  · rw [ReprS.GetSize_eq hs2.repr, length_vals]
    congr 1
    simp only [List.length_append, List.length_cons, List.length_take, List.length_drop]
    omega
  · intro hv2
    rw [htl2]
    congr 1
    have hk2 : k < (vals l).length := by simpa using hk
    have hget : (vals l)[k] = v := by
      rw [List.getElem?_eq_getElem hk2] at hv2
      exact Option.some.inj hv2
    rw [← hget, ← List.drop_eq_getElem_cons hk2, List.take_append_drop]

theorem C15_erase_then_insert_witness :
    Valid demo ∧ toList demo 0 = .ok [11, 10] ∧ advance demo (before_begin 0) 1 = .ok (some 2) ∧
      ∃ w1 it1 w2 it2, EraseAfter demo 0 (some 2) = .ok w1 it1 ∧
        InsertAfter some w1 0 (some 2) 10 = .ok w2 it2 ∧
        GetSize demo 0 = .ok 2 ∧ GetSize w2 0 = .ok 2 ∧
        toList w2 0 = .ok ([11, 10].take 1 ++ 10 :: [11, 10].drop 2) ∧
        (([11, 10] : List Nat)[1]? = some 10 → toList w2 0 = .ok [11, 10]) :=
  ⟨demo_valid, rfl, rfl,
    C15_erase_then_insert some demo demo_valid 0 [11, 10] rfl 1 (by decide) (some 2) rfl 10 rfl⟩

theorem setSize_same {w : Mem α} {this : Nat} {hd : Node α} {s : Nat}
    (h : w[this]? = some (.list hd s)) : setSize w this s = w := by
  apply List.ext_getElem?
  intro i
  rw [getElem?_setSize]
  by_cases hi : i = this
  · subst hi; simp [h, Cell.mapSize]
  · simp [hi]

theorem Clear_empty {w : Mem α} {this : Nat} (hr : Repr w this []) :
    Clear w this = .ok w () := by
  obtain ⟨d, hd⟩ := hr.head
  have hl : Clear.loop (w.length + 1) w this = .ok w () := by
    simp [Clear.loop, getNode_list hd]
  simp [Clear, hd, hl]
  exact setSize_same hd

/-- C16: `Clear()` returns and leaves the container empty: `begin() == end()`,
`GetSize()` is `0`, `IsEmpty()` is true, iteration yields nothing, and the
container compares equal to a default-constructed one; `Clear()` on the
emptied container returns with the memory unchanged. -/
theorem C16_Clear [Inhabited α] [BEq α] (w : Mem α) (hv : Valid w) (this : Nat) (L : List α)
    (htl : toList w this = .ok L) :
    ∃ w2, Clear w this = .ok w2 () ∧ cbegin w2 this = .ok cend ∧
      GetSize w2 this = .ok 0 ∧ IsEmpty w2 this = .ok true ∧ toList w2 this = .ok [] ∧
      operator_eq (construct w2).1 this (construct w2).2 = .ok true ∧
      operator_eq (construct w2).1 (construct w2).2 this = .ok true ∧
      Clear w2 this = .ok w2 () := by
  obtain ⟨l, hr, rfl⟩ := hv.repr_of_toList htl
  obtain ⟨w2, h, hs⟩ := Clear_ok hv hr
  obtain ⟨hv3, hr3, ho3⟩ := create_valid hs.valid (default : α)
  have hthis := ho3 this [] hs.repr
  have hne : this ≠ w2.length := hs.repr.ne_length
  refine ⟨w2, h, ReprS.cbegin_eq hs.repr, ReprS.GetSize_eq hs.repr, ?_,
    ReprS.toList_eq hs.repr, ?_, ?_, Clear_empty hs.repr⟩
  · rw [ReprS.IsEmpty_eq hs.repr]; rfl
  · show operator_eq (w2 ++ [Cell.list ⟨default, none⟩ 0]) this w2.length = .ok true
    rw [operator_eq_Repr hthis hr3 hne]; rfl
  · show operator_eq (w2 ++ [Cell.list ⟨default, none⟩ 0]) w2.length this = .ok true
    rw [operator_eq_Repr hr3 hthis (Ne.symm hne)]; rfl

theorem C16_Clear_witness :
    Valid demo ∧ toList demo 0 = .ok [11, 10] ∧
      ∃ w2, Clear demo 0 = .ok w2 () ∧ cbegin w2 0 = .ok cend ∧
        GetSize w2 0 = .ok 0 ∧ IsEmpty w2 0 = .ok true ∧ toList w2 0 = .ok [] ∧
        operator_eq (construct w2).1 0 (construct w2).2 = .ok true ∧
        operator_eq (construct w2).1 (construct w2).2 0 = .ok true ∧
        Clear w2 0 = .ok w2 () :=
  ⟨demo_valid, rfl, C16_Clear demo demo_valid 0 [11, 10] rfl⟩

/-- C17: `A.swap(B)`, and the free `swap(A, B)` alike, leaves `A` with the
sequence and size `B` had and `B` with those `A` had; `swap(A, A)` returns with
the memory unchanged. -/
theorem C17_swap (w : Mem α) (hv : Valid w) (A B : Nat) (LA LB : List α)
    (hA : toList w A = .ok LA) (hB : toList w B = .ok LB) :
    (∃ w2, swap w A B = .ok w2 () ∧ swap_free w A B = .ok w2 () ∧
      toList w2 A = .ok LB ∧ GetSize w2 A = .ok LB.length ∧
      toList w2 B = .ok LA ∧ GetSize w2 B = .ok LA.length) ∧
    GetSize w A = .ok LA.length ∧ GetSize w B = .ok LB.length ∧
    swap w A A = .ok w () ∧ swap_free w A A = .ok w () := by
  obtain ⟨lA, hrA, rfl⟩ := hv.repr_of_toList hA
  obtain ⟨lB, hrB, rfl⟩ := hv.repr_of_toList hB
  obtain ⟨w2, h, -, r1, r2, -⟩ := swap_ok hv hrA hrB
  obtain ⟨d, hd⟩ := hrA.head
  refine ⟨⟨w2, h, h, ReprS.toList_eq r1, ?_, ReprS.toList_eq r2, ?_⟩, ?_, ?_,
    swap_self hd, swap_self hd⟩
  · rw [ReprS.GetSize_eq r1, length_vals]
  · rw [ReprS.GetSize_eq r2, length_vals]
  · rw [ReprS.GetSize_eq hrA, length_vals]
  · rw [ReprS.GetSize_eq hrB, length_vals]

theorem C17_swap_witness :
    Valid demo2 ∧ toList demo2 0 = .ok [11, 10] ∧ toList demo2 4 = .ok [13, 12] ∧
      (∃ w2, swap demo2 0 4 = .ok w2 () ∧ swap_free demo2 0 4 = .ok w2 () ∧
        toList w2 0 = .ok [13, 12] ∧ GetSize w2 0 = .ok 2 ∧
        toList w2 4 = .ok [11, 10] ∧ GetSize w2 4 = .ok 2) ∧
      GetSize demo2 0 = .ok 2 ∧ GetSize demo2 4 = .ok 2 ∧
      swap demo2 0 0 = .ok demo2 () ∧ swap_free demo2 0 0 = .ok demo2 () :=
  ⟨demo2_valid, rfl, rfl, C17_swap demo2 demo2_valid 0 4 [11, 10] [13, 12] rfl rfl⟩

/-! ## Assertions and positions -/

theorem EraseAfter_no_successor {w : Mem α} {this : Nat} {l : List (Nat × α)}
    (hr : Repr w this l) :
    (l = [] → ∀ p, EraseAfter w this p = .err .assertFailed w) ∧
    (l ≠ [] → EraseAfter w this (some (lastAddr this l)) = .err .undefinedBehavior w) := by
  obtain ⟨d, hd⟩ := hr.head
  constructor
  · intro hl p
    subst hl
    simp [EraseAfter, hd]
  · intro hl
    have hr0 : Repr w this (l ++ []) := by simpa using hr
    obtain ⟨y, hy⟩ := ReprS.getNode_last hr0
    have hz : l.length ≠ 0 := fun h => hl (List.eq_nil_of_length_eq_zero h)
    simp [EraseAfter, hd, hz, hy]

/-- C18, evaluated at the failing input: on the container `{11, 10}` the
position of the last element (two steps after `before_begin()`, with `end()`
as its successor) makes `EraseAfter` pass its only assertion `!IsEmpty()` and
dereference the null successor: the outcome is undefined behaviour, not a
failed assertion. -/
theorem C18_EraseAfter_last_is_unchecked :
    toList demo 0 = .ok [11, 10] ∧ advance demo (before_begin 0) 2 = .ok (some 3) ∧
      BasicIterator.incr demo (some 3) = .ok cend ∧
      EraseAfter demo 0 (some 3) = .err .undefinedBehavior demo :=
  ⟨rfl, rfl, rfl, rfl⟩

theorem InsertAfter_assert_iff {copy : α → Option α} {w : Mem α} {this : Nat} {hd : Node α}
    {s : Nat} (hw : w[this]? = some (.list hd s)) (p : Ptr) (v : α) :
    (∃ w2, InsertAfter copy w this p v = .err .assertFailed w2) ↔ p = cend := by
  constructor
  · rintro ⟨w2, h⟩
    cases p with
    | none => rfl
    | some a =>
      exfalso
      simp only [InsertAfter, hw] at h
      cases hg : getNode w a with
      | none => simp [hg] at h
      | some n =>
        simp only [hg, newNode] at h
        cases hc : copy v with
        | none => simp [hc] at h
        | some v2 =>
          simp only [hc] at h
          split at h
          · cases h
          · cases h
  · intro hp
    subst hp
    exact ⟨w, by simp [InsertAfter, hw, cend]⟩

/-- C19, refuted as stated: after `PopFront()` on `{11, 10}` the old `begin()`
still holds the address of the deleted node; it is not the end position, and
`InsertAfter` at it passes the assertion and reads the deleted node. -/
theorem C19_assertions_counterexample :
    cbegin demo 0 = .ok (some 2) ∧ PopFront demo 0 = .ok demoPopped () ∧
      toList demoPopped 0 = .ok [10] ∧ some 2 ≠ cend ∧
      InsertAfter some demoPopped 0 (some 2) 5 = .err .undefinedBehavior demoPopped ∧
      (InsertAfter some demoPopped 0 (some 2) 5).final = none := by
  refine ⟨rfl, rfl, rfl, ?_, rfl, rfl⟩
  intro h
  cases h

/-- C19, amended: `PopFront()` fails its assertion exactly when the container
is empty, and `InsertAfter(p, v)` exactly when `p` is the end position; the
memory is then as it was.  `PopFront()` on a non-empty container returns, and
`InsertAfter` at a position of the container (its sentinel or one of its nodes)
returns or propagates the exception of the element copy: there no assertion
fails and no missing node is accessed. -/
theorem C19_assertions (copy : α → Option α) (w : Mem α) (hv : Valid w) (this : Nat)
    (L : List α) (htl : toList w this = .ok L) :
    (((∃ w2, PopFront w this = .err .assertFailed w2) ↔ L = []) ∧
      (L = [] → PopFront w this = .err .assertFailed w) ∧
      (L ≠ [] → ∃ w2, PopFront w this = .ok w2 ())) ∧
    ((∀ p v, (∃ w2, InsertAfter copy w this p v = .err .assertFailed w2) ↔ p = cend) ∧
      (∀ v, InsertAfter copy w this cend v = .err .assertFailed w) ∧
      (∀ k p v, k ≤ L.length → advance w (before_begin this) k = .ok p →
        (copy v = none → ∃ w2, InsertAfter copy w this p v = .err .exception w2) ∧
        (∀ v2, copy v = some v2 → ∃ w2 it, InsertAfter copy w this p v = .ok w2 it))) := by
  obtain ⟨l, hr, rfl⟩ := hv.repr_of_toList htl
  obtain ⟨d, hd⟩ := hr.head
  have hempty : vals l = [] → PopFront w this = .err .assertFailed w := by
    intro hl
    have : l = [] := by simpa [vals] using hl
    subst this
    simp [PopFront, hd]
  have hnonempty : vals l ≠ [] → ∃ w2, PopFront w this = .ok w2 () := by
    intro hl
    cases l with
    | nil => exact absurd rfl hl
    | cons y t =>
      obtain ⟨a, x⟩ := y
      obtain ⟨w2, h, -⟩ := PopFront_ok hv hr
      exact ⟨w2, h⟩
  refine ⟨⟨⟨?_, fun hl => ⟨w, hempty hl⟩⟩, hempty, hnonempty⟩,
    fun p v => InsertAfter_assert_iff hd p v, ?_, ?_⟩
  · rintro ⟨w2, h⟩
    by_contra hl
    obtain ⟨w3, h3⟩ := hnonempty hl
    rw [h3] at h
    cases h
  · intro v
    simp [InsertAfter, hd, cend]
  · intro k p v hk hp
    rw [length_vals] at hk
    have hpe := position_unique hr hk hp
    subst hpe
    have hsplit : Repr w this (l.take k ++ l.drop k) := by
      rw [List.take_append_drop]; exact hr
    constructor
    · intro hc
      obtain ⟨w2, h, -⟩ := InsertAfter_throw hv hsplit hc
      exact ⟨w2, h⟩
    · intro v2 hc
      obtain ⟨w2, h, -⟩ := InsertAfter_ok hv hsplit hc
      exact ⟨w2, _, h⟩

theorem C19_assertions_witness :
    Valid demo ∧ toList demo 0 = .ok [11, 10] ∧
      (((∃ w2, PopFront demo 0 = .err .assertFailed w2) ↔ ([11, 10] : List Nat) = []) ∧
        (([11, 10] : List Nat) = [] → PopFront demo 0 = .err .assertFailed demo) ∧
        (([11, 10] : List Nat) ≠ [] → ∃ w2, PopFront demo 0 = .ok w2 ())) ∧
      ((∀ p v, (∃ w2, InsertAfter some demo 0 p v = .err .assertFailed w2) ↔ p = cend) ∧
        (∀ v, InsertAfter some demo 0 cend v = .err .assertFailed demo) ∧
        (∀ k p v, k ≤ ([11, 10] : List Nat).length → advance demo (before_begin 0) k = .ok p →
          (some v = none → ∃ w2, InsertAfter some demo 0 p v = .err .exception w2) ∧
          (∀ v2, some v = some v2 → ∃ w2 it, InsertAfter some demo 0 p v = .ok w2 it))) :=
  ⟨demo_valid, rfl, C19_assertions some demo demo_valid 0 [11, 10] rfl⟩

/-- C20, refuted as stated: on the container `{11, 10}` dereferencing the
before-begin position passes the assertion `node_ != nullptr` and yields the
value-initialized `value` of the sentinel, here `0`. -/
theorem C20_positions_counterexample :
    toList demo 0 = .ok [11, 10] ∧ BasicIterator.deref demo (before_begin 0) = .ok 0 ∧
      ¬ (BasicIterator.deref demo (before_begin 0) = .error .assertFailed) := by
  refine ⟨rfl, rfl, ?_⟩
  intro h
  have e : BasicIterator.deref demo (before_begin 0) = .ok 0 := rfl
  rw [e] at h
  cases h

/-- C20, amended: `before_begin()` advanced once is `begin()`; `begin()`
advanced `k < n` times is a position other than `end()` and other than
`before_begin()` whose dereference yields the element of index `k`; `begin()`
advanced `n` times is `end()`, so `begin() == end()` iff the container is
empty; dereferencing `end()` fails the assertion; dereferencing
`before_begin()` is not checked and yields the `value` member of the
sentinel. -/
theorem C20_positions (w : Mem α) (hv : Valid w) (this : Nat) (L : List α)
    (htl : toList w this = .ok L) :
    ∃ b, cbegin w this = .ok b ∧ advance w (before_begin this) 1 = .ok b ∧
      (∀ k y, L[k]? = some y → ∃ p, advance w b k = .ok p ∧ p ≠ cend ∧
        p ≠ before_begin this ∧ BasicIterator.deref w p = .ok y) ∧
      advance w b L.length = .ok cend ∧ (b = cend ↔ L = []) ∧
      BasicIterator.deref w cend = .error .assertFailed ∧
      ∃ hd s, w[this]? = some (.list hd s) ∧
        BasicIterator.deref w (before_begin this) = .ok hd.value := by
  obtain ⟨l, hr, rfl⟩ := hv.repr_of_toList htl
  obtain ⟨d, hd⟩ := hr.head
  refine ⟨startOf l none, ReprS.cbegin_eq hr, ?_, ?_, ?_, ?_, rfl, _, _, hd, ?_⟩
  · simp [advance, before_begin, BasicIterator.incr, getNode_list hd]
  · intro k y hy
    have hk : k < l.length := by
      have := (List.getElem?_eq_some.1 hy).1
      simpa using this
    have hseg : Seg w (l.take k ++ l.drop k) none := by
      rw [List.take_append_drop]; exact hr.seg
    have hseg2 := ((Seg_append (l.take k) (l.drop k) none).1 hseg).2
    rw [List.drop_eq_getElem_cons hk] at hseg2
    rcases hl : l[k] with ⟨a, x⟩
    rw [hl] at hseg2
    have hx : x = y := by
      have := List.getElem?_eq_getElem (l := vals l) (n := k) (by simpa using hk)
      rw [this] at hy
      simp only [vals, List.getElem_map, hl, Option.some.injEq] at hy
      exact hy
    subst hx
    have hmem : a ∈ addrs l := by
      have : l[k] ∈ l := List.getElem_mem hk
      rw [hl] at this
      exact List.mem_map.2 ⟨(a, x), this, rfl⟩
    refine ⟨some a, ?_, ?_, ?_, deref_node hseg2.1⟩
    · rw [advance_Seg hr.seg k (Nat.le_of_lt hk), List.drop_eq_getElem_cons hk, hl]; rfl
    · simp [cend]
    · intro e
      simp only [before_begin, Option.some.injEq] at e
      exact hr.not_mem (e ▸ hmem)
  · rw [length_vals, advance_Seg hr.seg l.length (Nat.le_refl _)]
    simp [cend]
  · cases l with
    | nil => simp [cend]
    | cons y t => obtain ⟨a, x⟩ := y; simp [cend]
  · simp [BasicIterator.deref, before_begin, getNode_list hd]

theorem C20_positions_witness :
    Valid demo ∧ toList demo 0 = .ok [11, 10] ∧
      ∃ b, cbegin demo 0 = .ok b ∧ advance demo (before_begin 0) 1 = .ok b ∧
        (∀ k y, ([11, 10] : List Nat)[k]? = some y → ∃ p, advance demo b k = .ok p ∧
          p ≠ cend ∧ p ≠ before_begin 0 ∧ BasicIterator.deref demo p = .ok y) ∧
        advance demo b ([11, 10] : List Nat).length = .ok cend ∧
        (b = cend ↔ ([11, 10] : List Nat) = []) ∧
        BasicIterator.deref demo cend = .error .assertFailed ∧
        ∃ hd s, demo[0]? = some (.list hd s) ∧
          BasicIterator.deref demo (before_begin 0) = .ok hd.value :=
  ⟨demo_valid, rfl, C20_positions demo demo_valid 0 [11, 10] rfl⟩

end SLL
